import Mathlib

/-! MazeRunner: maze generation and shortest-path search.

A shallow embedding of `MazeGenerator` (randomised depth-first carving on the
odd lattice) and `AIPathfinder` (breadth-first search and Dijkstra over the
same grid), followed by the properties proved about them.

Conventions of the embedding.

* `int` values are `Int`; the grid `std::vector<std::vector<char>>` is a list of
  rows; `maze[y][x]` is `cellAt x y`.
* Every `while` loop is a step function run by `runLoop` under a fuel bound;
  `none` means the fuel ran out, never a result of the program.
* `std::uniform_int_distribution` and the order in which `std::priority_queue`
  yields entries of equal cost are not fixed by the source: both are an oracle
  `Nat → Nat`, and the properties are proved for every oracle.
* The maps `std::unordered_map<std::string, V>` are keyed through `createKey`,
  whose text `"x,y"` determines the pair `(x, y)`; the key is the pair.
-/

namespace MazeRunner

/-- Coordinate pair `(x, y)`, the `std::pair<int, int>` of the source. -/
abbrev Coord := Int × Int

/-- Bounded run of a `while` loop. The step function either leaves the loop with
a result (`Sum.inl`) or produces the state of the next iteration (`Sum.inr`). -/
def runLoop {σ ρ : Type} (step : σ → ρ ⊕ σ) : Nat → σ → Option ρ
  | 0, _ => none
  | fuel + 1, s =>
    match step s with
    | Sum.inl r => some r
    | Sum.inr s' => runLoop step fuel s'

/-- The successive states of a `while` loop, each taken where the loop condition
is tested, for at most `fuel` iterations; the last one may be the state in which
the loop is left. -/
def loopTrace {σ ρ : Type} (step : σ → ρ ⊕ σ) : Nat → σ → List σ
  | 0, _ => []
  | fuel + 1, s =>
    s :: (match step s with
      | Sum.inl _ => []
      | Sum.inr s' => loopTrace step fuel s')

/-! ## MazeGenerator -/

/-- The `MazeGenerator` object: stored dimensions, the explored mask and the
marker array. -/
structure MazeGenerator where
  width : Int
  height : Int
  visited : List (List Bool)
  maze : List (List Char)

/-- Stack entry of the generator, `struct Cell { int x, y; }`. -/
abbrev Cell := Int × Int

/-- State of the carving loop: the backtracking stack (top first), the object
being mutated, and the number of random draws made so far (one per
`removeWall` call). -/
structure CarveState where
  cellStack : List Cell
  grid : MazeGenerator
  draws : Nat

namespace MazeGenerator

/-- Constructor `MazeGenerator(width, height)`: even dimensions are bumped to the
next odd value, the grid is all Wall and nothing is explored. -/
def new (width height : Int) : MazeGenerator :=
  let w := if Int.tmod width 2 = 0 then width + 1 else width
  let h := if Int.tmod height 2 = 0 then height + 1 else height
  { width := w
    height := h
    visited := List.replicate h.toNat (List.replicate w.toNat false)
    maze := List.replicate h.toNat (List.replicate w.toNat '#') }

/-- Read `maze[y][x]`. -/
def cellAt (m : MazeGenerator) (x y : Int) : Char :=
  (m.maze.getD y.toNat []).getD x.toNat '#'

/-- Read `visited[y][x]`. -/
def visitedAt (m : MazeGenerator) (x y : Int) : Bool :=
  (m.visited.getD y.toNat []).getD x.toNat false

/-- Write `maze[y][x] = c`. -/
def setCell (m : MazeGenerator) (x y : Int) (c : Char) : MazeGenerator :=
  { m with maze := m.maze.set y.toNat ((m.maze.getD y.toNat []).set x.toNat c) }

/-- Write `visited[y][x] = b`. -/
def setVisited (m : MazeGenerator) (x y : Int) (b : Bool) : MazeGenerator :=
  { m with visited := m.visited.set y.toNat ((m.visited.getD y.toNat []).set x.toNat b) }

/-- Accessor `getWidth`. -/
def getWidth (m : MazeGenerator) : Int := m.width

/-- Accessor `getHeight`. -/
def getHeight (m : MazeGenerator) : Int := m.height

/-- Bounds test `isValidCell`. -/
def isValidCell (m : MazeGenerator) (x y : Int) : Bool :=
  decide (x ≥ 0) && decide (x < m.width) && decide (y ≥ 0) && decide (y < m.height)

/-- Traversability test `isValidPath`: in range and not a wall marker. -/
def isValidPath (m : MazeGenerator) (x y : Int) : Bool :=
  if !m.isValidCell x y then false
  else
    let cell := m.cellAt x y
    cell == ' ' || cell == 'S' || cell == 'E' || cell == 'P' || cell == '*' || cell == 'B'

/-- Lattice neighbours two cells away (up, down, left, right) that are in range
and not yet explored: `getUnvisitedNeighbors`. -/
def getUnvisitedNeighbors (m : MazeGenerator) (x y : Int) : List Cell :=
  (([(0, -2), (0, 2), (-2, 0), (2, 0)] : List (Int × Int)).map
      fun d => (x + d.1, y + d.2)).filter
    fun c => m.isValidCell c.1 c.2 && !m.visitedAt c.1 c.2

/-- Carve both endpoints and the midpoint between them: `removeWall`. -/
def removeWall (m : MazeGenerator) (x1 y1 x2 y2 : Int) : MazeGenerator :=
  let m1 := m.setCell x1 y1 ' '
  let m2 := m1.setCell x2 y2 ' '
  let midX := Int.tdiv (x1 + x2) 2
  let midY := Int.tdiv (y1 + y2) 2
  m2.setCell midX midY ' '

/-- Marker write of `setStartPosition`: only a plain Path cell in range becomes
Start. -/
def setStartPosition (m : MazeGenerator) (x y : Int) : MazeGenerator :=
  if m.isValidCell x y && m.cellAt x y == ' ' then m.setCell x y 'S' else m

/-- Marker write of `setExitPosition`: only a plain Path cell in range becomes
Exit. -/
def setExitPosition (m : MazeGenerator) (x y : Int) : MazeGenerator :=
  if m.isValidCell x y && m.cellAt x y == ' ' then m.setCell x y 'E' else m

/-- Accessor `getStartPosition`. -/
def getStartPosition (_m : MazeGenerator) : Coord := (1, 1)

/-- Accessor `getExitPosition`. -/
def getExitPosition (m : MazeGenerator) : Coord := (m.width - 2, m.height - 2)

/-- The reset loops at the head of `generateMaze`: every cell becomes Wall and
unexplored, row by row. -/
def clearCells (m : MazeGenerator) : MazeGenerator :=
  (List.range m.height.toNat).foldl
    (fun acc (i : Nat) => (List.range m.width.toNat).foldl
      (fun acc2 (j : Nat) => (acc2.setCell j i '#').setVisited j i false) acc) m

/-- One iteration of the carving loop of `generateMaze`. The top of the stack is
popped; with no unexplored neighbour it stays popped, otherwise it is pushed
back, a neighbour is drawn, marked explored, carved and pushed. -/
def carveStep (rand : Nat → Nat) (s : CarveState) : CarveState ⊕ CarveState :=
  match s.cellStack with
  | [] => Sum.inl s
  | current :: rest =>
    let neighbors := s.grid.getUnvisitedNeighbors current.1 current.2
    if neighbors.isEmpty then Sum.inr { s with cellStack := rest }
    else
      let chosen := neighbors.getD (rand s.draws % neighbors.length) (0, 0)
      let g1 := s.grid.setVisited chosen.1 chosen.2 true
      let g2 := g1.removeWall current.1 current.2 chosen.1 chosen.2
      Sum.inr { cellStack := chosen :: current :: rest, grid := g2, draws := s.draws + 1 }

/-- State in which the carving loop is entered: the grid is reset, (1,1) is
explored, carved and alone on the stack. -/
def carveInit (m : MazeGenerator) : CarveState :=
  { cellStack := [(1, 1)]
    grid := ((m.clearCells).setVisited 1 1 true).setCell 1 1 ' '
    draws := 0 }

/-- The cells whose `visited` or `maze` entry the iteration entered in state `s`
reads or writes, in order: the `visited` entries read by `getUnvisitedNeighbors`
(each only after its bounds test passed), then, in a carving iteration, the
`visited` entry written at the chosen neighbour and the three `maze` entries
written by `removeWall` (current cell, chosen neighbour, wall midpoint). -/
def carveAccesses (rand : Nat → Nat) (s : CarveState) : List Coord :=
  match s.cellStack with
  | [] => []
  | current :: _ =>
    let probed := (([(0, -2), (0, 2), (-2, 0), (2, 0)] : List (Int × Int)).map
        fun d => (current.1 + d.1, current.2 + d.2)).filter
      fun c => s.grid.isValidCell c.1 c.2
    let neighbors := s.grid.getUnvisitedNeighbors current.1 current.2
    if neighbors.isEmpty then probed
    else
      let chosen := neighbors.getD (rand s.draws % neighbors.length) (0, 0)
      probed ++ [chosen, current, chosen,
        (Int.tdiv (current.1 + chosen.1) 2, Int.tdiv (current.2 + chosen.2) 2)]

/-- The neighbour that the iteration entered in state `s` marks explored and
pushes as a newly discovered cell; none when the iteration only pops. -/
def carveChosen (rand : Nat → Nat) (s : CarveState) : List Cell :=
  match s.cellStack with
  | [] => []
  | current :: _ =>
    let neighbors := s.grid.getUnvisitedNeighbors current.1 current.2
    if neighbors.isEmpty then []
    else [neighbors.getD (rand s.draws % neighbors.length) (0, 0)]

/-- The cells marked explored and pushed as newly discovered by the first `fuel`
iterations of the carving loop from state `s` on, in order. -/
def carveChosenFrom (rand : Nat → Nat) (fuel : Nat) (s : CarveState) : List Cell :=
  ((loopTrace (carveStep rand) fuel s).map (carveChosen rand)).flatten

/-- Every cell that `generateMaze` marks explored and pushes as newly discovered
during the first `fuel` iterations, in order: (1,1) before the loop, then the
chosen neighbour of each carving iteration. -/
def carveDiscovered (fuel : Nat) (rand : Nat → Nat) (m : MazeGenerator) : List Cell :=
  (1, 1) :: carveChosenFrom rand fuel (carveInit m)

/-- The carving phase of `generateMaze`, up to the emptying of the stack. -/
def carveMaze (fuel : Nat) (rand : Nat → Nat) (m : MazeGenerator) : Option CarveState :=
  runLoop (carveStep rand) fuel (carveInit m)

/-- The whole of `generateMaze`: carving, then the Start and Exit markers. -/
def generateMaze (fuel : Nat) (rand : Nat → Nat) (m : MazeGenerator) : Option MazeGenerator :=
  match carveMaze fuel rand m with
  | none => none
  | some s =>
    some ((s.grid.setStartPosition 1 1).setExitPosition (s.grid.width - 2) (s.grid.height - 2))

end MazeGenerator

/-! ## AIPathfinder -/

/-- Search node `struct Node { int x, y; int cost; int distance; }`. -/
structure Node where
  x : Int
  y : Int
  cost : Int
  distance : Int
deriving DecidableEq

/-- A `std::unordered_map<std::string, V>` whose keys come from `createKey`. -/
structure KeyMap (V : Type) where
  find : Coord → Option V

namespace KeyMap

/-- The empty map. -/
def empty {V : Type} : KeyMap V := { find := fun _ => none }

/-- Assignment `map[key] = value`. -/
def insert {V : Type} (m : KeyMap V) (key : Coord) (value : V) : KeyMap V :=
  { find := fun k => if k = key then some value else m.find k }

end KeyMap

/-- The value an `int` computation keeps of its mathematical result: the residue
modulo `2^32` in the range of `int`. -/
def toInt32 (n : Int) : Int := (n + 2147483648) % 4294967296 - 2147483648

/-- The value a `std::size_t` (64 bits) keeps of an integer, as in the conversion
of an `int` and in unsigned arithmetic: the residue modulo `2^64`. -/
def toSizeT (n : Int) : Nat := (n % 18446744073709551616).toNat

/-- Largest `int`, the "infinity" of the distance table. -/
def INT_MAX : Int := 2147483647

/-- State of the breadth-first loop: the FIFO queue (front first), the visited
map and the predecessor map. -/
structure BFSState where
  queue : List Node
  visited : KeyMap Bool
  cameFrom : KeyMap Coord

/-- State of the Dijkstra loop: the priority queue as a bag of entries, the
three maps, and the number of pops made so far. -/
structure DijkstraState where
  pq : List Node
  distances : KeyMap Int
  cameFrom : KeyMap Coord
  visited : KeyMap Bool
  pops : Nat

namespace AIPathfinder

/-- Map key of a position: `createKey`. -/
def createKey (x y : Int) : Coord := (x, y)

/-- The up, down, left, right neighbours that are in range and traversable:
`getNeighbors`. -/
def getNeighbors (x y : Int) (maze : MazeGenerator) : List Node :=
  ((([(0, -1), (0, 1), (-1, 0), (1, 0)] : List (Int × Int)).map
      fun d => (x + d.1, y + d.2)).filter
    fun c => decide (c.1 ≥ 0) && decide (c.1 < maze.getWidth) &&
      decide (c.2 ≥ 0) && decide (c.2 < maze.getHeight) && maze.isValidPath c.1 c.2).map
    fun c => { x := c.1, y := c.2, cost := 0, distance := 0 }

/-- One iteration of the backward walk of `reconstructPath`: the state is the
vector built so far and the current position. -/
def reconstructStep (cameFrom : KeyMap Coord) (s : List Coord × Coord) :
    List Coord ⊕ (List Coord × Coord) :=
  match cameFrom.find (createKey s.2.1 s.2.2) with
  | some prev => Sum.inr (s.1 ++ [s.2], prev)
  | none => Sum.inl (s.1 ++ [s.2]).reverse

/-- Walk the predecessor map back from the goal, then reverse:
`reconstructPath`. -/
def reconstructPath (fuel : Nat) (cameFrom : KeyMap Coord) (endX endY : Int) :
    Option (List Coord) :=
  runLoop (reconstructStep cameFrom) fuel ([], (endX, endY))

/-- Body of the neighbour loop of `findPathBFS`. -/
def bfsVisit (current : Node) (s : BFSState) (neighbor : Node) : BFSState :=
  let neighborKey := createKey neighbor.x neighbor.y
  if s.visited.find neighborKey = none then
    { queue := s.queue ++
        [{ x := neighbor.x, y := neighbor.y, cost := 0, distance := current.distance + 1 }]
      visited := s.visited.insert neighborKey true
      cameFrom := s.cameFrom.insert neighborKey (current.x, current.y) }
  else s

/-- One iteration of the main loop of `findPathBFS`. -/
def bfsStep (fuel : Nat) (endX endY : Int) (maze : MazeGenerator) (s : BFSState) :
    Option (List Coord) ⊕ BFSState :=
  match s.queue with
  | [] => Sum.inl (some [])
  | current :: rest =>
    if current.x = endX ∧ current.y = endY then
      Sum.inl (reconstructPath fuel s.cameFrom endX endY)
    else
      Sum.inr ((getNeighbors current.x current.y maze).foldl (bfsVisit current)
        { s with queue := rest })

/-- State in which the main loop of `findPathBFS` is entered. -/
def bfsInit (startX startY : Int) : BFSState :=
  { queue := [{ x := startX, y := startY, cost := 0, distance := 0 }]
    visited := KeyMap.empty.insert (createKey startX startY) true
    cameFrom := KeyMap.empty }

/-- Breadth-first search `findPathBFS`. -/
def findPathBFS (fuel : Nat) (startX startY endX endY : Int) (maze : MazeGenerator) :
    Option (List Coord) :=
  (runLoop (bfsStep fuel endX endY maze) fuel (bfsInit startX startY)).join

/-- The nodes that the iteration of `findPathBFS` entered in state `s` pushes
onto the queue: what the neighbour loop appended behind the entries that were
already waiting. -/
def bfsPushed (endX endY : Int) (maze : MazeGenerator) (s : BFSState) : List Node :=
  match bfsStep 0 endX endY maze s with
  | Sum.inl _ => []
  | Sum.inr s' => s'.queue.drop (s.queue.length - 1)

/-- Every coordinate that `findPathBFS` pushes onto its queue during the first
`fuel` iterations, in order: the start, then the pushes of each iteration. -/
def bfsEnqueued (fuel : Nat) (startX startY endX endY : Int) (maze : MazeGenerator) :
    List Coord :=
  (startX, startY) ::
    (((loopTrace (bfsStep 0 endX endY maze) fuel (bfsInit startX startY)).map
      (bfsPushed endX endY maze)).flatten).map fun n => (n.x, n.y)

/-- Whether no entry of the bag is cheaper than `n`. -/
def isCheapest (pq : List Node) (n : Node) : Bool :=
  pq.all fun e => decide (n.cost ≤ e.cost)

/-- Indices of the entries of least cost, in the order of the bag. -/
def cheapestIndices (pq : List Node) : List Nat :=
  (List.range pq.length).filter fun i =>
    match pq[i]? with
    | some n => isCheapest pq n
    | none => false

/-- The `top` and `pop` of the priority queue: some entry of least cost leaves
the bag. Which one, among several of least cost, is decided by `choice`. -/
def popMin (choice : Nat) (pq : List Node) : Option (Node × List Node) :=
  let cands := cheapestIndices pq
  match cands[choice % cands.length]? with
  | none => none
  | some i =>
    match pq[i]? with
    | some n => some (n, pq.eraseIdx i)
    | none => none

/-- Read `distances[key]`; a key absent from the map reads as `0`. -/
def distAt (distances : KeyMap Int) (key : Coord) : Int :=
  (distances.find key).getD 0

/-- The pre-seeding loops of `findPathDijkstra`: every traversable cell gets
cost `INT_MAX`. -/
def initDistances (maze : MazeGenerator) : KeyMap Int :=
  (List.range maze.getHeight.toNat).foldl
    (fun acc (y : Nat) => (List.range maze.getWidth.toNat).foldl
      (fun acc2 (x : Nat) =>
        if maze.isValidPath x y then acc2.insert (createKey x y) INT_MAX else acc2) acc)
    KeyMap.empty

/-- Body of the neighbour loop of `findPathDijkstra`. -/
def relax (current : Node) (s : DijkstraState) (neighbor : Node) : DijkstraState :=
  let currentKey := createKey current.x current.y
  let neighborKey := createKey neighbor.x neighbor.y
  if s.visited.find neighborKey = none then
    let newCost := distAt s.distances currentKey + 1
    if newCost < distAt s.distances neighborKey then
      { s with
        distances := s.distances.insert neighborKey newCost
        cameFrom := s.cameFrom.insert neighborKey (current.x, current.y)
        pq := s.pq ++ [{ x := neighbor.x, y := neighbor.y, cost := newCost, distance := 0 }] }
    else s
  else s

/-- One iteration of the main loop of `findPathDijkstra`. -/
def dijkstraStep (fuel : Nat) (tie : Nat → Nat) (endX endY : Int) (maze : MazeGenerator)
    (s : DijkstraState) : Option (List Coord) ⊕ DijkstraState :=
  match popMin (tie s.pops) s.pq with
  | none => Sum.inl (some [])
  | some (current, rest) =>
    let currentKey := createKey current.x current.y
    if s.visited.find currentKey ≠ none then
      Sum.inr { s with pq := rest, pops := s.pops + 1 }
    else
      let s1 : DijkstraState :=
        { s with pq := rest, pops := s.pops + 1, visited := s.visited.insert currentKey true }
      if current.x = endX ∧ current.y = endY then
        Sum.inl (reconstructPath fuel s1.cameFrom endX endY)
      else
        Sum.inr ((getNeighbors current.x current.y maze).foldl (relax current) s1)

/-- State in which the main loop of `findPathDijkstra` is entered. -/
def dijkstraInit (startX startY : Int) (maze : MazeGenerator) : DijkstraState :=
  { pq := [{ x := startX, y := startY, cost := 0, distance := 0 }]
    distances := (initDistances maze).insert (createKey startX startY) 0
    cameFrom := KeyMap.empty
    visited := KeyMap.empty
    pops := 0 }

/-- Dijkstra search `findPathDijkstra`. -/
def findPathDijkstra (fuel : Nat) (tie : Nat → Nat) (startX startY endX endY : Int)
    (maze : MazeGenerator) : Option (List Coord) :=
  (runLoop (dijkstraStep fuel tie endX endY maze) fuel (dijkstraInit startX startY maze)).join

/-- The nodes that the iteration of `findPathDijkstra` entered in state `s`
pushes onto the priority queue: what the neighbour loop added to the entries
left after the pop. -/
def dijkstraPushed (tie : Nat → Nat) (endX endY : Int) (maze : MazeGenerator)
    (s : DijkstraState) : List Node :=
  match dijkstraStep 0 tie endX endY maze s with
  | Sum.inl _ => []
  | Sum.inr s' => s'.pq.drop (s.pq.length - 1)

/-- The coordinates pushed onto the priority queue by the first `fuel`
iterations of `findPathDijkstra` from state `s` on, in order. -/
def dijkstraPushedFrom (tie : Nat → Nat) (endX endY : Int) (maze : MazeGenerator)
    (fuel : Nat) (s : DijkstraState) : List Coord :=
  (((loopTrace (dijkstraStep 0 tie endX endY maze) fuel s).map
    (dijkstraPushed tie endX endY maze)).flatten).map fun n => (n.x, n.y)

/-- Every coordinate that `findPathDijkstra` pushes onto its priority queue
during the first `fuel` iterations, in order: the start, then the pushes of each
iteration. -/
def dijkstraEnqueued (fuel : Nat) (tie : Nat → Nat) (startX startY endX endY : Int)
    (maze : MazeGenerator) : List Coord :=
  (startX, startY) ::
    dijkstraPushedFrom tie endX endY maze fuel (dijkstraInit startX startY maze)

/-- Whether the iteration entered in state `s` pops an entry whose coordinate is
already in `visited`, that is, takes the "skip if already processed" branch. -/
def dijkstraSkips (tie : Nat → Nat) (s : DijkstraState) : Bool :=
  match popMin (tie s.pops) s.pq with
  | none => false
  | some (current, _) => (s.visited.find (createKey current.x current.y)).isSome

/-- Step count of a path: `getPathLength`. The difference `path.size() - 1` is
taken in `std::size_t` and narrowed to the `int` that is returned. -/
def getPathLength (path : List Coord) : Int :=
  if path.isEmpty then 0 else toInt32 (toSizeT ((path.length : Int) - 1))

end AIPathfinder

/-! ## Player -/

/-- The `Player` object: position, start position, move counter and the move
history, a singly linked list read from head to tail. -/
structure Player where
  x : Int
  y : Int
  startX : Int
  startY : Int
  moves : Int
  moveHistory : List Coord

namespace Player

/-- Constructor `Player()`. -/
def new : Player :=
  { x := 0, y := 0, startX := 0, startY := 0, moves := 0, moveHistory := [] }

/-- Append a position at the tail of the history: `addToHistory`. -/
def addToHistory (p : Player) (x y : Int) : Player :=
  { p with moveHistory := p.moveHistory ++ [(x, y)] }

/-- Drop every history node: `clearHistory`. -/
def clearHistory (p : Player) : Player :=
  { p with moveHistory := [] }

/-- Place the player on its start cell: `Player::initialize` (the name is
reserved in Lean). -/
def initialise (p : Player) (startX startY : Int) : Player :=
  ({ p with x := startX, y := startY, startX := startX, startY := startY,
            moves := 0 }.clearHistory).addToHistory startX startY

/-- Collision test `isValidMove`: in range and traversable. -/
def isValidMove (newX newY : Int) (maze : MazeGenerator) : Bool :=
  if newX < 0 ∨ newX ≥ maze.getWidth ∨ newY < 0 ∨ newY ≥ maze.getHeight then false
  else maze.isValidPath newX newY

/-- One keyboard move, `Player::move`: the returned flag and the player
afterwards. -/
def move (p : Player) (direction : Char) (maze : MazeGenerator) : Bool × Player :=
  let newX := p.x
  let newY := p.y
  let target : Option (Int × Int) :=
    if direction = 'W' ∨ direction = 'w' then some (newX, newY - 1)
    else if direction = 'S' ∨ direction = 's' then some (newX, newY + 1)
    else if direction = 'A' ∨ direction = 'a' then some (newX - 1, newY)
    else if direction = 'D' ∨ direction = 'd' then some (newX + 1, newY)
    else none
  match target with
  | none => (false, p)
  | some t =>
    if isValidMove t.1 t.2 maze then
      (true, ({ p with x := t.1, y := t.2, moves := p.moves + 1 }).addToHistory t.1 t.2)
    else (false, p)

/-- Accessor `getX`. -/
def getX (p : Player) : Int := p.x

/-- Accessor `getY`. -/
def getY (p : Player) : Int := p.y

/-- Accessor `getMoves`. -/
def getMoves (p : Player) : Int := p.moves

/-- The history as a vector, head first: `getMoveHistory`. -/
def getMoveHistory (p : Player) : List Coord := p.moveHistory

/-- Exit test `hasReachedExit`: inside the grid, and on a cell marked Exit or on
the exit corner. -/
def hasReachedExit (p : Player) (maze : MazeGenerator) : Bool :=
  if p.y ≥ 0 ∧ p.y < maze.getHeight ∧ p.x ≥ 0 ∧ p.x < maze.getWidth then
    if maze.cellAt p.x p.y = 'E' then true
    else
      let exitX := maze.getWidth - 2
      let exitY := maze.getHeight - 2
      decide (p.x = exitX) && decide (p.y = exitY)
  else false

/-- Back to the start cell: `reset`. -/
def reset (p : Player) : Player :=
  ({ p with x := p.startX, y := p.startY, moves := 0 }.clearHistory).addToHistory
    p.startX p.startY

end Player

/-! ## GameManager -/

/-- An entry of the score table, `std::pair<std::string, int>`. -/
abbrev ScoreEntry := String × Int

namespace GameManager

/-- The comparator handed to `std::sort` in `getTopScores`. -/
def byScoreDesc (a b : ScoreEntry) : Bool := decide (a.2 > b.2)

/-- Top of the score table: `getTopScores`. The table `scoreMap` is given by its
entries in iteration order; `sort` is `std::sort`, a parameter because the
standard library fixes its result only up to the order of equivalent entries. -/
def getTopScores (sort : (ScoreEntry → ScoreEntry → Bool) → List ScoreEntry → List ScoreEntry)
    (scoreMap : List ScoreEntry) (count : Int) : List ScoreEntry :=
  let scores := sort byScoreDesc scoreMap
  if scores.length > toSizeT count then scores.take (toSizeT count) else scores

/-- Percentage of the optimum achieved: `calculateEfficiency`. -/
def calculateEfficiency (playerMoves shortestPathLength : Int) : Int :=
  if playerMoves = 0 ∨ shortestPathLength = 0 then 0
  else
    let efficiency := Int.tdiv (toInt32 (shortestPathLength * 100)) playerMoves
    min 100 efficiency

/-- Final score: `endGame`. The time stamp and the event queue that the source
also updates do not reach the returned score and are left out; `timeTaken` is a
`long long`, and `(int)timeTaken` is `toInt32 timeTaken`. -/
def endGame (moves timeTaken shortestPathLength : Int) : Int :=
  let efficiency := calculateEfficiency moves shortestPathLength
  let timeBonus := max 0 (toInt32 (1000 - toInt32 timeTaken))
  let moveBonus := max 0 (toInt32 (500 - moves))
  toInt32 (toInt32 (toInt32 (efficiency * 10) + timeBonus) + moveBonus)

end GameManager

end MazeRunner


/-! ## Vocabulary of the properties -/

namespace MazeRunner

/-- Position of a search node. -/
def Node.pos (n : Node) : Coord := (n.x, n.y)

/-- Two coordinates differ by exactly 1 in exactly one component. -/
def Adjacent (p q : Coord) : Prop :=
  (p.1 = q.1 ∧ (p.2 = q.2 + 1 ∨ q.2 = p.2 + 1)) ∨
  (p.2 = q.2 ∧ (p.1 = q.1 + 1 ∨ q.1 = p.1 + 1))

/-- A 4-directional unit step from `p` into the traversable cell `q`. The cell
stepped from is not tested, exactly as the searches never test their start. -/
def Step (maze : MazeGenerator) (p q : Coord) : Prop :=
  Adjacent p q ∧ maze.isValidPath q.1 q.2 = true

/-- The list `r` is a route from `s` to `e`: it starts at `s`, ends at `e`, and
each element is entered from its predecessor by a unit step into a traversable
cell. Its step count is `r.length - 1`. -/
def IsRoute (maze : MazeGenerator) (s e : Coord) (r : List Coord) : Prop :=
  r.head? = some s ∧ r.getLast? = some e ∧ r.Chain' (Step maze)

/-- The cell `e` can be reached from `s` by unit steps through traversable
cells. -/
def Reachable (maze : MazeGenerator) (s e : Coord) : Prop :=
  ∃ r, IsRoute maze s e r

/-- Well-formed path from `s` to `e`: right endpoints, consecutive elements
adjacent, every element after the first traversable, no repetition. -/
def WellFormedPath (maze : MazeGenerator) (s e : Coord) (p : List Coord) : Prop :=
  p.head? = some s ∧ p.getLast? = some e ∧ p.Chain' Adjacent ∧
    (∀ c ∈ p.tail, maze.isValidPath c.1 c.2 = true) ∧ p.Nodup

/-- Number of cells of the rectangle `[0,w) × [0,h)` absent from the map. -/
def unvisitedCount (w h : Int) (visited : KeyMap Bool) : Nat :=
  ((Finset.Ico 0 w ×ˢ Finset.Ico 0 h).filter fun c => visited.find c = none).card

/-- Loop invariant of `findPathBFS`, stated on the queue with the node being
expanded still at its front. `lvl` is the discovery level of each visited
cell. -/
structure BFSInv (maze : MazeGenerator) (start goal : Coord) (lvl : Coord → Nat)
    (queue : List Node) (visited : KeyMap Bool) (cameFrom : KeyMap Coord) : Prop where
  start_vis : visited.find start ≠ none
  start_lvl : lvl start = 0
  parent : ∀ v u, cameFrom.find v = some u →
    visited.find u ≠ none ∧ visited.find v ≠ none ∧ lvl v = lvl u + 1 ∧ Step maze u v
  root : ∀ v, visited.find v ≠ none → cameFrom.find v = none → v = start
  queue_vis : ∀ n ∈ queue, visited.find n.pos ≠ none
  sorted : queue.Pairwise fun a b => lvl a.pos ≤ lvl b.pos
  near : ∀ v, visited.find v ≠ none → ∀ n ∈ queue, lvl v ≤ lvl n.pos + 1
  closed : ∀ v, visited.find v ≠ none → (∀ n ∈ queue, n.pos ≠ v) →
    ∀ w, Step maze v w → visited.find w ≠ none ∧ lvl w ≤ lvl v + 1
  done_le : ∀ v, visited.find v ≠ none → (∀ n ∈ queue, n.pos ≠ v) →
    ∀ n ∈ queue, lvl v ≤ lvl n.pos
  goal_open : visited.find goal ≠ none → ∃ n ∈ queue, n.pos = goal

/-- What a search result must satisfy: the empty path exactly when the goal is
unreachable, otherwise a repetition-free route that no route undercuts. -/
def SearchResult (maze : MazeGenerator) (s e : Coord) (p : List Coord) : Prop :=
  (p = [] ∧ ¬ Reachable maze s e) ∨
  (IsRoute maze s e p ∧ p.Nodup ∧ ∀ r, IsRoute maze s e r → p.length ≤ r.length)

/-- The search has reached `v`: it is the start or has a predecessor. -/
def Discovered (start : Coord) (cameFrom : KeyMap Coord) (v : Coord) : Prop :=
  v = start ∨ cameFrom.find v ≠ none

/-- Cells still to be finalised by `findPathDijkstra`: the start and the cells of
the rectangle, less those in the visited map. -/
def unprocessedCount (start : Coord) (w h : Int) (visited : KeyMap Bool) : Nat :=
  ((insert start (Finset.Ico 0 w ×ˢ Finset.Ico 0 h)).filter
    fun c => visited.find c = none).card

/-- Part of the loop invariant of `findPathDijkstra` that makes the predecessor
map a tree rooted at the start. It needs no bound on the size of the grid. -/
structure DijTree (maze : MazeGenerator) (start : Coord) (pq : List Node)
    (dist : KeyMap Int) (cameFrom : KeyMap Coord) (visited : KeyMap Bool) : Prop where
  nonneg : ∀ v, 0 ≤ AIPathfinder.distAt dist v
  start_dist : AIPathfinder.distAt dist start = 0
  parent : ∀ v u, cameFrom.find v = some u →
    visited.find u ≠ none ∧ AIPathfinder.distAt dist v = AIPathfinder.distAt dist u + 1 ∧
      Step maze u v
  root : ∀ v, visited.find v ≠ none → Discovered start cameFrom v
  pq_disc : ∀ n ∈ pq, Discovered start cameFrom n.pos

/-- Part of the loop invariant of `findPathDijkstra` that makes the recorded
costs shortest distances. `busy` holds of the node whose neighbours are being
relaxed, `nproc` bounds the recorded costs. -/
structure DijFull (maze : MazeGenerator) (start goal : Coord) (busy : Coord → Prop)
    (nproc : Nat) (pq : List Node) (dist : KeyMap Int) (cameFrom : KeyMap Coord)
    (visited : KeyMap Bool) : Prop where
  unseen : ∀ v, maze.isValidPath v.1 v.2 = true → ¬ Discovered start cameFrom v →
    AIPathfinder.distAt dist v = INT_MAX
  seen_le : ∀ v, Discovered start cameFrom v → AIPathfinder.distAt dist v ≤ nproc
  queued : ∀ v, Discovered start cameFrom v → visited.find v = none →
    ∃ n ∈ pq, n.pos = v ∧ n.cost = AIPathfinder.distAt dist v
  cost_ge : ∀ n ∈ pq, AIPathfinder.distAt dist n.pos ≤ n.cost
  done_le : ∀ v, visited.find v ≠ none → ∀ n ∈ pq, AIPathfinder.distAt dist v ≤ n.cost
  closed : ∀ v, visited.find v ≠ none → ¬ busy v → ∀ w, Step maze v w →
    Discovered start cameFrom w ∧
      AIPathfinder.distAt dist w ≤ AIPathfinder.distAt dist v + 1
  busy_max : ∀ b, busy b → ∀ v, visited.find v ≠ none →
    AIPathfinder.distAt dist v ≤ AIPathfinder.distAt dist b
  goal_open : visited.find goal = none

/-- The recorded costs stay clear of `INT_MAX`: the grid has fewer than
`INT_MAX - 1` cells. -/
def FitsInt (maze : MazeGenerator) : Prop :=
  ((maze.width.toNat * maze.height.toNat : Nat) : Int) + 1 < INT_MAX

instance (maze : MazeGenerator) : Decidable (FitsInt maze) := by
  unfold FitsInt
  infer_instance

/-- Loop invariant of `findPathDijkstra`: the tree part always, the distance
part for grids whose cell count fits an `int`. `P` is the set of finalised
cells. -/
def DijInv (maze : MazeGenerator) (start goal : Coord) (s : DijkstraState) : Prop :=
  DijTree maze start s.pq s.distances s.cameFrom s.visited ∧
  (FitsInt maze → ∃ P : Finset Coord, (∀ v, s.visited.find v ≠ none ↔ v ∈ P) ∧
    DijFull maze start goal (fun _ => False) P.card s.pq s.distances s.cameFrom s.visited)

/-- What `findPathDijkstra` establishes: always a path that is empty or a
repetition-free route, and a shortest one when the cell count fits an `int`. -/
def DijPost (maze : MazeGenerator) (start goal : Coord) (r : Option (List Coord)) : Prop :=
  ∃ p, r = some p ∧ (p = [] ∨ (IsRoute maze start goal p ∧ p.Nodup)) ∧
    (FitsInt maze → SearchResult maze start goal p)

/-- Termination measure of the Dijkstra loop. -/
def dijMeasure (maze : MazeGenerator) (start : Coord) (s : DijkstraState) : Nat :=
  s.pq.length + 4 * unprocessedCount start maze.width maze.height s.visited

/-- The list `p` is a simple route from `a` to `b` through cells satisfying
`ok`: consecutive cells are adjacent, every cell satisfies `ok`, none repeats. -/
def SimpleRoute (ok : Coord → Prop) (a b : Coord) (p : List Coord) : Prop :=
  p.head? = some a ∧ p.getLast? = some b ∧ p.Chain' Adjacent ∧ (∀ c ∈ p, ok c) ∧ p.Nodup

/-- The cells satisfying `ok` form a tree under adjacency: any two of them are
joined by a simple route, and by only one. -/
def TreeLike (ok : Coord → Prop) : Prop :=
  (∀ a b, ok a → ok b → ∃ p, SimpleRoute ok a b p) ∧
  (∀ a b p q, SimpleRoute ok a b p → SimpleRoute ok a b q → p = q)

/-- A cycle through cells satisfying `ok`: at least three distinct cells, each
adjacent to the next and the last adjacent to the first. -/
def IsCycle (ok : Coord → Prop) (c : List Coord) : Prop :=
  3 ≤ c.length ∧ c.Nodup ∧ (∀ x ∈ c, ok x) ∧ c.Chain' Adjacent ∧
    ∃ a b, c.head? = some a ∧ c.getLast? = some b ∧ Adjacent b a

/-- The coordinate lies inside the grid. -/
def InRange (m : MazeGenerator) (x y : Int) : Prop :=
  0 ≤ x ∧ x < m.width ∧ 0 ≤ y ∧ y < m.height

/-- Shape of the object as every constructor call leaves it: both arrays have
`height` rows of `width` entries. -/
def WellFormed (m : MazeGenerator) : Prop :=
  m.maze.length = m.height.toNat ∧ (∀ row ∈ m.maze, row.length = m.width.toNat) ∧
  m.visited.length = m.height.toNat ∧ (∀ row ∈ m.visited, row.length = m.width.toNat)

/-- The cell is inside the grid and marked Path, Start or Exit. -/
def IsPathCell (m : MazeGenerator) (c : Coord) : Prop :=
  m.isValidCell c.1 c.2 = true ∧
    (m.cellAt c.1 c.2 = ' ' ∨ m.cellAt c.1 c.2 = 'S' ∨ m.cellAt c.1 c.2 = 'E')

/-- Carving node of a `w × h` grid: both coordinates odd, off the border. -/
def IsNode (w h : Int) (c : Coord) : Prop :=
  c.1 % 2 = 1 ∧ c.2 % 2 = 1 ∧ 1 ≤ c.1 ∧ c.1 ≤ w - 2 ∧ 1 ≤ c.2 ∧ c.2 ≤ h - 2

/-- Exactly one coordinate of the cell is even. -/
def IsCorridorPos (c : Coord) : Prop :=
  (c.1 % 2 = 0 ∧ c.2 % 2 = 1) ∨ (c.1 % 2 = 1 ∧ c.2 % 2 = 0)

instance (c : Coord) : Decidable (IsCorridorPos c) := by
  unfold IsCorridorPos
  infer_instance

/-- Number of non-wall cells of the grid. -/
def openCount (m : MazeGenerator) : Nat :=
  ((Finset.Ico 0 m.width ×ˢ Finset.Ico 0 m.height).filter
    fun c : Coord => m.cellAt c.1 c.2 ≠ '#').card

/-- Number of non-wall cells with exactly one even coordinate. -/
def corridorCount (m : MazeGenerator) : Nat :=
  ((Finset.Ico 0 m.width ×ˢ Finset.Ico 0 m.height).filter
    fun c : Coord => m.cellAt c.1 c.2 ≠ '#' ∧ IsCorridorPos c).card

/-- Number of explored cells of the grid. -/
def visitedCount (m : MazeGenerator) : Nat :=
  ((Finset.Ico 0 m.width ×ˢ Finset.Ico 0 m.height).filter
    fun c : Coord => m.visitedAt c.1 c.2 = true).card

/-- Number of carving nodes of a `w × h` grid. -/
def nodeCount (w h : Int) : Nat :=
  ((w - 1) / 2).toNat * ((h - 1) / 2).toNat

/-- Lattice adjacency of the generator: two cells exactly two apart along one
axis. -/
def LatticeAdj (c d : Coord) : Prop :=
  (d.1 = c.1 ∧ (d.2 = c.2 - 2 ∨ d.2 = c.2 + 2)) ∨
  (d.2 = c.2 ∧ (d.1 = c.1 - 2 ∨ d.1 = c.1 + 2))

/-- Loop invariant of the carving loop of `generateMaze` on a `w × h` grid. -/
structure CarveInv (w h : Int) (s : CarveState) : Prop where
  wf : WellFormed s.grid
  width_eq : s.grid.width = w
  height_eq : s.grid.height = h
  marks : ∀ x y, InRange s.grid x y → s.grid.cellAt x y = ' ' ∨ s.grid.cellAt x y = '#'
  vis_node : ∀ x y, InRange s.grid x y → s.grid.visitedAt x y = true → IsNode w h (x, y)
  node_open : ∀ x y, IsNode w h (x, y) →
    (s.grid.visitedAt x y = true ↔ s.grid.cellAt x y = ' ')
  no_even : ∀ x y, InRange s.grid x y → s.grid.cellAt x y = ' ' → ¬ (x % 2 = 0 ∧ y % 2 = 0)
  ends : ∀ x y, InRange s.grid x y → s.grid.cellAt x y = ' ' →
    ∀ d : Coord, Adjacent (x, y) d → d.1 % 2 = 1 → d.2 % 2 = 1 →
      IsNode w h d ∧ s.grid.visitedAt d.1 d.2 = true
  stack_vis : ∀ c ∈ s.cellStack, IsNode w h c ∧ s.grid.visitedAt c.1 c.2 = true
  origin : s.grid.visitedAt 1 1 = true
  finished : ∀ c, IsNode w h c → s.grid.visitedAt c.1 c.2 = true → c ∉ s.cellStack →
    ∀ d, IsNode w h d → LatticeAdj c d → s.grid.visitedAt d.1 d.2 = true
  tree : TreeLike (IsPathCell s.grid)
  draws_eq : s.draws + 1 = visitedCount s.grid
  corridors_eq : corridorCount s.grid + 1 = visitedCount s.grid
  open_eq : openCount s.grid + 1 = 2 * visitedCount s.grid

/-- Termination measure of the carving loop. -/
def carveMeasure (w h : Int) (s : CarveState) : Nat :=
  2 * (nodeCount w h - visitedCount s.grid) + s.cellStack.length

/-- A 3×3 grid whose cells (1,1) and (2,1) are carved. -/
def corridorGrid : MazeGenerator :=
  ((MazeGenerator.new 3 3).setCell 1 1 ' ').setCell 2 1 ' '

/-- The grid `corridorGrid` with the overlay marker `'P'` written on its path
cell (2,1), as a display overlay would leave it. -/
def overlayGrid : MazeGenerator := corridorGrid.setCell 2 1 'P'

/-- A player placed on the cell (1,1). -/
def samplePlayer : Player := Player.new.initialise 1 1

/-! ### The priority queue of Dijkstra under unit costs -/

/-- Invariant of the priority queue of `findPathDijkstra`: no coordinate has two
entries, no entry is finalised, each entry carries the cost recorded for its
coordinate, and all costs lie in the band `L .. L + 1`. -/
structure DijQueueInv (L : Int) (s : DijkstraState) : Prop where
  nodup : (s.pq.map Node.pos).Nodup
  fresh : ∀ n ∈ s.pq, s.visited.find n.pos = none
  cost : ∀ n ∈ s.pq, AIPathfinder.distAt s.distances n.pos = n.cost
  band : ∀ n ∈ s.pq, L ≤ n.cost ∧ n.cost ≤ L + 1

/-- The coordinate has been pushed at some time: it is finalised or waits in the
queue. -/
def DijSeen (s : DijkstraState) (c : Coord) : Prop :=
  s.visited.find c ≠ none ∨ c ∈ s.pq.map Node.pos

/-- A path of `2^31 + 1` elements, one more than `getPathLength` can count. -/
def longPath : List Coord := List.replicate 2147483649 (0, 0)

/-! ### Entries of equal cost -/

/-- Four entries of cost 1 at the coordinates (1,1), (2,1), (3,1) and (4,1), in
the order in which they are pushed. -/
def tiedEntries : List Node :=
  [Node.mk 1 1 1 0, Node.mk 2 1 1 0, Node.mk 3 1 1 0, Node.mk 4 1 1 0]

/-! ### Sequences of calls -/

/-- A call made on a `Player` during play. -/
inductive PlayerCall where
  | move (direction : Char)
  | reset

/-- The player after one call, on the given maze. -/
def PlayerCall.run (maze : MazeGenerator) (p : Player) : PlayerCall → Player
  | PlayerCall.move direction => (p.move direction maze).2
  | PlayerCall.reset => p.reset

/-- The player after a sequence of calls, on the given maze. -/
def Player.runCalls (maze : MazeGenerator) (p : Player) (calls : List PlayerCall) : Player :=
  calls.foldl (PlayerCall.run maze) p

/-- A mutating call of the public interface of `MazeGenerator`. -/
inductive GridCall where
  | generate (fuel : Nat) (rand : Nat → Nat)
  | setStart (x y : Int)
  | setExit (x y : Int)

/-- The object after one call; `none` when the fuel of a `generateMaze` ran
out. -/
def GridCall.run (m : MazeGenerator) : GridCall → Option MazeGenerator
  | GridCall.generate fuel rand => MazeGenerator.generateMaze fuel rand m
  | GridCall.setStart x y => some (m.setStartPosition x y)
  | GridCall.setExit x y => some (m.setExitPosition x y)

/-- The object after a sequence of calls. -/
def runGridCalls : List GridCall → MazeGenerator → Option MazeGenerator
  | [], m => some m
  | c :: cs, m =>
    match c.run m with
    | none => none
    | some m' => runGridCalls cs m'

/-- Every entry of the marker array is Wall, Path, Start or Exit. -/
def CoreMarkers (m : MazeGenerator) : Prop :=
  ∀ row ∈ m.maze, ∀ c ∈ row, c = '#' ∨ c = ' ' ∨ c = 'S' ∨ c = 'E'

/-- Every `generateMaze` of the sequence has fuel for a `w × h` grid. -/
def EnoughFuel (w h : Int) (calls : List GridCall) : Prop :=
  ∀ c ∈ calls, ∀ fuel rand, c = GridCall.generate fuel rand → 2 * nodeCount w h ≤ fuel

/-! ### Score table -/

/-- What the C++ standard guarantees of `std::sort` with comparator `comp`: the
result is a rearrangement of the input in which no entry is ordered by `comp`
before an entry standing earlier. -/
def IsStdSort (sort : (ScoreEntry → ScoreEntry → Bool) → List ScoreEntry → List ScoreEntry)
    (comp : ScoreEntry → ScoreEntry → Bool) : Prop :=
  ∀ l : List ScoreEntry,
    (sort comp l).Perm l ∧ (sort comp l).Pairwise fun a b => comp b a = false

/-- A sorting function meeting `IsStdSort` for every comparator that is the
strict part of a total preorder: merge sort by "not after". -/
def sortNotAfter (comp : ScoreEntry → ScoreEntry → Bool) (l : List ScoreEntry) :
    List ScoreEntry :=
  l.mergeSort fun a b => !comp b a

/-- A score table of three players, two of them level. -/
def sampleScores : List ScoreEntry := [("ann", 40), ("bob", 90), ("cy", 40)]

end MazeRunner


/-! ## Loops, routes and counting -/

namespace MazeRunner

/-- A loop whose step keeps an invariant and decreases a measure finishes within
any fuel above the measure, and its result satisfies what the exits establish. -/
theorem runLoop_spec {σ ρ : Type} (step : σ → ρ ⊕ σ) (Inv : σ → Prop) (μ : σ → Nat)
    (Post : ρ → Prop)
    (hdone : ∀ s r, Inv s → step s = Sum.inl r → Post r)
    (hcont : ∀ s s', Inv s → step s = Sum.inr s' → Inv s' ∧ μ s' < μ s) :
    ∀ fuel s, Inv s → μ s < fuel → ∃ r, runLoop step fuel s = some r ∧ Post r := by
  intro fuel
  induction fuel with
  | zero => intro s _ h; omega
  | succ n ih =>
    intro s hI hμ
    cases hs : step s with
    | inl r =>
      exact ⟨r, by simp [runLoop, hs], hdone s r hI hs⟩
    | inr s' =>
      obtain ⟨hI', hlt⟩ := hcont s s' hI hs
      obtain ⟨r, hr, hp⟩ := ih s' hI' (by omega)
      exact ⟨r, by simp [runLoop, hs, hr], hp⟩

/-- More fuel never changes the result of a loop that has finished. -/
theorem runLoop_mono {σ ρ : Type} (step : σ → ρ ⊕ σ) :
    ∀ (fuel fuel' : Nat) (s : σ) (r : ρ), fuel ≤ fuel' → runLoop step fuel s = some r →
      runLoop step fuel' s = some r := by
  intro fuel
  induction fuel with
  | zero => intro fuel' s r _ h; simp [runLoop] at h
  | succ n ih =>
    intro fuel' s r hle h
    obtain ⟨k, rfl⟩ : ∃ k, fuel' = k + 1 := ⟨fuel' - 1, by omega⟩
    cases hs : step s with
    | inl r' =>
      simp only [runLoop, hs] at h ⊢
      exact h
    | inr s' =>
      simp only [runLoop, hs] at h ⊢
      exact ih k s' r (by omega) h

theorem KeyMap.find_insert {V : Type} (m : KeyMap V) (k k' : Coord) (v : V) :
    (m.insert k v).find k' = if k' = k then some v else m.find k' := rfl

theorem KeyMap.find_insert_self {V : Type} (m : KeyMap V) (k : Coord) (v : V) :
    (m.insert k v).find k = some v := by simp [KeyMap.find_insert]

theorem KeyMap.find_insert_ne {V : Type} (m : KeyMap V) (k k' : Coord) (v : V) (h : k' ≠ k) :
    (m.insert k v).find k' = m.find k' := by simp [KeyMap.find_insert, h]

theorem KeyMap.find_empty {V : Type} (k : Coord) : (KeyMap.empty : KeyMap V).find k = none := rfl

theorem Adjacent.symm {p q : Coord} (h : Adjacent p q) : Adjacent q p := by
  unfold Adjacent at *
  rcases h with ⟨h1, h2⟩ | ⟨h1, h2⟩
  · exact Or.inl ⟨h1.symm, h2.symm⟩
  · exact Or.inr ⟨h1.symm, h2.symm⟩

theorem Adjacent.ne {p q : Coord} (h : Adjacent p q) : p ≠ q := by
  intro e
  subst e
  unfold Adjacent at h
  omega

/-- A route of one cell. -/
theorem IsRoute.single (maze : MazeGenerator) (s : Coord) : IsRoute maze s s [s] := by
  simp [IsRoute]

/-- A route extended by one step at its end. -/
theorem IsRoute.snoc {maze : MazeGenerator} {s u v : Coord} {p : List Coord}
    (h : IsRoute maze s u p) (hs : Step maze u v) : IsRoute maze s v (p ++ [v]) := by
  obtain ⟨h1, h2, h3⟩ := h
  refine ⟨?_, by simp, ?_⟩
  · cases p with
    | nil => simp at h1
    | cons a t => simpa using h1
  · refine List.Chain'.append h3 (by simp) ?_
    intro x hx y hy
    rw [h2] at hx
    simp at hx hy
    subst hx; subst hy
    exact hs

/-- Every cell of a route after the first is traversable. -/
theorem IsRoute.tail_valid {maze : MazeGenerator} {s e : Coord} {p : List Coord}
    (h : IsRoute maze s e p) : ∀ c ∈ p.tail, maze.isValidPath c.1 c.2 = true := by
  obtain ⟨_, _, h3⟩ := h
  cases p with
  | nil => simp
  | cons a t =>
    simp only [List.tail_cons]
    rw [List.chain'_cons'] at h3
    clear * - h3
    induction t generalizing a with
    | nil => simp
    | cons b t ih =>
      intro c hc
      obtain ⟨h3a, h3b⟩ := h3
      rw [List.chain'_cons'] at h3b
      rcases List.mem_cons.1 hc with rfl | hc
      · exact (h3a c (by simp)).2
      · exact ih b h3b c hc

/-- A repetition-free route is a well-formed path. -/
theorem IsRoute.wellFormed {maze : MazeGenerator} {s e : Coord} {p : List Coord}
    (h : IsRoute maze s e p) (hn : p.Nodup) : WellFormedPath maze s e p :=
  ⟨h.1, h.2.1, h.2.2.imp (fun {_ _} hab => hab.1), h.tail_valid, hn⟩

/-- Cells that are in the rectangle of the grid. -/
theorem isValidPath_range {maze : MazeGenerator} {x y : Int} (h : maze.isValidPath x y = true) :
    0 ≤ x ∧ x < maze.width ∧ 0 ≤ y ∧ y < maze.height := by
  unfold MazeGenerator.isValidPath at h
  by_cases hc : maze.isValidCell x y = true
  · simp [MazeGenerator.isValidCell] at hc
    omega
  · simp [hc] at h

/-- A repetition-free list of cells of the rectangle has at most `w * h`
elements. -/
theorem length_le_of_nodup_rect (w h : Int) (l : List Coord) (hn : l.Nodup)
    (hr : ∀ c ∈ l, 0 ≤ c.1 ∧ c.1 < w ∧ 0 ≤ c.2 ∧ c.2 < h) :
    l.length ≤ w.toNat * h.toNat := by
  have hsub : l.toFinset ⊆ Finset.Ico 0 w ×ˢ Finset.Ico 0 h := by
    intro c hc
    have := hr c (List.mem_toFinset.1 hc)
    simp [Finset.mem_product]
    omega
  have := Finset.card_le_card hsub
  rw [List.toFinset_card_of_nodup hn, Finset.card_product, Int.card_Ico, Int.card_Ico] at this
  simpa using this

/-- Lower bound shared by both searches: when every known cell below level `d`
has all its steps leading to known cells at most one level up, a route of fewer
than `d` steps ends in a known cell whose level is at most its step count. -/
theorem level_le_of_chain (maze : MazeGenerator) (known : Coord → Prop) (lvl : Coord → Nat)
    (d : Nat)
    (hcl : ∀ v, known v → lvl v < d → ∀ w, Step maze v w → known w ∧ lvl w ≤ lvl v + 1) :
    ∀ (r : List Coord) (v e : Coord) (k : Nat), known v → lvl v ≤ k →
      List.Chain (Step maze) v r → (v :: r).getLast? = some e → k + r.length < d →
      known e ∧ lvl e ≤ k + r.length := by
  intro r
  induction r with
  | nil =>
    intro v e k hk hl _ hlast _
    simp at hlast
    subst hlast
    exact ⟨hk, by simpa using hl⟩
  | cons a t ih =>
    intro v e k hk hl hch hlast hlen
    rw [List.chain_cons] at hch
    simp only [List.length_cons] at hlen
    obtain ⟨hka, hla⟩ := hcl v hk (by omega) a hch.1
    have hlast' : (a :: t).getLast? = some e := by
      rw [List.getLast?_cons_cons] at hlast
      exact hlast
    have := ih a e (k + 1) hka (by omega) hch.2 hlast' (by omega)
    simp only [List.length_cons]
    exact ⟨this.1, by omega⟩

/-- Closure under steps: a set of known cells that contains the start and is
closed under steps contains every reachable cell. -/
theorem known_of_route (maze : MazeGenerator) (known : Coord → Prop)
    (hcl : ∀ v, known v → ∀ w, Step maze v w → known w) :
    ∀ (r : List Coord) (v e : Coord), known v → List.Chain (Step maze) v r →
      (v :: r).getLast? = some e → known e := by
  intro r
  induction r with
  | nil =>
    intro v e hk _ hlast
    simp at hlast
    subst hlast
    exact hk
  | cons a t ih =>
    intro v e hk hch hlast
    rw [List.chain_cons] at hch
    rw [List.getLast?_cons_cons] at hlast
    exact ih a e (hcl v hk a hch.1) hch.2 hlast

/-- A route in head-and-chain form. -/
theorem IsRoute.cons_chain {maze : MazeGenerator} {s e : Coord} {r : List Coord}
    (h : IsRoute maze s e r) :
    ∃ t, r = s :: t ∧ List.Chain (Step maze) s t ∧ (s :: t).getLast? = some e := by
  obtain ⟨h1, h2, h3⟩ := h
  cases r with
  | nil => simp at h1
  | cons a t =>
    simp at h1
    subst h1
    exact ⟨t, rfl, h3, h2⟩

/-- The predecessor map of a search is a tree rooted at the start: the backward
walk from a known cell `v` ends within `lvl v + 1` iterations and yields a
repetition-free route from the start to `v` of `lvl v` steps. -/
theorem reconstruct_tree (maze : MazeGenerator) (start : Coord) (known : Coord → Prop)
    (lvl : Coord → Nat) (cf : KeyMap Coord)
    (hstart : lvl start = 0)
    (hparent : ∀ v u, cf.find v = some u → known u ∧ lvl v = lvl u + 1 ∧ Step maze u v)
    (hroot : ∀ v, known v → cf.find v = none → v = start) :
    ∀ (n : Nat) (v : Coord), known v → lvl v = n →
      ∃ p, IsRoute maze start v p ∧ p.length = n + 1 ∧ p.Nodup ∧ (∀ c ∈ p, lvl c ≤ n) ∧
        ∀ fuel acc, n < fuel →
          runLoop (AIPathfinder.reconstructStep cf) fuel (acc, v) = some (p ++ acc.reverse) := by
  intro n
  induction n with
  | zero =>
    intro v hk hl
    have hv : cf.find v = none := by
      cases hc : cf.find v with
      | none => rfl
      | some u =>
        have := (hparent v u hc).2.1
        omega
    have hvs := hroot v hk hv
    subst hvs
    refine ⟨[v], IsRoute.single maze v, rfl, by simp, by simp [hl], ?_⟩
    intro fuel acc hf
    obtain ⟨f, rfl⟩ : ∃ f, fuel = f + 1 := ⟨fuel - 1, by omega⟩
    simp [runLoop, AIPathfinder.reconstructStep, AIPathfinder.createKey, hv]
  | succ n ih =>
    intro v hk hl
    cases hc : cf.find v with
    | none =>
      have := hroot v hk hc
      subst this
      omega
    | some u =>
      obtain ⟨hku, hlu, hstep⟩ := hparent v u hc
      obtain ⟨p, hp1, hp2, hp3, hp4, hp5⟩ := ih u hku (by omega)
      refine ⟨p ++ [v], hp1.snoc hstep, by simp [hp2], ?_, ?_, ?_⟩
      · rw [List.nodup_append]
        refine ⟨hp3, by simp, ?_⟩
        intro a ha hb
        simp at hb
        subst hb
        have := hp4 a ha
        omega
      · intro c hc'
        rcases List.mem_append.1 hc' with h | h
        · have := hp4 c h
          omega
        · simp at h
          subst h
          omega
      · intro fuel acc hf
        obtain ⟨f, rfl⟩ : ∃ f, fuel = f + 1 := ⟨fuel - 1, by omega⟩
        have := hp5 f (acc ++ [v]) (by omega)
        simp [runLoop, AIPathfinder.reconstructStep, AIPathfinder.createKey, hc, this]

/-- Route length bound: a repetition-free route has at most `w * h + 1` cells. -/
theorem IsRoute.length_le {maze : MazeGenerator} {s e : Coord} {p : List Coord}
    (h : IsRoute maze s e p) (hn : p.Nodup) :
    p.length ≤ maze.width.toNat * maze.height.toNat + 1 := by
  have hv := h.tail_valid
  cases p with
  | nil => simp
  | cons a t =>
    simp only [List.tail_cons] at hv
    have := length_le_of_nodup_rect maze.width maze.height t (List.nodup_cons.1 hn).2
      (fun c hc => isValidPath_range (hv c hc))
    simp only [List.length_cons]
    omega

end MazeRunner


/-! ## Breadth-first search -/

namespace MazeRunner

open AIPathfinder

/-- Every neighbour returned by `getNeighbors` is one unit step away and
traversable. -/
theorem getNeighbors_sound (maze : MazeGenerator) (x y : Int) (nb : Node)
    (h : nb ∈ getNeighbors x y maze) : Step maze (x, y) nb.pos := by
  simp only [getNeighbors, List.mem_map, List.mem_filter, List.map_cons, List.map_nil,
    List.mem_cons, List.mem_singleton, List.not_mem_nil, or_false, Bool.and_eq_true,
    decide_eq_true_eq] at h
  obtain ⟨c, ⟨hc, hv⟩, rfl⟩ := h
  refine ⟨?_, hv.2⟩
  simp only [Adjacent, Node.pos]
  rcases hc with rfl | rfl | rfl | rfl <;> simp

/-- Every unit step into a traversable cell is offered by `getNeighbors`. -/
theorem getNeighbors_complete (maze : MazeGenerator) (x y : Int) (w : Coord)
    (h : Step maze (x, y) w) : ∃ nb ∈ getNeighbors x y maze, nb.pos = w := by
  obtain ⟨hadj, hv⟩ := h
  have hr := isValidPath_range hv
  refine ⟨{ x := w.1, y := w.2, cost := 0, distance := 0 }, ?_, rfl⟩
  simp only [getNeighbors, List.mem_map, List.mem_filter, List.map_cons, List.map_nil,
    List.mem_cons, List.mem_singleton, List.not_mem_nil, or_false, Bool.and_eq_true,
    decide_eq_true_eq]
  refine ⟨w, ⟨?_, ⟨⟨⟨⟨hr.1, ?_⟩, hr.2.2.1⟩, ?_⟩, hv⟩⟩, rfl⟩
  · simp only [Adjacent] at hadj
    obtain ⟨w1, w2⟩ := w
    simp only [Prod.mk.injEq] at *
    omega
  · exact hr.2.1
  · exact hr.2.2.2

theorem getNeighbors_length (maze : MazeGenerator) (x y : Int) :
    (getNeighbors x y maze).length ≤ 4 := by
  simp only [getNeighbors, List.length_map]
  exact le_trans (List.length_filter_le _ _) (by simp)

/-- Marking a cell of the rectangle that was absent lowers the count of absent
cells by one. -/
theorem unvisitedCount_insert (w h : Int) (visited : KeyMap Bool) (c : Coord)
    (hc : visited.find c = none) (hr : 0 ≤ c.1 ∧ c.1 < w ∧ 0 ≤ c.2 ∧ c.2 < h) :
    unvisitedCount w h (visited.insert c true) + 1 = unvisitedCount w h visited := by
  unfold unvisitedCount
  have hmem : c ∈ (Finset.Ico 0 w ×ˢ Finset.Ico 0 h).filter fun c => visited.find c = none := by
    simp [Finset.mem_filter, Finset.mem_product, hc]
    omega
  have heq : ((Finset.Ico 0 w ×ˢ Finset.Ico 0 h).filter
      fun k => (visited.insert c true).find k = none) =
      ((Finset.Ico 0 w ×ˢ Finset.Ico 0 h).filter fun k => visited.find k = none).erase c := by
    ext k
    simp only [Finset.mem_filter, Finset.mem_erase, KeyMap.find_insert]
    by_cases hk : k = c
    · simp [hk]
    · simp [hk]
  rw [heq, Finset.card_erase_of_mem hmem]
  have := Finset.card_pos.2 ⟨c, hmem⟩
  omega

theorem unvisitedCount_le (w h : Int) (visited : KeyMap Bool) :
    unvisitedCount w h visited ≤ w.toNat * h.toNat := by
  unfold unvisitedCount
  refine le_trans (Finset.card_filter_le _ _) ?_
  rw [Finset.card_product, Int.card_Ico, Int.card_Ico]
  simp

/-- The neighbour loop of `findPathBFS` never raises the termination measure. -/
theorem bfsVisit_measure (maze : MazeGenerator) (cur : Node) (s : BFSState) (nb : Node)
    (hnb : maze.isValidPath nb.x nb.y = true) :
    (bfsVisit cur s nb).queue.length + unvisitedCount maze.width maze.height
        (bfsVisit cur s nb).visited =
      s.queue.length + unvisitedCount maze.width maze.height s.visited := by
  unfold bfsVisit
  by_cases hv : s.visited.find (createKey nb.x nb.y) = none
  · simp only [hv, if_true, List.length_append, List.length_singleton]
    have := unvisitedCount_insert maze.width maze.height s.visited (createKey nb.x nb.y) hv
      (isValidPath_range hnb)
    omega
  · simp [hv]

theorem bfs_fold_measure (maze : MazeGenerator) (cur : Node) (nbs : List Node) :
    ∀ s : BFSState, (∀ nb ∈ nbs, maze.isValidPath nb.x nb.y = true) →
      (nbs.foldl (bfsVisit cur) s).queue.length + unvisitedCount maze.width maze.height
          (nbs.foldl (bfsVisit cur) s).visited =
        s.queue.length + unvisitedCount maze.width maze.height s.visited := by
  induction nbs with
  | nil => intro s _; rfl
  | cons a t ih =>
    intro s h
    rw [List.foldl_cons, ih _ (fun nb hnb => h nb (List.mem_cons_of_mem _ hnb))]
    exact bfsVisit_measure maze cur s a (h a (List.mem_cons_self _ _))

/-- The state in which the breadth-first loop is entered satisfies the
invariant, every level being 0. -/
theorem bfsInv_init (maze : MazeGenerator) (sx sy : Int) (goal : Coord) :
    BFSInv maze (sx, sy) goal (fun _ => 0) (bfsInit sx sy).queue (bfsInit sx sy).visited
      (bfsInit sx sy).cameFrom := by
  have hv : ∀ v, (bfsInit sx sy).visited.find v ≠ none → v = (sx, sy) := by
    intro v hv
    by_contra hne
    exact hv (by simp [bfsInit, createKey, KeyMap.find_insert, hne, KeyMap.find_empty])
  have hq : ∀ n ∈ (bfsInit sx sy).queue, n.pos = (sx, sy) := by
    intro n hn
    simp [bfsInit] at hn
    subst hn
    rfl
  refine
    { start_vis := by simp [bfsInit, createKey, KeyMap.find_insert]
      start_lvl := rfl
      parent := fun v u h => by simp [bfsInit, KeyMap.find_empty] at h
      root := fun v h _ => hv v h
      queue_vis := fun n hn => by
        rw [hq n hn]
        simp [bfsInit, createKey, KeyMap.find_insert]
      sorted := by simp [bfsInit]
      near := fun v _ n _ => by simp
      closed := fun v h hq' => ?_
      done_le := fun v _ _ n _ => by simp
      goal_open := fun h => ?_ }
  · exfalso
    exact hq' { x := sx, y := sy, cost := 0, distance := 0 } (by simp [bfsInit])
      (by rw [hv v h]; rfl)
  · exact ⟨{ x := sx, y := sy, cost := 0, distance := 0 }, by simp [bfsInit],
      by rw [hv goal h]; rfl⟩

/-- One pass of the neighbour loop keeps the invariant on the queue that still
carries the node being expanded, and leaves the neighbour visited. -/
theorem bfsVisit_inv (maze : MazeGenerator) (start goal : Coord) (cur nb : Node) (s : BFSState)
    (hstep : Step maze cur.pos nb.pos)
    (h : ∃ lvl, BFSInv maze start goal lvl (cur :: s.queue) s.visited s.cameFrom) :
    (∃ lvl, BFSInv maze start goal lvl (cur :: (bfsVisit cur s nb).queue)
        (bfsVisit cur s nb).visited (bfsVisit cur s nb).cameFrom) ∧
      (bfsVisit cur s nb).visited.find nb.pos ≠ none ∧
      (∀ v, s.visited.find v ≠ none → (bfsVisit cur s nb).visited.find v ≠ none) := by
  obtain ⟨lvl, hI⟩ := h
  by_cases hw : s.visited.find nb.pos = none
  · obtain ⟨n', hn'⟩ : ∃ n' : Node,
        n' = { x := nb.x, y := nb.y, cost := 0, distance := cur.distance + 1 } := ⟨_, rfl⟩
    have hpos : n'.pos = nb.pos := by rw [hn']; rfl
    have hs' : bfsVisit cur s nb =
        { queue := s.queue ++ [n']
          visited := s.visited.insert nb.pos true
          cameFrom := s.cameFrom.insert nb.pos cur.pos } := by
      rw [hn']
      unfold bfsVisit
      exact if_pos hw
    rw [hs']
    simp only
    have hne : ∀ v, s.visited.find v ≠ none → v ≠ nb.pos := fun v hv e => hv (e ▸ hw)
    have hl : ∀ v, v ≠ nb.pos → Function.update lvl nb.pos (lvl cur.pos + 1) v = lvl v :=
      fun v hv => Function.update_noteq hv _ _
    have hlw : Function.update lvl nb.pos (lvl cur.pos + 1) nb.pos = lvl cur.pos + 1 :=
      Function.update_same _ _ _
    have hfind : ∀ v, (s.visited.insert nb.pos true).find v ≠ none ↔
        (v = nb.pos ∨ s.visited.find v ≠ none) := by
      intro v
      rw [KeyMap.find_insert]
      by_cases hv : v = nb.pos
      · simp [hv]
      · simp [hv]
    have hcurv : s.visited.find cur.pos ≠ none := hI.queue_vis cur (List.mem_cons_self _ _)
    have hcur_le : ∀ n ∈ cur :: s.queue, lvl cur.pos ≤ lvl n.pos := by
      intro n hn
      rcases List.mem_cons.1 hn with rfl | hn
      · exact le_refl _
      · exact (List.pairwise_cons.1 hI.sorted).1 n hn
    have hqpos : ∀ n, n ∈ cur :: (s.queue ++ [n']) →
        (n ∈ cur :: s.queue) ∨ n.pos = nb.pos := by
      intro n hn
      rcases List.mem_cons.1 hn with rfl | hn
      · exact Or.inl (List.mem_cons_self _ _)
      · rcases List.mem_append.1 hn with hn | hn
        · exact Or.inl (List.mem_cons_of_mem _ hn)
        · simp at hn
          subst hn
          exact Or.inr hpos
    have hnew_mem : n' ∈ cur :: (s.queue ++ [n']) := by
      simp
    have hold_mem : ∀ n ∈ cur :: s.queue, n ∈ cur :: (s.queue ++ [n']) := by
      intro n hn
      rcases List.mem_cons.1 hn with rfl | hn
      · exact List.mem_cons_self _ _
      · exact List.mem_cons_of_mem _ (List.mem_append_left _ hn)
    refine ⟨⟨Function.update lvl nb.pos (lvl cur.pos + 1), ?_⟩, ?_, ?_⟩
    · refine
        { start_vis := (hfind start).2 (Or.inr hI.start_vis)
          start_lvl := by rw [hl start (hne start hI.start_vis)]; exact hI.start_lvl
          parent := ?_
          root := ?_
          queue_vis := ?_
          sorted := ?_
          near := ?_
          closed := ?_
          done_le := ?_
          goal_open := ?_ }
      · intro v u hvu
        rw [KeyMap.find_insert] at hvu
        by_cases hv : v = nb.pos
        · rw [if_pos hv] at hvu
          simp at hvu
          subst hvu
          subst hv
          refine ⟨(hfind _).2 (Or.inr hcurv), (hfind _).2 (Or.inl rfl), ?_, hstep⟩
          rw [hlw, hl _ (hne _ hcurv)]
        · rw [if_neg hv] at hvu
          obtain ⟨h1, h2, h3, h4⟩ := hI.parent v u hvu
          refine ⟨(hfind _).2 (Or.inr h1), (hfind _).2 (Or.inr h2), ?_, h4⟩
          rw [hl v hv, hl u (hne u h1)]
          exact h3
      · intro v hv hcf
        rw [KeyMap.find_insert] at hcf
        by_cases hvw : v = nb.pos
        · rw [if_pos hvw] at hcf
          simp at hcf
        · rw [if_neg hvw] at hcf
          rcases (hfind v).1 hv with h1 | h1
          · exact absurd h1 hvw
          · exact hI.root v h1 hcf
      · intro n hn
        rcases hqpos n hn with h1 | h1
        · exact (hfind _).2 (Or.inr (hI.queue_vis n h1))
        · exact (hfind _).2 (Or.inl h1)
      · have hsplit : cur :: (s.queue ++ [n']) =
            (cur :: s.queue) ++ [n'] := rfl
        rw [hsplit, List.pairwise_append]
        refine ⟨?_, List.pairwise_singleton _ _, ?_⟩
        · refine hI.sorted.imp_of_mem ?_
          intro a b ha hb hab
          rw [hl _ (hne _ (hI.queue_vis a ha)), hl _ (hne _ (hI.queue_vis b hb))]
          exact hab
        · intro a ha b hb
          simp at hb
          subst hb
          rw [hpos, hlw, hl _ (hne _ (hI.queue_vis a ha))]
          exact hI.near a.pos (hI.queue_vis a ha) cur (List.mem_cons_self _ _)
      · intro v hv n hn
        rcases (hfind v).1 hv with hv1 | hv1 <;> rcases hqpos n hn with hn1 | hn1
        · subst hv1
          rw [hlw, hl _ (hne _ (hI.queue_vis n hn1))]
          have := hcur_le n hn1
          omega
        · rw [hv1, hn1]
          omega
        · rw [hl v (hne v hv1), hl _ (hne _ (hI.queue_vis n hn1))]
          exact hI.near v hv1 n hn1
        · rw [hn1, hlw, hl v (hne v hv1)]
          have := hI.near v hv1 cur (List.mem_cons_self _ _)
          omega
      · intro v hv hq w hstepw
        have hvw : v ≠ nb.pos := fun e => hq _ hnew_mem (by rw [e]; exact hpos)
        rcases (hfind v).1 hv with hv1 | hv1
        · exact absurd hv1 hvw
        · obtain ⟨h1, h2⟩ := hI.closed v hv1 (fun n hn => hq n (hold_mem n hn)) w hstepw
          refine ⟨(hfind _).2 (Or.inr h1), ?_⟩
          rw [hl w (hne w h1), hl v hvw]
          exact h2
      · intro v hv hq n hn
        have hvw : v ≠ nb.pos := fun e => hq _ hnew_mem (by rw [e]; exact hpos)
        rcases (hfind v).1 hv with hv1 | hv1
        · exact absurd hv1 hvw
        · have hproc : ∀ n ∈ cur :: s.queue, n.pos ≠ v := fun n hn => hq n (hold_mem n hn)
          rcases hqpos n hn with hn1 | hn1
          · rw [hl v hvw, hl _ (hne _ (hI.queue_vis n hn1))]
            exact hI.done_le v hv1 hproc n hn1
          · rw [hn1, hlw, hl v hvw]
            have := hI.done_le v hv1 hproc cur (List.mem_cons_self _ _)
            omega
      · intro hg
        rcases (hfind goal).1 hg with hg1 | hg1
        · exact ⟨_, hnew_mem, by rw [hg1]; exact hpos⟩
        · obtain ⟨n, hn, hnp⟩ := hI.goal_open hg1
          exact ⟨n, hold_mem n hn, hnp⟩
    · exact (hfind _).2 (Or.inl rfl)
    · intro v hv
      exact (hfind v).2 (Or.inr hv)
  · have hs' : bfsVisit cur s nb = s := by
      unfold bfsVisit
      exact if_neg hw
    rw [hs']
    exact ⟨⟨lvl, hI⟩, hw, fun v hv => hv⟩

/-- The whole neighbour loop keeps the invariant and leaves every listed
neighbour visited. -/
theorem bfs_fold_inv (maze : MazeGenerator) (start goal : Coord) (cur : Node)
    (nbs : List Node) :
    ∀ s : BFSState, (∀ nb ∈ nbs, Step maze cur.pos nb.pos) →
      (∃ lvl, BFSInv maze start goal lvl (cur :: s.queue) s.visited s.cameFrom) →
      (∃ lvl, BFSInv maze start goal lvl (cur :: (nbs.foldl (bfsVisit cur) s).queue)
          (nbs.foldl (bfsVisit cur) s).visited (nbs.foldl (bfsVisit cur) s).cameFrom) ∧
        (∀ nb ∈ nbs, (nbs.foldl (bfsVisit cur) s).visited.find nb.pos ≠ none) ∧
        (∀ v, s.visited.find v ≠ none → (nbs.foldl (bfsVisit cur) s).visited.find v ≠ none) := by
  induction nbs with
  | nil =>
    intro s _ h
    exact ⟨h, by simp, fun v hv => hv⟩
  | cons a t ih =>
    intro s hst h
    obtain ⟨h1, h2, h3⟩ := bfsVisit_inv maze start goal cur a s (hst a (List.mem_cons_self _ _)) h
    obtain ⟨k1, k2, k3⟩ := ih (bfsVisit cur s a) (fun nb hnb => hst nb (List.mem_cons_of_mem _ hnb)) h1
    rw [List.foldl_cons]
    refine ⟨k1, ?_, fun v hv => k3 v (h3 v hv)⟩
    intro nb hnb
    rcases List.mem_cons.1 hnb with rfl | hnb
    · exact k3 _ h2
    · exact k2 nb hnb

/-- Once every step from the front node leads to a visited cell, the front node
can leave the queue. -/
theorem bfsInv_pop (maze : MazeGenerator) (start goal : Coord) (lvl : Coord → Nat) (cur : Node)
    (q : List Node) (vis : KeyMap Bool) (cf : KeyMap Coord)
    (hI : BFSInv maze start goal lvl (cur :: q) vis cf)
    (hall : ∀ w, Step maze cur.pos w → vis.find w ≠ none) (hg : cur.pos ≠ goal) :
    BFSInv maze start goal lvl q vis cf := by
  have hcurv : vis.find cur.pos ≠ none := hI.queue_vis cur (List.mem_cons_self _ _)
  have hproc : ∀ v, (∀ n ∈ q, n.pos ≠ v) → v ≠ cur.pos → ∀ n ∈ cur :: q, n.pos ≠ v := by
    intro v hq hv n hn
    rcases List.mem_cons.1 hn with rfl | hn
    · exact fun e => hv e.symm
    · exact hq n hn
  refine
    { start_vis := hI.start_vis
      start_lvl := hI.start_lvl
      parent := hI.parent
      root := hI.root
      queue_vis := fun n hn => hI.queue_vis n (List.mem_cons_of_mem _ hn)
      sorted := (List.pairwise_cons.1 hI.sorted).2
      near := fun v hv n hn => hI.near v hv n (List.mem_cons_of_mem _ hn)
      closed := ?_
      done_le := ?_
      goal_open := ?_ }
  · intro v hv hq w hw
    by_cases hvc : v = cur.pos
    · subst hvc
      have hwv := hall w hw
      exact ⟨hwv, hI.near w hwv cur (List.mem_cons_self _ _)⟩
    · exact hI.closed v hv (hproc v hq hvc) w hw
  · intro v hv hq n hn
    by_cases hvc : v = cur.pos
    · subst hvc
      exact (List.pairwise_cons.1 hI.sorted).1 n hn
    · exact hI.done_le v hv (hproc v hq hvc) n (List.mem_cons_of_mem _ hn)
  · intro hgv
    obtain ⟨n, hn, hnp⟩ := hI.goal_open hgv
    rcases List.mem_cons.1 hn with rfl | hn
    · exact absurd hnp hg
    · exact ⟨n, hn, hnp⟩

/-- Specification of `findPathBFS`: with fuel above the number of cells it
returns, and what it returns is empty exactly when the goal is unreachable and
otherwise a repetition-free route of least length. -/
theorem findPathBFS_spec (maze : MazeGenerator) (sx sy ex ey : Int) (fuel : Nat)
    (hf : maze.width.toNat * maze.height.toNat + 2 ≤ fuel) :
    ∃ p, findPathBFS fuel sx sy ex ey maze = some p ∧ SearchResult maze (sx, sy) (ex, ey) p := by
  have key := runLoop_spec (bfsStep fuel ex ey maze)
    (fun s => ∃ lvl, BFSInv maze (sx, sy) (ex, ey) lvl s.queue s.visited s.cameFrom)
    (fun s => s.queue.length + unvisitedCount maze.width maze.height s.visited)
    (fun r => ∃ p, r = some p ∧ SearchResult maze (sx, sy) (ex, ey) p) ?_ ?_ fuel
    (bfsInit sx sy) ⟨_, bfsInv_init maze sx sy (ex, ey)⟩ ?_
  · obtain ⟨r, hr, p, hp, hpost⟩ := key
    exact ⟨p, by simp [findPathBFS, hr, hp], hpost⟩
  · -- exits of the loop
    rintro s r ⟨lvl, hI⟩ hstep
    unfold bfsStep at hstep
    cases hq : s.queue with
    | nil =>
      rw [hq] at hstep hI
      simp only [Sum.inl.injEq] at hstep
      subst hstep
      refine ⟨[], rfl, Or.inl ⟨rfl, ?_⟩⟩
      rintro ⟨r, hr⟩
      obtain ⟨t, -, hch, hlast⟩ := hr.cons_chain
      have := known_of_route maze (fun v => s.visited.find v ≠ none)
        (fun v hv w hw => (hI.closed v hv (by simp) w hw).1) t (sx, sy) (ex, ey) hI.start_vis
        hch hlast
      obtain ⟨n, hn, -⟩ := hI.goal_open this
      simp at hn
    | cons cur rest =>
      rw [hq] at hstep hI
      simp only at hstep
      by_cases hc : cur.x = ex ∧ cur.y = ey
      · rw [if_pos hc] at hstep
        simp only [Sum.inl.injEq] at hstep
        subst hstep
        have hcp : cur.pos = (ex, ey) := by
          simp [Node.pos, hc.1, hc.2]
        have hgv : s.visited.find (ex, ey) ≠ none := by
          rw [← hcp]
          exact hI.queue_vis cur (List.mem_cons_self _ _)
        obtain ⟨p, hp1, hp2, hp3, -, hp5⟩ := reconstruct_tree maze (sx, sy)
          (fun v => s.visited.find v ≠ none) lvl s.cameFrom hI.start_lvl
          (fun v u h => ⟨(hI.parent v u h).1, (hI.parent v u h).2.2⟩) hI.root
          (lvl (ex, ey)) (ex, ey) hgv rfl
        have hlen := hp1.length_le hp3
        refine ⟨p, ?_, Or.inr ⟨hp1, hp3, ?_⟩⟩
        · have := hp5 fuel [] (by omega)
          simpa [reconstructPath] using this
        · intro r hr
          obtain ⟨t, rfl, hch, hlast⟩ := hr.cons_chain
          by_contra hlt
          simp only [List.length_cons, not_le] at hlt
          have hcl : ∀ v, s.visited.find v ≠ none → lvl v < lvl (ex, ey) →
              ∀ w, Step maze v w → s.visited.find w ≠ none ∧ lvl w ≤ lvl v + 1 := by
            intro v hv hlv w hw
            refine hI.closed v hv ?_ w hw
            intro n hn e
            have h1 : lvl cur.pos ≤ lvl n.pos := by
              rcases List.mem_cons.1 hn with rfl | hn
              · exact le_refl _
              · exact (List.pairwise_cons.1 hI.sorted).1 n hn
            rw [e, hcp] at h1
            omega
          have := level_le_of_chain maze (fun v => s.visited.find v ≠ none) lvl (lvl (ex, ey))
            hcl t (sx, sy) (ex, ey) 0 hI.start_vis (by rw [hI.start_lvl]) hch hlast (by omega)
          omega
      · rw [if_neg hc] at hstep
        simp at hstep
  · -- iterations of the loop
    rintro s s' ⟨lvl, hI⟩ hstep
    unfold bfsStep at hstep
    cases hq : s.queue with
    | nil =>
      rw [hq] at hstep
      simp at hstep
    | cons cur rest =>
      rw [hq] at hstep hI
      simp only at hstep
      by_cases hc : cur.x = ex ∧ cur.y = ey
      · rw [if_pos hc] at hstep
        simp at hstep
      · rw [if_neg hc] at hstep
        simp only [Sum.inr.injEq] at hstep
        subst hstep
        have hcp : cur.pos ≠ (ex, ey) := by
          intro e
          simp [Node.pos] at e
          exact hc e
        have hsound : ∀ nb ∈ getNeighbors cur.x cur.y maze, Step maze cur.pos nb.pos :=
          fun nb hnb => getNeighbors_sound maze cur.x cur.y nb hnb
        obtain ⟨⟨lvl', hI'⟩, hnbs, -⟩ := bfs_fold_inv maze (sx, sy) (ex, ey) cur
          (getNeighbors cur.x cur.y maze) { s with queue := rest } hsound ⟨lvl, hI⟩
        constructor
        · refine ⟨lvl', bfsInv_pop maze (sx, sy) (ex, ey) lvl' cur _ _ _ hI' ?_ hcp⟩
          intro w hw
          obtain ⟨nb, hnb, hnbw⟩ := getNeighbors_complete maze cur.x cur.y w hw
          rw [← hnbw]
          exact hnbs nb hnb
        · have := bfs_fold_measure maze cur (getNeighbors cur.x cur.y maze) { s with queue := rest }
            (fun nb hnb => (hsound nb hnb).2)
          simp only [hq, List.length_cons]
          simp only at this
          omega
  · -- the measure of the initial state is below the fuel
    have := unvisitedCount_le maze.width maze.height (bfsInit sx sy).visited
    simp only [bfsInit, List.length_singleton] at this ⊢
    omega

end MazeRunner


/-! ## Dijkstra -/

namespace MazeRunner

open AIPathfinder

theorem isCheapest_iff (pq : List Node) (n : Node) :
    isCheapest pq n = true ↔ ∀ e ∈ pq, n.cost ≤ e.cost := by
  simp [isCheapest, List.all_eq_true]

/-- What `popMin` hands out is an entry of least cost, and what it keeps is the
bag without that one entry. -/
theorem popMin_some {choice : Nat} {pq rest : List Node} {n : Node}
    (h : popMin choice pq = some (n, rest)) :
    n ∈ pq ∧ (∀ e ∈ pq, n.cost ≤ e.cost) ∧ (∀ e ∈ pq, e = n ∨ e ∈ rest) ∧
      (∀ e ∈ rest, e ∈ pq) ∧ rest.length + 1 = pq.length := by
  unfold popMin at h
  simp only at h
  split at h
  · simp at h
  · rename_i i hi
    have hmem := List.getElem?_mem hi
    rw [cheapestIndices, List.mem_filter] at hmem
    obtain ⟨hir, hcond⟩ := hmem
    split at h
    · rename_i m hm
      simp only [Option.some.injEq, Prod.mk.injEq] at h
      obtain ⟨rfl, rfl⟩ := h
      rw [hm] at hcond
      simp only at hcond
      have hlt : i < pq.length := by simpa using hir
      refine ⟨List.getElem?_mem hm, (isCheapest_iff pq m).1 hcond, ?_, ?_, ?_⟩
      · intro e he
        obtain ⟨j, hj⟩ := List.mem_iff_getElem?.1 he
        by_cases hji : j = i
        · subst hji
          rw [hm] at hj
          exact Or.inl (Option.some.inj hj).symm
        · exact Or.inr (List.mem_eraseIdx_iff_getElem?.2 ⟨j, hji, hj⟩)
      · intro e he
        exact List.mem_of_mem_eraseIdx he
      · rw [List.length_eraseIdx_of_lt hlt]
        omega
    · simp at h

/-- The `pop` fails on the empty bag only. -/
theorem popMin_none {choice : Nat} {pq : List Node} (h : popMin choice pq = none) : pq = [] := by
  by_contra hne
  obtain ⟨m, hm⟩ : ∃ m, m ∈ pq.argmin (fun n : Node => n.cost) := by
    cases ha : pq.argmin (fun n : Node => n.cost) with
    | none => exact absurd (List.argmin_eq_none.1 ha) hne
    | some m => exact ⟨m, rfl⟩
  have hmin : ∀ e ∈ pq, m.cost ≤ e.cost := fun e he => List.le_of_mem_argmin he hm
  obtain ⟨i, hi⟩ := List.mem_iff_getElem?.1 (List.argmin_mem hm)
  have hilt : i < pq.length := by
    by_contra hge
    rw [List.getElem?_eq_none (by omega)] at hi
    simp at hi
  unfold popMin at h
  simp only at h
  have hcand : i ∈ cheapestIndices pq := by
    rw [cheapestIndices, List.mem_filter]
    refine ⟨by simpa using hilt, ?_⟩
    rw [hi]
    exact (isCheapest_iff pq m).2 hmin
  have hpos := List.length_pos_of_mem hcand
  have hidx := Nat.mod_lt choice hpos
  split at h
  · rename_i hnone
    rw [List.getElem?_eq_none_iff] at hnone
    omega
  · rename_i j hj
    have hjm := List.getElem?_mem hj
    rw [cheapestIndices, List.mem_filter] at hjm
    obtain ⟨-, hjc⟩ := hjm
    split at h
    · simp at h
    · rename_i hnone
      rw [hnone] at hjc
      simp at hjc

theorem distAt_insert (dist : KeyMap Int) (k k' : Coord) (v : Int) :
    distAt (dist.insert k v) k' = if k' = k then v else distAt dist k' := by
  unfold distAt
  rw [KeyMap.find_insert]
  split <;> rfl

/-- The pre-seeding loops give cost `INT_MAX` to the traversable cells and leave
every other key absent. -/
theorem initDistances_find (maze : MazeGenerator) (c : Coord) :
    (initDistances maze).find c =
      if maze.isValidPath c.1 c.2 = true then some INT_MAX else none := by
  have inner : ∀ (y : Nat) (n : Nat) (acc : KeyMap Int),
      ((List.range n).foldl (fun acc2 (x : Nat) =>
        if maze.isValidPath x y then acc2.insert (createKey x y) INT_MAX else acc2) acc).find c =
      if (∃ j < n, c = ((j : Int), (y : Int)) ∧ maze.isValidPath j y = true)
        then some INT_MAX else acc.find c := by
    intro y n
    induction n with
    | zero => intro acc; simp
    | succ n ih =>
      intro acc
      rw [List.range_succ, List.foldl_append, List.foldl_cons, List.foldl_nil]
      by_cases hv : maze.isValidPath n y = true
      · rw [if_pos hv, KeyMap.find_insert, ih]
        by_cases hc : c = createKey n y
        · rw [if_pos hc, if_pos]
          exact ⟨n, by omega, hc, hv⟩
        · rw [if_neg hc]
          by_cases he : ∃ j < n, c = ((j : Int), (y : Int)) ∧ maze.isValidPath j y = true
          · rw [if_pos he, if_pos]
            obtain ⟨j, hj, h⟩ := he
            exact ⟨j, by omega, h⟩
          · rw [if_neg he, if_neg]
            rintro ⟨j, hj, hcj, hvj⟩
            by_cases hjn : j = n
            · subst hjn
              exact hc hcj
            · exact he ⟨j, by omega, hcj, hvj⟩
      · rw [if_neg hv, ih]
        by_cases he : ∃ j < n, c = ((j : Int), (y : Int)) ∧ maze.isValidPath j y = true
        · rw [if_pos he, if_pos]
          obtain ⟨j, hj, h⟩ := he
          exact ⟨j, by omega, h⟩
        · rw [if_neg he, if_neg]
          rintro ⟨j, hj, hcj, hvj⟩
          by_cases hjn : j = n
          · subst hjn
            exact hv hvj
          · exact he ⟨j, by omega, hcj, hvj⟩
  have outer : ∀ (m : Nat),
      ((List.range m).foldl (fun acc (y : Nat) =>
        (List.range maze.getWidth.toNat).foldl (fun acc2 (x : Nat) =>
          if maze.isValidPath x y then acc2.insert (createKey x y) INT_MAX else acc2) acc)
        KeyMap.empty).find c =
      if (∃ i < m, ∃ j < maze.getWidth.toNat, c = ((j : Int), (i : Int)) ∧
          maze.isValidPath j i = true) then some INT_MAX else none := by
    intro m
    induction m with
    | zero => simp [KeyMap.find_empty]
    | succ m ih =>
      rw [List.range_succ, List.foldl_append, List.foldl_cons, List.foldl_nil, inner, ih]
      by_cases h1 : ∃ j < maze.getWidth.toNat, c = ((j : Int), (m : Int)) ∧
          maze.isValidPath j m = true
      · rw [if_pos h1, if_pos]
        obtain ⟨j, hj, h⟩ := h1
        exact ⟨m, by omega, j, hj, h⟩
      · rw [if_neg h1]
        by_cases h2 : ∃ i < m, ∃ j < maze.getWidth.toNat, c = ((j : Int), (i : Int)) ∧
            maze.isValidPath j i = true
        · rw [if_pos h2, if_pos]
          obtain ⟨i, hi, h⟩ := h2
          exact ⟨i, by omega, h⟩
        · rw [if_neg h2, if_neg]
          rintro ⟨i, hi, h⟩
          by_cases him : i = m
          · subst him
            exact h1 h
          · exact h2 ⟨i, by omega, h⟩
  unfold initDistances
  rw [outer]
  by_cases hv : maze.isValidPath c.1 c.2 = true
  · rw [if_pos hv, if_pos]
    have hr := isValidPath_range hv
    refine ⟨c.2.toNat, ?_, c.1.toNat, ?_, ?_, ?_⟩
    · simp only [MazeGenerator.getHeight]; omega
    · simp only [MazeGenerator.getWidth]; omega
    · rw [Int.toNat_of_nonneg hr.1, Int.toNat_of_nonneg hr.2.2.1]
    · rw [Int.toNat_of_nonneg hr.1, Int.toNat_of_nonneg hr.2.2.1]
      exact hv
  · rw [if_neg hv, if_neg]
    rintro ⟨i, -, j, -, hc, hvv⟩
    rw [hc] at hv
    exact hv hvv

/-- Relaxation that improves the cost of an unfinalised neighbour. -/
theorem relax_update (cur nb : Node) (s : DijkstraState)
    (hv : s.visited.find nb.pos = none)
    (hlt : distAt s.distances cur.pos + 1 < distAt s.distances nb.pos) :
    relax cur s nb =
      { s with
        distances := s.distances.insert nb.pos (distAt s.distances cur.pos + 1)
        cameFrom := s.cameFrom.insert nb.pos cur.pos
        pq := s.pq ++ [{ x := nb.x, y := nb.y, cost := distAt s.distances cur.pos + 1,
                         distance := 0 }] } := by
  have hv' : s.visited.find (createKey nb.x nb.y) = none := hv
  have hlt' : distAt s.distances (createKey cur.x cur.y) + 1 <
      distAt s.distances (createKey nb.x nb.y) := hlt
  unfold relax
  simp only
  rw [if_pos hv', if_pos hlt']
  rfl

/-- Relaxation that changes nothing. -/
theorem relax_skip (cur nb : Node) (s : DijkstraState)
    (h : s.visited.find nb.pos ≠ none ∨
      ¬ distAt s.distances cur.pos + 1 < distAt s.distances nb.pos) :
    relax cur s nb = s := by
  unfold relax
  simp only
  by_cases hv : s.visited.find (createKey nb.x nb.y) = none
  · rw [if_pos hv]
    rcases h with h | h
    · exact absurd hv h
    · exact if_neg h
  · exact if_neg hv

theorem relax_skip_of_not (cur nb : Node) (s : DijkstraState)
    (h : ¬ (s.visited.find nb.pos = none ∧
      distAt s.distances cur.pos + 1 < distAt s.distances nb.pos)) :
    relax cur s nb = s := by
  refine relax_skip cur nb s ?_
  by_cases hv : s.visited.find nb.pos = none
  · exact Or.inr (fun hlt => h ⟨hv, hlt⟩)
  · exact Or.inl hv

/-- Relaxation leaves the visited map alone and pushes at most one entry. -/
theorem relax_frame (cur nb : Node) (s : DijkstraState) :
    (relax cur s nb).visited = s.visited ∧ (relax cur s nb).pq.length ≤ s.pq.length + 1 := by
  by_cases h : s.visited.find nb.pos = none ∧
      distAt s.distances cur.pos + 1 < distAt s.distances nb.pos
  · rw [relax_update cur nb s h.1 h.2]
    simp
  · rw [relax_skip_of_not cur nb s h]
    simp

theorem Discovered.insert {start : Coord} {cf : KeyMap Coord} {v : Coord} (k u : Coord)
    (h : Discovered start cf v) : Discovered start (cf.insert k u) v := by
  rcases h with h | h
  · exact Or.inl h
  · refine Or.inr ?_
    rw [KeyMap.find_insert]
    split
    · simp
    · exact h

/-- Relaxing one neighbour keeps the tree part of the invariant. -/
theorem relax_tree (maze : MazeGenerator) (start : Coord) (cur nb : Node) (s : DijkstraState)
    (hcv : s.visited.find cur.pos ≠ none) (hstep : Step maze cur.pos nb.pos)
    (h : DijTree maze start s.pq s.distances s.cameFrom s.visited) :
    DijTree maze start (relax cur s nb).pq (relax cur s nb).distances (relax cur s nb).cameFrom
      (relax cur s nb).visited := by
  by_cases hc : s.visited.find nb.pos = none ∧
      distAt s.distances cur.pos + 1 < distAt s.distances nb.pos
  · obtain ⟨hv, hlt⟩ := hc
    rw [relax_update cur nb s hv hlt]
    simp only
    have hneV : ∀ v, s.visited.find v ≠ none → v ≠ nb.pos := fun v hvv e => hvv (e ▸ hv)
    have hcur0 := h.nonneg cur.pos
    have hws : start ≠ nb.pos := by
      intro e
      rw [← e, h.start_dist] at hlt
      omega
    refine
      { nonneg := ?_
        start_dist := ?_
        parent := ?_
        root := fun v hvv => (h.root v hvv).insert _ _
        pq_disc := ?_ }
    · intro v
      rw [distAt_insert]
      split
      · omega
      · exact h.nonneg v
    · rw [distAt_insert, if_neg hws]
      exact h.start_dist
    · intro v u hvu
      rw [KeyMap.find_insert] at hvu
      by_cases hvw : v = nb.pos
      · rw [if_pos hvw] at hvu
        simp only [Option.some.injEq] at hvu
        subst hvu
        subst hvw
        refine ⟨hcv, ?_, hstep⟩
        rw [distAt_insert, distAt_insert, if_pos rfl, if_neg (hneV _ hcv)]
      · rw [if_neg hvw] at hvu
        obtain ⟨h1, h2, h3⟩ := h.parent v u hvu
        refine ⟨h1, ?_, h3⟩
        rw [distAt_insert, distAt_insert, if_neg hvw, if_neg (hneV u h1)]
        exact h2
    · intro n hn
      rcases List.mem_append.1 hn with hn | hn
      · exact (h.pq_disc n hn).insert _ _
      · simp only [List.mem_singleton] at hn
        subst hn
        refine Or.inr ?_
        show (s.cameFrom.insert nb.pos cur.pos).find nb.pos ≠ none
        rw [KeyMap.find_insert_self]
        simp
  · rw [relax_skip_of_not cur nb s hc]
    exact h

/-- Relaxing one neighbour keeps the distance part of the invariant, and leaves
the neighbour discovered at a cost at most one above the node being expanded. -/
theorem relax_full (maze : MazeGenerator) (start goal : Coord) (cur nb : Node)
    (s : DijkstraState) (nproc : Nat)
    (hcv : s.visited.find cur.pos ≠ none) (hstep : Step maze cur.pos nb.pos)
    (hT : DijTree maze start s.pq s.distances s.cameFrom s.visited)
    (hF : DijFull maze start goal (fun b => b = cur.pos) nproc s.pq s.distances s.cameFrom
      s.visited)
    (hcur : distAt s.distances cur.pos + 1 ≤ nproc) (hn : (nproc : Int) < INT_MAX) :
    DijFull maze start goal (fun b => b = cur.pos) nproc (relax cur s nb).pq
        (relax cur s nb).distances (relax cur s nb).cameFrom (relax cur s nb).visited ∧
      Discovered start (relax cur s nb).cameFrom nb.pos ∧
      distAt (relax cur s nb).distances nb.pos ≤ distAt (relax cur s nb).distances cur.pos + 1 ∧
      (∀ v, Discovered start s.cameFrom v → Discovered start (relax cur s nb).cameFrom v) ∧
      (∀ v, distAt (relax cur s nb).distances v ≤ distAt s.distances v) ∧
      distAt (relax cur s nb).distances cur.pos = distAt s.distances cur.pos := by
  by_cases hc : s.visited.find nb.pos = none ∧
      distAt s.distances cur.pos + 1 < distAt s.distances nb.pos
  · obtain ⟨hv, hlt⟩ := hc
    obtain ⟨n', hn'⟩ : ∃ n' : Node,
        n' = Node.mk nb.x nb.y (distAt s.distances cur.pos + 1) 0 := ⟨_, rfl⟩
    have hpos : n'.pos = nb.pos := by rw [hn']; rfl
    have hcost : n'.cost = distAt s.distances cur.pos + 1 := by rw [hn']
    rw [relax_update cur nb s hv hlt, ← hn']
    simp only
    have hneV : ∀ v, s.visited.find v ≠ none → v ≠ nb.pos := fun v hvv e => hvv (e ▸ hv)
    have hcw : cur.pos ≠ nb.pos := hneV _ hcv
    have hDw : distAt (s.distances.insert nb.pos (distAt s.distances cur.pos + 1)) nb.pos =
        distAt s.distances cur.pos + 1 := by
      rw [distAt_insert, if_pos rfl]
    have hDo : ∀ v, v ≠ nb.pos →
        distAt (s.distances.insert nb.pos (distAt s.distances cur.pos + 1)) v =
          distAt s.distances v := by
      intro v hvw
      rw [distAt_insert, if_neg hvw]
    have hDle : ∀ v, distAt (s.distances.insert nb.pos (distAt s.distances cur.pos + 1)) v ≤
        distAt s.distances v := by
      intro v
      by_cases hvw : v = nb.pos
      · rw [hvw, hDw]
        omega
      · rw [hDo v hvw]
    have hdw : Discovered start (s.cameFrom.insert nb.pos cur.pos) nb.pos := by
      refine Or.inr ?_
      rw [KeyMap.find_insert_self]
      simp
    have hdisc : ∀ v, Discovered start (s.cameFrom.insert nb.pos cur.pos) v →
        v = nb.pos ∨ Discovered start s.cameFrom v := by
      intro v hd
      by_cases hvw : v = nb.pos
      · exact Or.inl hvw
      · rcases hd with hd | hd
        · exact Or.inr (Or.inl hd)
        · rw [KeyMap.find_insert_ne _ _ _ _ hvw] at hd
          exact Or.inr (Or.inr hd)
    refine ⟨?_, hdw, ?_, fun v hd => hd.insert _ _, hDle, hDo _ hcw⟩
    · refine
        { unseen := ?_
          seen_le := ?_
          queued := ?_
          cost_ge := ?_
          done_le := ?_
          closed := ?_
          busy_max := ?_
          goal_open := hF.goal_open }
      · intro v hvv hnd
        have hvw : v ≠ nb.pos := fun e => hnd (e ▸ hdw)
        rw [hDo v hvw]
        exact hF.unseen v hvv (fun hd => hnd (hd.insert _ _))
      · intro v hd
        rcases hdisc v hd with hvw | hd'
        · rw [hvw, hDw]
          exact hcur
        · exact le_trans (hDle v) (hF.seen_le v hd')
      · intro v hd hvv
        by_cases hvw : v = nb.pos
        · exact ⟨n', by simp, by rw [hpos, hvw], by rw [hcost, hvw, hDw]⟩
        · rcases hdisc v hd with hvw' | hd'
          · exact absurd hvw' hvw
          · obtain ⟨n, hn1, hn2, hn3⟩ := hF.queued v hd' hvv
            exact ⟨n, List.mem_append_left _ hn1, hn2, by rw [hDo v hvw]; exact hn3⟩
      · intro n hnm
        rcases List.mem_append.1 hnm with hnm | hnm
        · exact le_trans (hDle _) (hF.cost_ge n hnm)
        · simp only [List.mem_singleton] at hnm
          subst hnm
          rw [hpos, hDw, hcost]
      · intro v hvv n hnm
        rw [hDo v (hneV v hvv)]
        rcases List.mem_append.1 hnm with hnm | hnm
        · exact hF.done_le v hvv n hnm
        · simp only [List.mem_singleton] at hnm
          subst hnm
          rw [hcost]
          have := hF.busy_max cur.pos rfl v hvv
          omega
      · intro v hvv hb w hw
        obtain ⟨h1, h2⟩ := hF.closed v hvv hb w hw
        refine ⟨h1.insert _ _, ?_⟩
        rw [hDo v (hneV v hvv)]
        exact le_trans (hDle w) h2
      · intro b hb v hvv
        subst hb
        rw [hDo v (hneV v hvv), hDo _ hcw]
        exact hF.busy_max cur.pos rfl v hvv
    · rw [hDw, hDo _ hcw]
  · have hskip := relax_skip_of_not cur nb s hc
    rw [hskip]
    refine ⟨hF, ?_, ?_, fun v hd => hd, fun v => le_refl _, rfl⟩
    · by_cases hv : s.visited.find nb.pos = none
      · have hnlt : ¬ distAt s.distances cur.pos + 1 < distAt s.distances nb.pos :=
          fun hlt => hc ⟨hv, hlt⟩
        by_contra hnd
        have := hF.unseen nb.pos hstep.2 hnd
        omega
      · exact hT.root nb.pos hv
    · by_cases hv : s.visited.find nb.pos = none
      · have hnlt : ¬ distAt s.distances cur.pos + 1 < distAt s.distances nb.pos :=
          fun hlt => hc ⟨hv, hlt⟩
        omega
      · have := hF.busy_max cur.pos rfl nb.pos hv
        omega

/-- The neighbour loop of `findPathDijkstra` keeps the tree part of the
invariant, leaves the visited map alone and pushes at most one entry per
neighbour. -/
theorem relax_fold_tree (maze : MazeGenerator) (start : Coord) (cur : Node) (nbs : List Node) :
    ∀ s : DijkstraState, s.visited.find cur.pos ≠ none →
      (∀ nb ∈ nbs, Step maze cur.pos nb.pos) →
      DijTree maze start s.pq s.distances s.cameFrom s.visited →
      DijTree maze start (nbs.foldl (relax cur) s).pq (nbs.foldl (relax cur) s).distances
          (nbs.foldl (relax cur) s).cameFrom (nbs.foldl (relax cur) s).visited ∧
        (nbs.foldl (relax cur) s).visited = s.visited ∧
        (nbs.foldl (relax cur) s).pq.length ≤ s.pq.length + nbs.length := by
  induction nbs with
  | nil => intro s _ _ h; exact ⟨h, rfl, by simp⟩
  | cons a t ih =>
    intro s hcv hst h
    have h1 := relax_tree maze start cur a s hcv (hst a (List.mem_cons_self _ _)) h
    obtain ⟨f1, f2⟩ := relax_frame cur a s
    obtain ⟨k1, k2, k3⟩ := ih (relax cur s a) (by rw [f1]; exact hcv)
      (fun nb hnb => hst nb (List.mem_cons_of_mem _ hnb)) h1
    rw [List.foldl_cons]
    refine ⟨k1, by rw [k2, f1], ?_⟩
    simp only [List.length_cons]
    omega

/-- The neighbour loop of `findPathDijkstra` keeps the distance part of the
invariant and leaves every listed neighbour discovered at a cost at most one
above the node being expanded. -/
theorem relax_fold_full (maze : MazeGenerator) (start goal : Coord) (cur : Node) (nproc : Nat)
    (hn : (nproc : Int) < INT_MAX) (nbs : List Node) :
    ∀ s : DijkstraState, s.visited.find cur.pos ≠ none →
      (∀ nb ∈ nbs, Step maze cur.pos nb.pos) →
      DijTree maze start s.pq s.distances s.cameFrom s.visited →
      DijFull maze start goal (fun b => b = cur.pos) nproc s.pq s.distances s.cameFrom
        s.visited →
      distAt s.distances cur.pos + 1 ≤ nproc →
      DijFull maze start goal (fun b => b = cur.pos) nproc (nbs.foldl (relax cur) s).pq
          (nbs.foldl (relax cur) s).distances (nbs.foldl (relax cur) s).cameFrom
          (nbs.foldl (relax cur) s).visited ∧
        (∀ nb ∈ nbs, Discovered start (nbs.foldl (relax cur) s).cameFrom nb.pos ∧
          distAt (nbs.foldl (relax cur) s).distances nb.pos ≤
            distAt (nbs.foldl (relax cur) s).distances cur.pos + 1) ∧
        (∀ v, Discovered start s.cameFrom v →
          Discovered start (nbs.foldl (relax cur) s).cameFrom v) ∧
        (∀ v, distAt (nbs.foldl (relax cur) s).distances v ≤ distAt s.distances v) ∧
        distAt (nbs.foldl (relax cur) s).distances cur.pos = distAt s.distances cur.pos := by
  induction nbs with
  | nil =>
    intro s _ _ _ hF _
    exact ⟨hF, by simp, fun v hd => hd, fun v => le_refl _, rfl⟩
  | cons a t ih =>
    intro s hcv hst hT hF hcur
    have hsa := hst a (List.mem_cons_self _ _)
    have hT1 := relax_tree maze start cur a s hcv hsa hT
    obtain ⟨g1, g2, g3, g4, g5, g6⟩ := relax_full maze start goal cur a s nproc hcv hsa hT hF hcur hn
    obtain ⟨f1, -⟩ := relax_frame cur a s
    obtain ⟨k1, k2, k3, k4, k5⟩ := ih (relax cur s a) (by rw [f1]; exact hcv)
      (fun nb hnb => hst nb (List.mem_cons_of_mem _ hnb)) hT1 g1 (by rw [g6]; exact hcur)
    rw [List.foldl_cons]
    refine ⟨k1, ?_, fun v hd => k3 v (g4 v hd), fun v => le_trans (k4 v) (g5 v), by rw [k5, g6]⟩
    intro nb hnb
    rcases List.mem_cons.1 hnb with rfl | hnb
    · refine ⟨k3 _ g2, ?_⟩
      have := k4 nb.pos
      rw [k5]
      omega
    · exact k2 nb hnb

/-- Finalising a cell that was not finalised lowers the count of cells still to
be finalised by one. -/
theorem unprocessedCount_insert (start : Coord) (w h : Int) (visited : KeyMap Bool) (c : Coord)
    (hc : visited.find c = none)
    (hr : c = start ∨ (0 ≤ c.1 ∧ c.1 < w ∧ 0 ≤ c.2 ∧ c.2 < h)) :
    unprocessedCount start w h (visited.insert c true) + 1 =
      unprocessedCount start w h visited := by
  unfold unprocessedCount
  have hmem : c ∈ (insert start (Finset.Ico 0 w ×ˢ Finset.Ico 0 h)).filter
      fun c => visited.find c = none := by
    simp only [Finset.mem_filter, Finset.mem_insert, Finset.mem_product, Finset.mem_Ico]
    refine ⟨?_, hc⟩
    rcases hr with hr | hr
    · exact Or.inl hr
    · exact Or.inr ⟨⟨hr.1, hr.2.1⟩, hr.2.2⟩
  have heq : ((insert start (Finset.Ico 0 w ×ˢ Finset.Ico 0 h)).filter
      fun k => (visited.insert c true).find k = none) =
      ((insert start (Finset.Ico 0 w ×ˢ Finset.Ico 0 h)).filter
        fun k => visited.find k = none).erase c := by
    ext k
    simp only [Finset.mem_filter, Finset.mem_erase, KeyMap.find_insert]
    by_cases hk : k = c
    · simp [hk]
    · simp [hk]
  rw [heq, Finset.card_erase_of_mem hmem]
  have := Finset.card_pos.2 ⟨c, hmem⟩
  omega

theorem unprocessedCount_le (start : Coord) (w h : Int) (visited : KeyMap Bool) :
    unprocessedCount start w h visited ≤ w.toNat * h.toNat + 1 := by
  unfold unprocessedCount
  refine le_trans (Finset.card_filter_le _ _) ?_
  refine le_trans (Finset.card_insert_le _ _) ?_
  rw [Finset.card_product, Int.card_Ico, Int.card_Ico]
  simp

/-- The set of finalised cells has at most `w * h + 1` elements. -/
theorem processed_card_le (maze : MazeGenerator) (start : Coord) (P : Finset Coord)
    (hP : ∀ v ∈ P, v = start ∨ maze.isValidPath v.1 v.2 = true) :
    P.card ≤ maze.width.toNat * maze.height.toNat + 1 := by
  have hsub : P ⊆ insert start (Finset.Ico 0 maze.width ×ˢ Finset.Ico 0 maze.height) := by
    intro v hv
    simp only [Finset.mem_insert, Finset.mem_product, Finset.mem_Ico]
    rcases hP v hv with h | h
    · exact Or.inl h
    · have := isValidPath_range h
      exact Or.inr ⟨⟨this.1, this.2.1⟩, this.2.2⟩
  refine le_trans (Finset.card_le_card hsub) ?_
  refine le_trans (Finset.card_insert_le _ _) ?_
  rw [Finset.card_product, Int.card_Ico, Int.card_Ico]
  simp

/-- A discovered cell is the start or a traversable cell. -/
theorem DijTree.disc_valid {maze : MazeGenerator} {start : Coord} {pq : List Node}
    {dist : KeyMap Int} {cf : KeyMap Coord} {vis : KeyMap Bool}
    (h : DijTree maze start pq dist cf vis) {v : Coord} (hd : Discovered start cf v) :
    v = start ∨ maze.isValidPath v.1 v.2 = true := by
  rcases hd with hd | hd
  · exact Or.inl hd
  · cases hc : cf.find v with
    | none => exact absurd hc hd
    | some u => exact Or.inr (h.parent v u hc).2.2.2

theorem dijkstraInit_dist (maze : MazeGenerator) (sx sy : Int) (v : Coord) :
    distAt (dijkstraInit sx sy maze).distances v =
      if v = (sx, sy) then 0 else if maze.isValidPath v.1 v.2 = true then INT_MAX else 0 := by
  simp only [dijkstraInit, createKey]
  rw [distAt_insert]
  split
  · rfl
  · unfold distAt
    rw [initDistances_find]
    split <;> rfl

/-- The state in which the Dijkstra loop is entered satisfies the tree part of
the invariant. -/
theorem dijTree_init (maze : MazeGenerator) (sx sy : Int) :
    DijTree maze (sx, sy) (dijkstraInit sx sy maze).pq (dijkstraInit sx sy maze).distances
      (dijkstraInit sx sy maze).cameFrom (dijkstraInit sx sy maze).visited := by
  refine
    { nonneg := ?_
      start_dist := by rw [dijkstraInit_dist, if_pos rfl]
      parent := fun v u h => by simp [dijkstraInit, KeyMap.find_empty] at h
      root := fun v h => by simp [dijkstraInit, KeyMap.find_empty] at h
      pq_disc := ?_ }
  · intro v
    rw [dijkstraInit_dist]
    split
    · exact le_refl _
    · split
      · decide
      · exact le_refl _
  · intro n hn
    simp only [dijkstraInit, List.mem_singleton] at hn
    subst hn
    exact Or.inl rfl

/-- The state in which the Dijkstra loop is entered satisfies the distance part
of the invariant, with nothing finalised. -/
theorem dijFull_init (maze : MazeGenerator) (sx sy : Int) (goal : Coord) :
    DijFull maze (sx, sy) goal (fun _ => False) 0 (dijkstraInit sx sy maze).pq
      (dijkstraInit sx sy maze).distances (dijkstraInit sx sy maze).cameFrom
      (dijkstraInit sx sy maze).visited := by
  have hdisc : ∀ v, Discovered (sx, sy) (dijkstraInit sx sy maze).cameFrom v → v = (sx, sy) := by
    intro v hd
    rcases hd with hd | hd
    · exact hd
    · simp [dijkstraInit, KeyMap.find_empty] at hd
  refine
    { unseen := ?_
      seen_le := ?_
      queued := ?_
      cost_ge := ?_
      done_le := fun v h => by simp [dijkstraInit, KeyMap.find_empty] at h
      closed := fun v h => by simp [dijkstraInit, KeyMap.find_empty] at h
      busy_max := fun b hb => hb.elim
      goal_open := rfl }
  · intro v hv hnd
    have hvs : v ≠ (sx, sy) := fun e => hnd (Or.inl e)
    rw [dijkstraInit_dist, if_neg hvs, if_pos hv]
  · intro v hd
    rw [hdisc v hd, dijkstraInit_dist, if_pos rfl]
    simp
  · intro v hd _
    rw [hdisc v hd]
    refine ⟨{ x := sx, y := sy, cost := 0, distance := 0 }, by simp [dijkstraInit], rfl, ?_⟩
    rw [dijkstraInit_dist, if_pos rfl]
  · intro n hn
    simp only [dijkstraInit, List.mem_singleton] at hn
    subst hn
    show distAt (dijkstraInit sx sy maze).distances (sx, sy) ≤ 0
    rw [dijkstraInit_dist, if_pos rfl]

/-- Exits of the Dijkstra loop: the empty frontier and the finalised goal. -/
theorem dijkstra_exit (maze : MazeGenerator) (sx sy ex ey : Int) (fuel : Nat) (tie : Nat → Nat)
    (hf : maze.width.toNat * maze.height.toNat + 2 ≤ fuel)
    (s : DijkstraState) (r : Option (List Coord))
    (hI : DijInv maze (sx, sy) (ex, ey) s)
    (hstep : dijkstraStep fuel tie ex ey maze s = Sum.inl r) :
    DijPost maze (sx, sy) (ex, ey) r := by
  obtain ⟨hT, hFull⟩ := hI
  unfold dijkstraStep at hstep
  cases hp : popMin (tie s.pops) s.pq with
  | none =>
    rw [hp] at hstep
    simp only [Sum.inl.injEq] at hstep
    subst hstep
    have hpq := popMin_none hp
    refine ⟨[], rfl, Or.inl rfl, fun hfit => Or.inl ⟨rfl, ?_⟩⟩
    obtain ⟨P, hP, hF⟩ := hFull hfit
    rintro ⟨r, hr⟩
    obtain ⟨t, -, hch, hlast⟩ := hr.cons_chain
    have hproc : ∀ v, Discovered (sx, sy) s.cameFrom v → s.visited.find v ≠ none := by
      intro v hd hv
      obtain ⟨n, hn, -⟩ := hF.queued v hd hv
      rw [hpq] at hn
      simp at hn
    have := known_of_route maze (Discovered (sx, sy) s.cameFrom)
      (fun v hv w hw => (hF.closed v (hproc v hv) (fun h => h) w hw).1) t (sx, sy) (ex, ey)
      (Or.inl rfl) hch hlast
    exact hproc _ this hF.goal_open
  | some pr =>
    obtain ⟨cur, rest⟩ := pr
    rw [hp] at hstep
    simp only at hstep
    by_cases hcv : s.visited.find (createKey cur.x cur.y) ≠ none
    · rw [if_pos hcv] at hstep
      simp at hstep
    · rw [if_neg hcv] at hstep
      by_cases hc : cur.x = ex ∧ cur.y = ey
      · rw [if_pos hc] at hstep
        simp only [Sum.inl.injEq] at hstep
        subst hstep
        obtain ⟨hmem, hmin, -, -, -⟩ := popMin_some hp
        have hcv' : s.visited.find cur.pos = none := by
          simpa [createKey, Node.pos] using hcv
        have hcp : cur.pos = (ex, ey) := by
          simp [Node.pos, hc.1, hc.2]
        have hroot : ∀ v, (s.visited.insert cur.pos true).find v ≠ none →
            Discovered (sx, sy) s.cameFrom v := by
          intro v hv
          rw [KeyMap.find_insert] at hv
          by_cases hvc : v = cur.pos
          · rw [hvc]
            exact hT.pq_disc cur hmem
          · rw [if_neg hvc] at hv
            exact hT.root v hv
        obtain ⟨p, hp1, hp2, hp3, -, hp5⟩ := reconstruct_tree maze (sx, sy)
          (fun v => (s.visited.insert cur.pos true).find v ≠ none)
          (fun v => (distAt s.distances v).toNat) s.cameFrom
          (by simp only [hT.start_dist]; rfl)
          (fun v u h => by
            obtain ⟨h1, h2, h3⟩ := hT.parent v u h
            refine ⟨?_, ?_, h3⟩
            · show (s.visited.insert cur.pos true).find u ≠ none
              rw [KeyMap.find_insert]
              split
              · simp
              · exact h1
            · have := hT.nonneg u
              simp only
              omega)
          (fun v hv hcf => by
            rcases hroot v hv with h | h
            · exact h
            · exact absurd hcf h)
          ((distAt s.distances (ex, ey)).toNat) (ex, ey)
          (by
            show (s.visited.insert cur.pos true).find (ex, ey) ≠ none
            rw [← hcp, KeyMap.find_insert_self]
            simp) rfl
        have hlen := hp1.length_le hp3
        refine ⟨p, ?_, Or.inr ⟨hp1, hp3⟩, fun hfit => Or.inr ⟨hp1, hp3, ?_⟩⟩
        · have := hp5 fuel [] (by omega)
          simpa [reconstructPath] using this
        · obtain ⟨P, hP, hF⟩ := hFull hfit
          intro r hr
          obtain ⟨t, rfl, hch, hlast⟩ := hr.cons_chain
          by_contra hlt
          simp only [List.length_cons, not_le] at hlt
          have hcl : ∀ v, Discovered (sx, sy) s.cameFrom v →
              (distAt s.distances v).toNat < (distAt s.distances (ex, ey)).toNat →
              ∀ w, Step maze v w → Discovered (sx, sy) s.cameFrom w ∧
                (distAt s.distances w).toNat ≤ (distAt s.distances v).toNat + 1 := by
            intro v hd hlv w hw
            have hvv : s.visited.find v ≠ none := by
              intro hv
              obtain ⟨n, hn1, hn2, hn3⟩ := hF.queued v hd hv
              have h1 := hmin n hn1
              have h2 := hF.cost_ge cur hmem
              rw [hcp] at h2
              have h3 := hT.nonneg v
              omega
            obtain ⟨k1, k2⟩ := hF.closed v hvv (fun h => h) w hw
            refine ⟨k1, ?_⟩
            have h3 := hT.nonneg v
            have h4 := hT.nonneg w
            omega
          have := level_le_of_chain maze (Discovered (sx, sy) s.cameFrom)
            (fun v => (distAt s.distances v).toNat) (distAt s.distances (ex, ey)).toNat
            hcl t (sx, sy) (ex, ey) 0 (Or.inl rfl) (by simp only [hT.start_dist]; decide)
            hch hlast (by omega)
          beta_reduce at this
          omega
      · rw [if_neg hc] at hstep
        simp at hstep

/-- Iterations of the Dijkstra loop keep the invariant and lower the measure. -/
theorem dijkstra_iter (maze : MazeGenerator) (sx sy ex ey : Int) (fuel : Nat) (tie : Nat → Nat)
    (s s' : DijkstraState)
    (hI : DijInv maze (sx, sy) (ex, ey) s)
    (hstep : dijkstraStep fuel tie ex ey maze s = Sum.inr s') :
    DijInv maze (sx, sy) (ex, ey) s' ∧ dijMeasure maze (sx, sy) s' < dijMeasure maze (sx, sy) s := by
  obtain ⟨hT, hFull⟩ := hI
  unfold dijkstraStep at hstep
  cases hp : popMin (tie s.pops) s.pq with
  | none =>
    rw [hp] at hstep
    simp at hstep
  | some pr =>
    obtain ⟨cur, rest⟩ := pr
    rw [hp] at hstep
    simp only at hstep
    obtain ⟨hmem, hmin, hsplit, hsub, hlen⟩ := popMin_some hp
    by_cases hcv : s.visited.find (createKey cur.x cur.y) ≠ none
    · -- a stale entry is dropped
      rw [if_pos hcv] at hstep
      simp only [Sum.inr.injEq] at hstep
      subst hstep
      have hcv' : s.visited.find cur.pos ≠ none := hcv
      refine ⟨⟨?_, ?_⟩, ?_⟩
      · exact
          { nonneg := hT.nonneg
            start_dist := hT.start_dist
            parent := hT.parent
            root := hT.root
            pq_disc := fun n hn => hT.pq_disc n (hsub n hn) }
      · intro hfit
        obtain ⟨P, hP, hF⟩ := hFull hfit
        refine ⟨P, hP, ?_⟩
        exact
          { unseen := hF.unseen
            seen_le := hF.seen_le
            queued := fun v hd hv => by
              obtain ⟨n, hn1, hn2, hn3⟩ := hF.queued v hd hv
              rcases hsplit n hn1 with h | h
              · rw [h] at hn2
                rw [hn2] at hcv'
                exact absurd hv hcv'
              · exact ⟨n, h, hn2, hn3⟩
            cost_ge := fun n hn => hF.cost_ge n (hsub n hn)
            done_le := fun v hv n hn => hF.done_le v hv n (hsub n hn)
            closed := hF.closed
            busy_max := hF.busy_max
            goal_open := hF.goal_open }
      · simp only [dijMeasure]
        omega
    · -- a fresh entry is finalised and its neighbours relaxed
      rw [if_neg hcv] at hstep
      by_cases hc : cur.x = ex ∧ cur.y = ey
      · rw [if_pos hc] at hstep
        simp at hstep
      · rw [if_neg hc] at hstep
        simp only [Sum.inr.injEq] at hstep
        have hcv' : s.visited.find cur.pos = none := by
          simpa [createKey, Node.pos] using hcv
        have hcp : cur.pos ≠ (ex, ey) := by
          intro e
          simp [Node.pos] at e
          exact hc e
        obtain ⟨s1, hs1⟩ : ∃ s1 : DijkstraState, s1 =
            { s with pq := rest, pops := s.pops + 1,
                     visited := s.visited.insert (createKey cur.x cur.y) true } := ⟨_, rfl⟩
        rw [← hs1] at hstep
        have e1 : s1.pq = rest := by rw [hs1]
        have e2 : s1.distances = s.distances := by rw [hs1]
        have e3 : s1.cameFrom = s.cameFrom := by rw [hs1]
        have e4 : s1.visited = s.visited.insert cur.pos true := by rw [hs1]; rfl
        have hvis1 : ∀ v, s1.visited.find v ≠ none ↔ (v = cur.pos ∨ s.visited.find v ≠ none) := by
          intro v
          rw [e4, KeyMap.find_insert]
          by_cases hv : v = cur.pos
          · simp [hv]
          · simp [hv]
        have hcd : Discovered (sx, sy) s.cameFrom cur.pos := hT.pq_disc cur hmem
        have hT1 : DijTree maze (sx, sy) s1.pq s1.distances s1.cameFrom s1.visited := by
          rw [e1, e2, e3]
          exact
            { nonneg := hT.nonneg
              start_dist := hT.start_dist
              parent := fun v u h => by
                obtain ⟨h1, h2, h3⟩ := hT.parent v u h
                exact ⟨(hvis1 u).2 (Or.inr h1), h2, h3⟩
              root := fun v hv => by
                rcases (hvis1 v).1 hv with h | h
                · rw [h]; exact hcd
                · exact hT.root v h
              pq_disc := fun n hn => hT.pq_disc n (hsub n hn) }
        have hsound : ∀ nb ∈ getNeighbors cur.x cur.y maze, Step maze cur.pos nb.pos :=
          fun nb hnb => getNeighbors_sound maze cur.x cur.y nb hnb
        have hcur1 : s1.visited.find cur.pos ≠ none := (hvis1 _).2 (Or.inl rfl)
        obtain ⟨hT2, hv2, hl2⟩ := relax_fold_tree maze (sx, sy) cur (getNeighbors cur.x cur.y maze)
          s1 hcur1 hsound hT1
        subst hstep
        refine ⟨⟨hT2, ?_⟩, ?_⟩
        · intro hfit
          obtain ⟨P, hP, hF⟩ := hFull hfit
          have hcP : cur.pos ∉ P := fun h => ((hP _).2 h) hcv'
          have hcard : (insert cur.pos P).card = P.card + 1 := Finset.card_insert_of_not_mem hcP
          have hP1 : ∀ v, s1.visited.find v ≠ none ↔ v ∈ insert cur.pos P := by
            intro v
            rw [hvis1, Finset.mem_insert, hP]
          have hPle : (insert cur.pos P).card ≤ maze.width.toNat * maze.height.toNat + 1 := by
            refine processed_card_le maze (sx, sy) _ ?_
            intro v hv
            exact hT1.disc_valid (hT1.root v ((hP1 v).2 hv))
          have hn : (((insert cur.pos P).card : Nat) : Int) < INT_MAX := by
            unfold FitsInt at hfit
            have : (((insert cur.pos P).card : Nat) : Int) ≤
                ((maze.width.toNat * maze.height.toNat : Nat) : Int) + 1 := by
              exact_mod_cast hPle
            omega
          have hceq : cur.cost = distAt s.distances cur.pos := by
            obtain ⟨n, hn1, hn2, hn3⟩ := hF.queued cur.pos hcd hcv'
            have h1 := hmin n hn1
            have h2 := hF.cost_ge cur hmem
            omega
          have hF1 : DijFull maze (sx, sy) (ex, ey) (fun b => b = cur.pos) (insert cur.pos P).card
              s1.pq s1.distances s1.cameFrom s1.visited := by
            rw [e1, e2, e3]
            exact
              { unseen := hF.unseen
                seen_le := fun v hd => by
                  have := hF.seen_le v hd
                  rw [hcard]
                  push_cast
                  omega
                queued := fun v hd hv => by
                  have hv0 : s.visited.find v = none := by
                    by_contra h
                    exact ((hvis1 v).2 (Or.inr h)) hv
                  have hvc : v ≠ cur.pos := fun e => ((hvis1 v).2 (Or.inl e)) hv
                  obtain ⟨n, hn1, hn2, hn3⟩ := hF.queued v hd hv0
                  rcases hsplit n hn1 with h | h
                  · rw [h] at hn2
                    exact absurd hn2.symm hvc
                  · exact ⟨n, h, hn2, hn3⟩
                cost_ge := fun n hn => hF.cost_ge n (hsub n hn)
                done_le := fun v hv n hn => by
                  rcases (hvis1 v).1 hv with h | h
                  · rw [h]
                    have := hmin n (hsub n hn)
                    omega
                  · exact hF.done_le v h n (hsub n hn)
                closed := fun v hv hb w hw => by
                  rcases (hvis1 v).1 hv with h | h
                  · exact absurd h hb
                  · exact hF.closed v h (fun h => h) w hw
                busy_max := fun b hb v hv => by
                  subst hb
                  rcases (hvis1 v).1 hv with h | h
                  · rw [h]
                  · have := hF.done_le v h cur hmem
                    omega
                goal_open := by
                  by_contra h
                  rcases (hvis1 _).1 h with h' | h'
                  · exact hcp h'.symm
                  · exact h' hF.goal_open }
          have hcur : distAt s1.distances cur.pos + 1 ≤ ((insert cur.pos P).card : Nat) := by
            rw [e2, hcard]
            have := hF.seen_le cur.pos hcd
            push_cast
            omega
          obtain ⟨g1, g2, g3, g4, g5⟩ := relax_fold_full maze (sx, sy) (ex, ey) cur
            (insert cur.pos P).card hn (getNeighbors cur.x cur.y maze) s1 hcur1 hsound hT1 hF1 hcur
          refine ⟨insert cur.pos P, ?_, ?_⟩
          · intro v
            rw [hv2]
            exact hP1 v
          · exact
              { unseen := g1.unseen
                seen_le := g1.seen_le
                queued := g1.queued
                cost_ge := g1.cost_ge
                done_le := g1.done_le
                closed := fun v hv _ w hw => by
                  by_cases hvc : v = cur.pos
                  · subst hvc
                    obtain ⟨nb, hnb, hnbw⟩ := getNeighbors_complete maze cur.x cur.y w hw
                    rw [← hnbw]
                    exact g2 nb hnb
                  · exact g1.closed v hv hvc w hw
                busy_max := fun b hb => hb.elim
                goal_open := g1.goal_open }
        · simp only [dijMeasure]
          rw [hv2, e4]
          have hcount := unprocessedCount_insert (sx, sy) maze.width maze.height s.visited cur.pos
            hcv' (by
              rcases hT.disc_valid hcd with h | h
              · exact Or.inl h
              · exact Or.inr (isValidPath_range h))
          have h4 := getNeighbors_length maze cur.x cur.y
          rw [e1] at hl2
          omega

/-- Specification of `findPathDijkstra`, whatever the order of equal-cost
entries: with enough fuel it returns; what it returns is empty or a
repetition-free route; and when the cell count fits an `int` it is empty exactly
when the goal is unreachable and otherwise of least length. -/
theorem findPathDijkstra_spec (maze : MazeGenerator) (sx sy ex ey : Int) (fuel : Nat)
    (tie : Nat → Nat) (hf : 4 * (maze.width.toNat * maze.height.toNat) + 6 ≤ fuel) :
    ∃ p, findPathDijkstra fuel tie sx sy ex ey maze = some p ∧
      (p = [] ∨ (IsRoute maze (sx, sy) (ex, ey) p ∧ p.Nodup)) ∧
      (FitsInt maze → SearchResult maze (sx, sy) (ex, ey) p) := by
  have key := runLoop_spec (dijkstraStep fuel tie ex ey maze)
    (DijInv maze (sx, sy) (ex, ey)) (dijMeasure maze (sx, sy)) (DijPost maze (sx, sy) (ex, ey))
    (fun s r hI hs => dijkstra_exit maze sx sy ex ey fuel tie (by omega) s r hI hs)
    (fun s s' hI hs => dijkstra_iter maze sx sy ex ey fuel tie s s' hI hs)
    fuel (dijkstraInit sx sy maze)
    ⟨dijTree_init maze sx sy, fun _ => ⟨∅, by simp [dijkstraInit, KeyMap.find_empty],
      by simpa using dijFull_init maze sx sy (ex, ey)⟩⟩ ?_
  · obtain ⟨r, hr, p, hp, hpost⟩ := key
    exact ⟨p, by simp [findPathDijkstra, hr, hp], hpost⟩
  · have := unprocessedCount_le (sx, sy) maze.width maze.height (dijkstraInit sx sy maze).visited
    simp only [dijMeasure, dijkstraInit, List.length_singleton] at this ⊢
    omega

end MazeRunner


/-! ## Trees of cells -/

namespace MazeRunner

theorem SimpleRoute.mono {ok ok' : Coord → Prop} {a b : Coord} {p : List Coord}
    (h : SimpleRoute ok a b p) (hsub : ∀ c, ok c → ok' c) : SimpleRoute ok' a b p :=
  ⟨h.1, h.2.1, h.2.2.1, fun c hc => hsub c (h.2.2.2.1 c hc), h.2.2.2.2⟩

theorem SimpleRoute.reverse {ok : Coord → Prop} {a b : Coord} {p : List Coord}
    (h : SimpleRoute ok a b p) : SimpleRoute ok b a p.reverse := by
  obtain ⟨h1, h2, h3, h4, h5⟩ := h
  refine ⟨by simpa using h2, by simpa using h1, ?_, fun c hc => h4 c (List.mem_reverse.1 hc),
    List.nodup_reverse.2 h5⟩
  rw [List.chain'_reverse]
  exact h3.imp (fun {_ _} hab => hab.symm)

theorem SimpleRoute.of_cell {ok : Coord → Prop} {a : Coord} (h : ok a) :
    SimpleRoute ok a a [a] := by
  refine ⟨rfl, rfl, List.chain'_singleton _, ?_, List.nodup_singleton _⟩
  intro c hc
  simp at hc
  subst hc
  exact h

/-- A simple route that starts where it ends has a single cell. -/
theorem SimpleRoute.eq_single {ok : Coord → Prop} {a : Coord} {p : List Coord}
    (h : SimpleRoute ok a a p) : p = [a] := by
  obtain ⟨h1, h2, -, -, h5⟩ := h
  cases p with
  | nil => simp at h1
  | cons x t =>
    simp at h1
    subst h1
    cases t with
    | nil => rfl
    | cons y t =>
      rw [List.getLast?_cons_cons] at h2
      have hmem : x ∈ y :: t := List.mem_of_mem_getLast? (by rw [h2]; rfl)
      exact absurd hmem (List.nodup_cons.1 h5).1

/-- A simple route of at least two cells, split at its first step. -/
theorem SimpleRoute.uncons {ok : Coord → Prop} {a b x : Coord} {t : List Coord}
    (h : SimpleRoute ok a b (a :: x :: t)) :
    Adjacent a x ∧ a ∉ x :: t ∧ SimpleRoute ok x b (x :: t) := by
  obtain ⟨-, h2, h3, h4, h5⟩ := h
  rw [List.chain'_cons] at h3
  rw [List.getLast?_cons_cons] at h2
  exact ⟨h3.1, (List.nodup_cons.1 h5).1,
    rfl, h2, h3.2, fun c hc => h4 c (List.mem_cons_of_mem _ hc), (List.nodup_cons.1 h5).2⟩

/-- A cell with a single neighbour among the cells of a simple route can only be
an endpoint of the route. -/
theorem SimpleRoute.pendant_endpoint {ok : Coord → Prop} {a b v : Coord} {p : List Coord}
    (u : Coord) (h : SimpleRoute ok a b p) (hv : v ∈ p)
    (huniq : ∀ c, c ∈ p → Adjacent c v → c = u) : a = v ∨ b = v := by
  obtain ⟨h1, h2, h3, -, h5⟩ := h
  obtain ⟨l1, l2, rfl⟩ := List.append_of_mem hv
  rcases List.eq_nil_or_concat l1 with rfl | ⟨l1', x, hl⟩
  · left
    simpa using h1.symm
  · rw [List.concat_eq_append] at hl
    subst hl
    cases l2 with
    | nil =>
      right
      simpa using h2.symm
    | cons y l2' =>
      exfalso
      rw [List.chain'_append] at h3
      obtain ⟨-, h3b, h3c⟩ := h3
      have hxv : Adjacent x v := h3c x (by simp) v (by simp)
      have hvy : Adjacent v y := (List.chain'_cons.1 h3b).1
      have hx := huniq x (by simp) hxv
      have hy := huniq y (by simp) hvy.symm
      rw [List.nodup_append] at h5
      have hxy : x = y := by rw [hx, hy]
      have hxm : x ∈ l1' ++ [x] := by simp
      have hym : x ∈ v :: y :: l2' := by rw [hxy]; simp
      exact h5.2.2 hxm hym

/-- Growing a tree by a pendant cell. If `v` is a new cell whose only neighbour
in the tree is `u`, the cells of the tree together with `v` form a tree. -/
theorem TreeLike.pendant {ok ok' : Coord → Prop} {u v : Coord} (hT : TreeLike ok)
    (hv : ¬ ok v) (hu : ok u) (huv : Adjacent u v)
    (huniq : ∀ c, ok c → Adjacent c v → c = u)
    (hok' : ∀ c, ok' c ↔ ok c ∨ c = v) : TreeLike ok' := by
  obtain ⟨hex, hun⟩ := hT
  have hsub : ∀ c, ok c → ok' c := fun c hc => (hok' c).2 (Or.inl hc)
  have hv' : ok' v := (hok' v).2 (Or.inr rfl)
  -- a route avoiding `v` lies in the old tree
  have restrict : ∀ {a b p}, SimpleRoute ok' a b p → v ∉ p → SimpleRoute ok a b p := by
    intro a b p h hvp
    refine ⟨h.1, h.2.1, h.2.2.1, fun c hc => ?_, h.2.2.2.2⟩
    rcases (hok' c).1 (h.2.2.2.1 c hc) with h' | h'
    · exact h'
    · exact absurd (h' ▸ hc) hvp
  -- `v` can only be an endpoint
  have endpoint : ∀ {a b p}, SimpleRoute ok' a b p → v ∈ p → a = v ∨ b = v := by
    intro a b p h hvp
    refine h.pendant_endpoint u hvp ?_
    intro c hc hcv
    rcases (hok' c).1 (h.2.2.2.1 c hc) with h' | h'
    · exact huniq c h' hcv
    · exact absurd h' hcv.ne
  -- shape of a route leaving `v`
  have shape : ∀ {b p}, SimpleRoute ok' v b p → b ≠ v →
      ∃ t, p = v :: t ∧ SimpleRoute ok u b t := by
    intro b p h hb
    obtain ⟨h1, h2, h3, h4, h5⟩ := h
    cases p with
    | nil => simp at h1
    | cons x t =>
      simp at h1
      subst h1
      cases t with
      | nil =>
        simp at h2
        exact absurd h2.symm hb
      | cons y t =>
        obtain ⟨k1, k2, k3⟩ := SimpleRoute.uncons ⟨rfl, h2, h3, h4, h5⟩
        have k4 := restrict k3 k2
        have hy : y = u := huniq y (k4.2.2.2.1 y (by simp)) k1.symm
        subst hy
        exact ⟨_, rfl, k4⟩
  -- uniqueness for routes leaving `v`
  have uniq_from : ∀ {b p q}, SimpleRoute ok' v b p → SimpleRoute ok' v b q → p = q := by
    intro b p q hp hq
    by_cases hb : b = v
    · subst hb
      rw [hp.eq_single, hq.eq_single]
    · obtain ⟨t1, rfl, ht1⟩ := shape hp hb
      obtain ⟨t2, rfl, ht2⟩ := shape hq hb
      rw [hun u b t1 t2 ht1 ht2]
  constructor
  · intro a b ha hb
    rcases (hok' a).1 ha with ha' | ha' <;> rcases (hok' b).1 hb with hb' | hb'
    · obtain ⟨p, hp⟩ := hex a b ha' hb'
      exact ⟨p, hp.mono hsub⟩
    · rw [hb']
      obtain ⟨p, hp⟩ := hex u a hu ha'
      have hvp : v ∉ p := fun h => hv (hp.2.2.2.1 v h)
      have hroute : SimpleRoute ok' v a (v :: p) := by
        obtain ⟨h1, h2, h3, h4, h5⟩ := hp
        cases p with
        | nil => simp at h1
        | cons x t =>
          simp at h1
          subst h1
          refine ⟨rfl, by rw [List.getLast?_cons_cons]; exact h2, ?_, ?_,
            List.nodup_cons.2 ⟨hvp, h5⟩⟩
          · exact List.chain'_cons.2 ⟨huv.symm, h3⟩
          · intro c hc
            rcases List.mem_cons.1 hc with rfl | hc
            · exact hv'
            · exact hsub c (h4 c hc)
      exact ⟨_, hroute.reverse⟩
    · rw [ha']
      obtain ⟨p, hp⟩ := hex u b hu hb'
      have hvp : v ∉ p := fun h => hv (hp.2.2.2.1 v h)
      obtain ⟨h1, h2, h3, h4, h5⟩ := hp
      cases p with
      | nil => simp at h1
      | cons x t =>
        simp at h1
        subst h1
        refine ⟨v :: x :: t, rfl, by rw [List.getLast?_cons_cons]; exact h2, ?_, ?_,
          List.nodup_cons.2 ⟨hvp, h5⟩⟩
        · exact List.chain'_cons.2 ⟨huv.symm, h3⟩
        · intro c hc
          rcases List.mem_cons.1 hc with rfl | hc
          · exact hv'
          · exact hsub c (h4 c hc)
    · rw [ha', hb']
      exact ⟨[v], SimpleRoute.of_cell hv'⟩
  · intro a b p q hp hq
    by_cases hvp : v ∈ p
    · rcases endpoint hp hvp with h | h
      · subst h
        exact uniq_from hp hq
      · subst h
        have := uniq_from hp.reverse hq.reverse
        exact List.reverse_injective this
    · by_cases hvq : v ∈ q
      · rcases endpoint hq hvq with h | h
        · subst h
          exact uniq_from hp hq
        · subst h
          have := uniq_from hp.reverse hq.reverse
          exact List.reverse_injective this
      · exact hun a b p q (restrict hp hvp) (restrict hq hvq)

/-- A tree of a single cell. -/
theorem TreeLike.singleton {ok : Coord → Prop} (o : Coord) (h : ∀ c, ok c ↔ c = o) :
    TreeLike ok := by
  constructor
  · intro a b ha hb
    rw [(h a).1 ha, (h b).1 hb]
    exact ⟨[o], SimpleRoute.of_cell ((h o).2 rfl)⟩
  · intro a b p q hp hq
    have hab : a = b := by rw [(h a).1 (hp.2.2.2.1 a (List.mem_of_mem_head? (by rw [hp.1]; rfl))),
      (h b).1 (hp.2.2.2.1 b (List.mem_of_mem_getLast? (by rw [hp.2.1]; rfl)))]
    subst hab
    rw [hp.eq_single, hq.eq_single]

/-- Being a tree depends only on which cells satisfy the predicate. -/
theorem TreeLike.congr {ok ok' : Coord → Prop} (hT : TreeLike ok) (h : ∀ c, ok' c ↔ ok c) :
    TreeLike ok' := by
  obtain ⟨hex, hun⟩ := hT
  constructor
  · intro a b ha hb
    obtain ⟨p, hp⟩ := hex a b ((h a).1 ha) ((h b).1 hb)
    exact ⟨p, hp.mono (fun c hc => (h c).2 hc)⟩
  · intro a b p q hp hq
    exact hun a b p q (hp.mono (fun c hc => (h c).1 hc)) (hq.mono (fun c hc => (h c).1 hc))

/-- A tree has no cycle. -/
theorem TreeLike.no_cycle {ok : Coord → Prop} (hT : TreeLike ok) (c : List Coord) :
    ¬ IsCycle ok c := by
  rintro ⟨hlen, hnd, hok, hch, a, b, ha, hb, hba⟩
  have hp : SimpleRoute ok a b c := ⟨ha, hb, hch, hok, hnd⟩
  have hamem : a ∈ c := List.mem_of_mem_head? (by rw [ha]; rfl)
  have hbmem : b ∈ c := List.mem_of_mem_getLast? (by rw [hb]; rfl)
  have hq : SimpleRoute ok a b [a, b] := by
    refine ⟨rfl, rfl, ?_, ?_, ?_⟩
    · simp only [List.chain'_cons, List.chain'_singleton, and_true]
      exact hba.symm
    · intro x hx
      simp at hx
      rcases hx with rfl | rfl
      · exact hok _ hamem
      · exact hok _ hbmem
    · simp only [List.nodup_cons, List.mem_singleton, List.not_mem_nil, not_false_eq_true,
        List.nodup_nil, and_true]
      exact hba.ne.symm
  have := hT.2 a b c [a, b] hp hq
  rw [this] at hlen
  simp at hlen

end MazeRunner


/-! ## The marker and explored arrays -/

namespace MazeRunner

open MazeGenerator

/-- Reading a two-dimensional array after one in-range write. -/
theorem grid_getD_set {α : Type} (g : List (List α)) (i j i' j' : Nat) (c d : α)
    (hi : i < g.length) (hj : j < (g.getD i []).length) :
    ((g.set i ((g.getD i []).set j c)).getD i' []).getD j' d =
      if i' = i ∧ j' = j then c else (g.getD i' []).getD j' d := by
  by_cases hii : i' = i
  · subst hii
    have hrow : (g.set i' ((g.getD i' []).set j c)).getD i' [] = (g.getD i' []).set j c := by
      rw [List.getD_eq_getElem?_getD, List.getElem?_set_self hi]
      rfl
    rw [hrow]
    by_cases hjj : j' = j
    · subst hjj
      rw [if_pos ⟨rfl, rfl⟩, List.getD_eq_getElem?_getD, List.getElem?_set_self hj]
      rfl
    · rw [if_neg (fun h => hjj h.2), List.getD_eq_getElem?_getD,
        List.getElem?_set_ne (fun h => hjj h.symm), ← List.getD_eq_getElem?_getD]
  · rw [if_neg (fun h => hii h.1)]
    have hrow : (g.set i ((g.getD i []).set j c)).getD i' [] = g.getD i' [] := by
      rw [List.getD_eq_getElem?_getD, List.getElem?_set_ne (fun h => hii h.symm),
        ← List.getD_eq_getElem?_getD]
    rw [hrow]

/-- An in-range write keeps the shape of a two-dimensional array. -/
theorem grid_shape_set {α : Type} (g : List (List α)) (i j : Nat) (c : α) (n w : Nat)
    (hlen : g.length = n) (hrows : ∀ row ∈ g, row.length = w) :
    (g.set i ((g.getD i []).set j c)).length = n ∧
      ∀ row ∈ g.set i ((g.getD i []).set j c), row.length = w := by
  refine ⟨by rw [List.length_set]; exact hlen, ?_⟩
  intro row hrow
  by_cases hi : i < g.length
  · rcases List.mem_or_eq_of_mem_set hrow with h | h
    · exact hrows row h
    · rw [h, List.length_set]
      apply hrows
      rw [List.getD_eq_getElem?_getD, List.getElem?_eq_getElem hi]
      exact List.getElem_mem hi
  · rw [List.set_eq_of_length_le (by omega)] at hrow
    exact hrows row hrow

theorem row_length_of_wf {α : Type} (g : List (List α)) (n w i : Nat) (hlen : g.length = n)
    (hrows : ∀ row ∈ g, row.length = w) (hi : i < n) : (g.getD i []).length = w := by
  apply hrows
  rw [List.getD_eq_getElem?_getD, List.getElem?_eq_getElem (by omega)]
  exact List.getElem_mem (by omega)

/-- Reading the marker array after `setCell`. -/
theorem cellAt_setCell (m : MazeGenerator) (x y x' y' : Int) (c : Char) (hwf : WellFormed m)
    (hr : InRange m x y) (hx' : 0 ≤ x') (hy' : 0 ≤ y') :
    (m.setCell x y c).cellAt x' y' = if x' = x ∧ y' = y then c else m.cellAt x' y' := by
  obtain ⟨h1, h2, -, -⟩ := hwf
  obtain ⟨r1, r2, r3, r4⟩ := hr
  have hi : y.toNat < m.maze.length := by omega
  have hj : x.toNat < (m.maze.getD y.toNat []).length := by
    rw [row_length_of_wf m.maze _ _ y.toNat h1 h2 (by omega)]
    omega
  unfold cellAt setCell
  simp only
  rw [grid_getD_set m.maze y.toNat x.toNat y'.toNat x'.toNat c '#' hi hj]
  by_cases hc : x' = x ∧ y' = y
  · rw [if_pos hc, if_pos ⟨by rw [hc.2], by rw [hc.1]⟩]
  · rw [if_neg hc, if_neg]
    rintro ⟨e1, e2⟩
    exact hc ⟨by omega, by omega⟩

/-- Reading the explored array after `setVisited`. -/
theorem visitedAt_setVisited (m : MazeGenerator) (x y x' y' : Int) (b : Bool)
    (hwf : WellFormed m) (hr : InRange m x y) (hx' : 0 ≤ x') (hy' : 0 ≤ y') :
    (m.setVisited x y b).visitedAt x' y' = if x' = x ∧ y' = y then b else m.visitedAt x' y' := by
  obtain ⟨-, -, h1, h2⟩ := hwf
  obtain ⟨r1, r2, r3, r4⟩ := hr
  have hi : y.toNat < m.visited.length := by omega
  have hj : x.toNat < (m.visited.getD y.toNat []).length := by
    rw [row_length_of_wf m.visited _ _ y.toNat h1 h2 (by omega)]
    omega
  unfold visitedAt setVisited
  simp only
  rw [grid_getD_set m.visited y.toNat x.toNat y'.toNat x'.toNat b false hi hj]
  by_cases hc : x' = x ∧ y' = y
  · rw [if_pos hc, if_pos ⟨by rw [hc.2], by rw [hc.1]⟩]
  · rw [if_neg hc, if_neg]
    rintro ⟨e1, e2⟩
    exact hc ⟨by omega, by omega⟩

theorem setCell_wf (m : MazeGenerator) (x y : Int) (c : Char) (hwf : WellFormed m) :
    WellFormed (m.setCell x y c) := by
  obtain ⟨h1, h2, h3, h4⟩ := hwf
  obtain ⟨k1, k2⟩ := grid_shape_set m.maze y.toNat x.toNat c _ _ h1 h2
  exact ⟨k1, k2, h3, h4⟩

theorem setVisited_wf (m : MazeGenerator) (x y : Int) (b : Bool) (hwf : WellFormed m) :
    WellFormed (m.setVisited x y b) := by
  obtain ⟨h1, h2, h3, h4⟩ := hwf
  obtain ⟨k1, k2⟩ := grid_shape_set m.visited y.toNat x.toNat b _ _ h3 h4
  exact ⟨h1, h2, k1, k2⟩

theorem setCell_width (m : MazeGenerator) (x y : Int) (c : Char) :
    (m.setCell x y c).width = m.width := rfl

theorem setCell_height (m : MazeGenerator) (x y : Int) (c : Char) :
    (m.setCell x y c).height = m.height := rfl

theorem setVisited_width (m : MazeGenerator) (x y : Int) (b : Bool) :
    (m.setVisited x y b).width = m.width := rfl

theorem setVisited_height (m : MazeGenerator) (x y : Int) (b : Bool) :
    (m.setVisited x y b).height = m.height := rfl

theorem visitedAt_setCell (m : MazeGenerator) (x y x' y' : Int) (c : Char) :
    (m.setCell x y c).visitedAt x' y' = m.visitedAt x' y' := rfl

theorem cellAt_setVisited (m : MazeGenerator) (x y x' y' : Int) (b : Bool) :
    (m.setVisited x y b).cellAt x' y' = m.cellAt x' y' := rfl

theorem isValidCell_iff (m : MazeGenerator) (x y : Int) :
    m.isValidCell x y = true ↔ InRange m x y := by
  simp [isValidCell, InRange, and_assoc]

/-- The constructor builds a well-formed object. -/
theorem new_wf (width height : Int) : WellFormed (MazeGenerator.new width height) := by
  refine ⟨?_, ?_, ?_, ?_⟩
  · simp [MazeGenerator.new]
  · intro row hrow
    simp only [MazeGenerator.new] at hrow
    rw [List.eq_of_mem_replicate hrow]
    simp [MazeGenerator.new]
  · simp [MazeGenerator.new]
  · intro row hrow
    simp only [MazeGenerator.new] at hrow
    rw [List.eq_of_mem_replicate hrow]
    simp [MazeGenerator.new]

/-- The reset loops of `generateMaze` leave a well-formed grid of the same
dimensions in which every cell is Wall and unexplored. -/
theorem clearCells_spec (m : MazeGenerator) (hwf : WellFormed m) :
    WellFormed m.clearCells ∧ m.clearCells.width = m.width ∧ m.clearCells.height = m.height ∧
      ∀ x y, InRange m x y →
        m.clearCells.cellAt x y = '#' ∧ m.clearCells.visitedAt x y = false := by
  -- state after the rows below `i` and the first `n` cells of row `i`
  have inner : ∀ (i : Nat), (i : Int) < m.height → ∀ (n : Nat), (n : Int) ≤ m.width →
      ∀ acc : MazeGenerator,
      (WellFormed acc ∧ acc.width = m.width ∧ acc.height = m.height ∧
        ∀ x y, InRange m x y → y < i → acc.cellAt x y = '#' ∧ acc.visitedAt x y = false) →
      (WellFormed ((List.range n).foldl
          (fun acc2 (j : Nat) => (acc2.setCell j i '#').setVisited j i false) acc) ∧
        ((List.range n).foldl
          (fun acc2 (j : Nat) => (acc2.setCell j i '#').setVisited j i false) acc).width =
            m.width ∧
        ((List.range n).foldl
          (fun acc2 (j : Nat) => (acc2.setCell j i '#').setVisited j i false) acc).height =
            m.height ∧
        ∀ x y, InRange m x y → (y < i ∨ (y = i ∧ x < n)) →
          ((List.range n).foldl
            (fun acc2 (j : Nat) => (acc2.setCell j i '#').setVisited j i false) acc).cellAt
              x y = '#' ∧
          ((List.range n).foldl
            (fun acc2 (j : Nat) => (acc2.setCell j i '#').setVisited j i false) acc).visitedAt
              x y = false) := by
    intro i hi n
    induction n with
    | zero =>
      intro _ acc h
      refine ⟨h.1, h.2.1, h.2.2.1, ?_⟩
      intro x y hr hc
      rcases hc with hc | hc
      · exact h.2.2.2 x y hr hc
      · have := hr.1
        omega
    | succ n ih =>
      intro hn acc h
      obtain ⟨k1, k2, k3, k4⟩ := ih (by omega) acc h
      rw [List.range_succ, List.foldl_append, List.foldl_cons, List.foldl_nil]
      generalize (List.range n).foldl
        (fun acc2 (j : Nat) => (acc2.setCell j i '#').setVisited j i false) acc = a at k1 k2 k3 k4
      have hra : InRange a (n : Int) (i : Int) := by
        refine ⟨by omega, by omega, by omega, by omega⟩
      have hwf1 := setCell_wf a n i '#' k1
      refine ⟨setVisited_wf _ n i false hwf1, k2, k3, ?_⟩
      intro x y hr hc
      rw [cellAt_setVisited, cellAt_setCell a n i x y '#' k1 hra hr.1 hr.2.2.1,
        visitedAt_setVisited _ n i x y false hwf1 hra hr.1 hr.2.2.1, visitedAt_setCell]
      by_cases hxy : x = (n : Int) ∧ y = (i : Int)
      · rw [if_pos hxy, if_pos hxy]
        exact ⟨rfl, rfl⟩
      · rw [if_neg hxy, if_neg hxy]
        apply k4 x y hr
        rcases hc with hc | hc
        · exact Or.inl hc
        · refine Or.inr ⟨hc.1, ?_⟩
          by_contra hge
          exact hxy ⟨by omega, hc.1⟩
  have outer : ∀ (k : Nat), (k : Int) ≤ m.height →
      (WellFormed ((List.range k).foldl
          (fun acc (i : Nat) => (List.range m.width.toNat).foldl
            (fun acc2 (j : Nat) => (acc2.setCell j i '#').setVisited j i false) acc) m) ∧
        ((List.range k).foldl
          (fun acc (i : Nat) => (List.range m.width.toNat).foldl
            (fun acc2 (j : Nat) => (acc2.setCell j i '#').setVisited j i false) acc) m).width =
            m.width ∧
        ((List.range k).foldl
          (fun acc (i : Nat) => (List.range m.width.toNat).foldl
            (fun acc2 (j : Nat) => (acc2.setCell j i '#').setVisited j i false) acc) m).height =
            m.height ∧
        ∀ x y, InRange m x y → y < k →
          ((List.range k).foldl
            (fun acc (i : Nat) => (List.range m.width.toNat).foldl
              (fun acc2 (j : Nat) => (acc2.setCell j i '#').setVisited j i false) acc) m).cellAt
              x y = '#' ∧
          ((List.range k).foldl
            (fun acc (i : Nat) => (List.range m.width.toNat).foldl
              (fun acc2 (j : Nat) => (acc2.setCell j i '#').setVisited j i false) acc)
                m).visitedAt x y = false) := by
    intro k
    induction k with
    | zero =>
      intro _
      refine ⟨hwf, rfl, rfl, ?_⟩
      intro x y hr hc
      have := hr.2.2.1
      omega
    | succ k ih =>
      intro hk
      have hprev := ih (by omega)
      rw [List.range_succ, List.foldl_append, List.foldl_cons, List.foldl_nil]
      generalize (List.range k).foldl
        (fun acc (i : Nat) => (List.range m.width.toNat).foldl
          (fun acc2 (j : Nat) => (acc2.setCell j i '#').setVisited j i false) acc) m = a at hprev
      by_cases hw : 0 ≤ m.width
      · obtain ⟨k1, k2, k3, k4⟩ := inner k (by omega) m.width.toNat (by omega) a hprev
        refine ⟨k1, k2, k3, ?_⟩
        intro x y hr hc
        apply k4 x y hr
        by_cases hy : y < k
        · exact Or.inl hy
        · exact Or.inr ⟨by omega, by have := hr.2.1; omega⟩
      · have hz : m.width.toNat = 0 := by omega
        rw [hz]
        simp only [List.range_zero, List.foldl_nil]
        refine ⟨hprev.1, hprev.2.1, hprev.2.2.1, ?_⟩
        intro x y hr _
        have := hr.1
        have := hr.2.1
        omega
  by_cases hh : 0 ≤ m.height
  · obtain ⟨k1, k2, k3, k4⟩ := outer m.height.toNat (by omega)
    unfold clearCells
    refine ⟨k1, k2, k3, ?_⟩
    intro x y hr
    exact k4 x y hr (by have := hr.2.2.2; omega)
  · have hz : m.height.toNat = 0 := by omega
    unfold clearCells
    rw [hz]
    simp only [List.range_zero, List.foldl_nil, true_and]
    refine ⟨hwf, ?_⟩
    intro x y hr
    have := hr.2.2.1
    have := hr.2.2.2
    omega

end MazeRunner


/-! ## The carving loop -/

namespace MazeRunner

open MazeGenerator

theorem card_filter_add_one (R : Finset Coord) (P P' : Coord → Prop) [DecidablePred P]
    [DecidablePred P'] (c : Coord) (hc : c ∈ R) (hnP : ¬ P c)
    (h : ∀ x ∈ R, P' x ↔ P x ∨ x = c) :
    (R.filter P').card = (R.filter P).card + 1 := by
  have heq : R.filter P' = insert c (R.filter P) := by
    ext x
    simp only [Finset.mem_filter, Finset.mem_insert]
    constructor
    · rintro ⟨hx, hp⟩
      rcases (h x hx).1 hp with h1 | h1
      · exact Or.inr ⟨hx, h1⟩
      · exact Or.inl h1
    · rintro (h1 | ⟨hx, h1⟩)
      · subst h1
        exact ⟨hc, (h x hc).2 (Or.inr rfl)⟩
      · exact ⟨hx, (h x hx).2 (Or.inl h1)⟩
  rw [heq, Finset.card_insert_of_not_mem]
  simp [hnP]

theorem card_filter_add_two (R : Finset Coord) (P P' : Coord → Prop) [DecidablePred P]
    [DecidablePred P'] (c d : Coord) (hc : c ∈ R) (hd : d ∈ R) (hcd : c ≠ d) (hnc : ¬ P c)
    (hnd : ¬ P d) (h : ∀ x ∈ R, P' x ↔ P x ∨ x = c ∨ x = d) :
    (R.filter P').card = (R.filter P).card + 2 := by
  have heq : R.filter P' = insert c (insert d (R.filter P)) := by
    ext x
    simp only [Finset.mem_filter, Finset.mem_insert]
    constructor
    · rintro ⟨hx, hp⟩
      rcases (h x hx).1 hp with h1 | h1 | h1
      · exact Or.inr (Or.inr ⟨hx, h1⟩)
      · exact Or.inl h1
      · exact Or.inr (Or.inl h1)
    · rintro (h1 | h1 | ⟨hx, h1⟩)
      · subst h1
        exact ⟨hc, (h x hc).2 (Or.inr (Or.inl rfl))⟩
      · subst h1
        exact ⟨hd, (h x hd).2 (Or.inr (Or.inr rfl))⟩
      · exact ⟨hx, (h x hx).2 (Or.inl h1)⟩
  rw [heq, Finset.card_insert_of_not_mem, Finset.card_insert_of_not_mem]
  · simp [hnd]
  · simp [hcd, hnc]

theorem card_filter_same (R : Finset Coord) (P P' : Coord → Prop) [DecidablePred P]
    [DecidablePred P'] (h : ∀ x ∈ R, P' x ↔ P x) :
    (R.filter P').card = (R.filter P).card := by
  rw [Finset.filter_congr h]

theorem card_filter_single (R : Finset Coord) (P : Coord → Prop) [DecidablePred P]
    (c : Coord) (hc : c ∈ R) (h : ∀ x ∈ R, P x ↔ x = c) : (R.filter P).card = 1 := by
  have heq : R.filter P = {c} := by
    ext x
    simp only [Finset.mem_filter, Finset.mem_singleton]
    constructor
    · rintro ⟨hx, hp⟩
      exact (h x hx).1 hp
    · intro hx
      subst hx
      exact ⟨hc, (h x hc).2 rfl⟩
  rw [heq, Finset.card_singleton]

theorem card_filter_none (R : Finset Coord) (P : Coord → Prop) [DecidablePred P]
    (h : ∀ x ∈ R, ¬ P x) : (R.filter P).card = 0 := by
  rw [Finset.card_eq_zero, Finset.filter_eq_empty_iff]
  exact fun x hx => h x hx

theorem mem_rect (w h : Int) (c : Coord) :
    c ∈ Finset.Ico 0 w ×ˢ Finset.Ico 0 h ↔ 0 ≤ c.1 ∧ c.1 < w ∧ 0 ≤ c.2 ∧ c.2 < h := by
  simp [Finset.mem_product, and_assoc]

/-- The unexplored lattice neighbours, characterised. -/
theorem mem_getUnvisitedNeighbors (m : MazeGenerator) (x y : Int) (c : Cell) :
    c ∈ m.getUnvisitedNeighbors x y ↔
      LatticeAdj (x, y) c ∧ InRange m c.1 c.2 ∧ m.visitedAt c.1 c.2 = false := by
  simp only [getUnvisitedNeighbors, List.mem_filter, List.map_cons, List.map_nil,
    List.mem_cons, List.mem_singleton, List.not_mem_nil, or_false, Bool.and_eq_true,
    Bool.not_eq_true', isValidCell_iff, LatticeAdj]
  obtain ⟨c1, c2⟩ := c
  simp only [Prod.mk.injEq]
  constructor
  · rintro ⟨h, h2⟩
    refine ⟨?_, h2⟩
    omega
  · rintro ⟨h, h2⟩
    refine ⟨?_, h2⟩
    omega

/-- The drawn neighbour is one of the listed neighbours. -/
theorem getD_mod_mem {α : Type} (l : List α) (r : Nat) (d : α) (h : l ≠ []) :
    l.getD (r % l.length) d ∈ l := by
  have hpos : 0 < l.length := List.length_pos.2 h
  have hlt := Nat.mod_lt r hpos
  rw [List.getD_eq_getElem _ _ hlt]
  exact List.getElem_mem hlt

/-- Effect of `removeWall` on the marker array. -/
theorem removeWall_spec (m : MazeGenerator) (x1 y1 x2 y2 : Int) (hwf : WellFormed m)
    (h1 : InRange m x1 y1) (h2 : InRange m x2 y2) :
    WellFormed (m.removeWall x1 y1 x2 y2) ∧
      (m.removeWall x1 y1 x2 y2).width = m.width ∧
      (m.removeWall x1 y1 x2 y2).height = m.height ∧
      (∀ x y, (m.removeWall x1 y1 x2 y2).visitedAt x y = m.visitedAt x y) ∧
      ∀ x y, 0 ≤ x → 0 ≤ y →
        (m.removeWall x1 y1 x2 y2).cellAt x y =
          if (x = (x1 + x2) / 2 ∧ y = (y1 + y2) / 2) ∨ (x = x2 ∧ y = y2) ∨ (x = x1 ∧ y = y1)
          then ' ' else m.cellAt x y := by
  have hmx : Int.tdiv (x1 + x2) 2 = (x1 + x2) / 2 :=
    Int.tdiv_eq_ediv (by have := h1.1; have := h2.1; omega) (by decide)
  have hmy : Int.tdiv (y1 + y2) 2 = (y1 + y2) / 2 :=
    Int.tdiv_eq_ediv (by have := h1.2.2.1; have := h2.2.2.1; omega) (by decide)
  unfold removeWall
  simp only
  rw [hmx, hmy]
  have w1 := setCell_wf m x1 y1 ' ' hwf
  have w2 := setCell_wf _ x2 y2 ' ' w1
  have w3 := setCell_wf _ ((x1 + x2) / 2) ((y1 + y2) / 2) ' ' w2
  have hmid : InRange ((m.setCell x1 y1 ' ').setCell x2 y2 ' ') ((x1 + x2) / 2)
      ((y1 + y2) / 2) := by
    obtain ⟨a1, a2, a3, a4⟩ := h1
    obtain ⟨b1, b2, b3, b4⟩ := h2
    refine ⟨by omega, ?_, by omega, ?_⟩
    · show (x1 + x2) / 2 < m.width
      omega
    · show (y1 + y2) / 2 < m.height
      omega
  refine ⟨w3, rfl, rfl, fun x y => rfl, ?_⟩
  intro x y hx hy
  rw [cellAt_setCell _ _ _ x y ' ' w2 hmid hx hy, cellAt_setCell _ _ _ x y ' ' w1 h2 hx hy,
    cellAt_setCell _ _ _ x y ' ' hwf h1 hx hy]
  by_cases c1 : x = (x1 + x2) / 2 ∧ y = (y1 + y2) / 2
  · rw [if_pos c1, if_pos (Or.inl c1)]
  · rw [if_neg c1]
    by_cases c2 : x = x2 ∧ y = y2
    · rw [if_pos c2, if_pos (Or.inr (Or.inl c2))]
    · rw [if_neg c2]
      by_cases c3 : x = x1 ∧ y = y1
      · rw [if_pos c3, if_pos (Or.inr (Or.inr c3))]
      · rw [if_neg c3, if_neg]
        rintro (h | h | h)
        · exact c1 h
        · exact c2 h
        · exact c3 h

/-- The four neighbours of the midpoint between two lattice-adjacent nodes are
the two nodes and two cells with both coordinates even. -/
theorem mid_neighbour_cases (cx cy chx chy mx my c1 c2 : Int)
    (hcx : cx % 2 = 1) (hcy : cy % 2 = 1)
    (hmid : (chx = cx ∧ mx = cx ∧ ((chy = cy - 2 ∧ my = cy - 1) ∨ (chy = cy + 2 ∧ my = cy + 1))) ∨
      (chy = cy ∧ my = cy ∧ ((chx = cx - 2 ∧ mx = cx - 1) ∨ (chx = cx + 2 ∧ mx = cx + 1))))
    (hadj : Adjacent (c1, c2) (mx, my)) :
    (c1 = cx ∧ c2 = cy) ∨ (c1 = chx ∧ c2 = chy) ∨ (c1 % 2 = 0 ∧ c2 % 2 = 0) := by
  unfold Adjacent at hadj
  simp only at hadj
  rcases hmid with ⟨h1, h2, h3 | h3⟩ | ⟨h1, h2, h3 | h3⟩ <;>
    rcases hadj with ⟨a1, a2 | a2⟩ | ⟨a1, a2 | a2⟩ <;> omega

/-- While only Path and Wall markers are present, the path cells are the
in-range cells marked Path. -/
theorem isPathCell_iff_of_marks (g : MazeGenerator)
    (hmarks : ∀ x y, InRange g x y → g.cellAt x y = ' ' ∨ g.cellAt x y = '#') (c : Coord) :
    IsPathCell g c ↔ InRange g c.1 c.2 ∧ g.cellAt c.1 c.2 = ' ' := by
  unfold IsPathCell
  rw [isValidCell_iff]
  constructor
  · rintro ⟨hr, hc⟩
    refine ⟨hr, ?_⟩
    rcases hmarks c.1 c.2 hr with h | h
    · exact h
    · rw [h] at hc
      rcases hc with hc | hc | hc <;> exact absurd hc (by decide)
  · rintro ⟨hr, hc⟩
    exact ⟨hr, Or.inl hc⟩

/-- The carving branch of the loop body keeps the invariant and explores one
more cell. -/
theorem carve_push (w h : Int) (hw : w % 2 = 1) (hh : h % 2 = 1) (g : MazeGenerator)
    (draws : Nat) (cx cy chx chy : Int) (rest : List Cell)
    (hI : CarveInv w h { cellStack := (cx, cy) :: rest, grid := g, draws := draws })
    (hadj : LatticeAdj (cx, cy) (chx, chy)) (hr : InRange g chx chy)
    (hv : g.visitedAt chx chy = false) :
    CarveInv w h
        { cellStack := (chx, chy) :: (cx, cy) :: rest
          grid := (g.setVisited chx chy true).removeWall cx cy chx chy
          draws := draws + 1 } ∧
      visitedCount ((g.setVisited chx chy true).removeWall cx cy chx chy) =
        visitedCount g + 1 := by
  have hwf : WellFormed g := hI.wf
  have hgw : g.width = w := hI.width_eq
  have hgh : g.height = h := hI.height_eq
  have hmarks : ∀ x y, InRange g x y → g.cellAt x y = ' ' ∨ g.cellAt x y = '#' := hI.marks
  have hvisnode : ∀ x y, InRange g x y → g.visitedAt x y = true → IsNode w h (x, y) :=
    hI.vis_node
  have hnodeopen : ∀ x y, IsNode w h (x, y) → (g.visitedAt x y = true ↔ g.cellAt x y = ' ') :=
    hI.node_open
  have hnoeven : ∀ x y, InRange g x y → g.cellAt x y = ' ' → ¬ (x % 2 = 0 ∧ y % 2 = 0) :=
    hI.no_even
  have hends : ∀ x y, InRange g x y → g.cellAt x y = ' ' →
      ∀ d : Coord, Adjacent (x, y) d → d.1 % 2 = 1 → d.2 % 2 = 1 →
        IsNode w h d ∧ g.visitedAt d.1 d.2 = true := hI.ends
  have horigin : g.visitedAt 1 1 = true := hI.origin
  have htree : TreeLike (IsPathCell g) := hI.tree
  have hrange : ∀ x y, InRange g x y ↔ 0 ≤ x ∧ x < w ∧ 0 ≤ y ∧ y < h := by
    intro x y
    unfold InRange
    rw [hgw, hgh]
  -- the current cell is an explored node, the chosen cell an unexplored one
  obtain ⟨hcn, hcv⟩ := hI.stack_vis (cx, cy) (List.mem_cons_self _ _)
  simp only at hcv
  have hcopen : g.cellAt cx cy = ' ' := (hnodeopen cx cy hcn).1 hcv
  have hcr : InRange g cx cy := by
    rw [hrange]
    unfold IsNode at hcn
    simp only at hcn
    omega
  have hchn : IsNode w h (chx, chy) := by
    rw [hrange] at hr
    unfold IsNode at hcn ⊢
    unfold LatticeAdj at hadj
    simp only at hcn hadj ⊢
    omega
  have hchclosed : g.cellAt chx chy = '#' := by
    rcases hmarks chx chy hr with h1 | h1
    · have := (hnodeopen chx chy hchn).2 h1
      rw [hv] at this
      exact absurd this (by decide)
    · exact h1
  -- the midpoint
  obtain ⟨mx, hmx⟩ : ∃ mx, mx = (cx + chx) / 2 := ⟨_, rfl⟩
  obtain ⟨my, hmy⟩ : ∃ my, my = (cy + chy) / 2 := ⟨_, rfl⟩
  have hmid : (chx = cx ∧ mx = cx ∧ ((chy = cy - 2 ∧ my = cy - 1) ∨ (chy = cy + 2 ∧ my = cy + 1))) ∨
      (chy = cy ∧ my = cy ∧ ((chx = cx - 2 ∧ mx = cx - 1) ∨ (chx = cx + 2 ∧ mx = cx + 1))) := by
    unfold LatticeAdj at hadj
    simp only at hadj
    omega
  have hmr : InRange g mx my := by
    rw [hrange] at hr hcr ⊢
    omega
  have hmclosed : g.cellAt mx my = '#' := by
    rcases hmarks mx my hmr with h1 | h1
    · have := (hends mx my hmr h1 (chx, chy) (by unfold Adjacent; simp only; omega)
        hchn.1 hchn.2.1).2
      simp only at this
      rw [hv] at this
      exact absurd this (by decide)
    · exact h1
  have hmc : IsCorridorPos (mx, my) := by
    unfold IsCorridorPos IsNode at *
    simp only at hcn ⊢
    omega
  -- the new arrays
  have hwf1 : WellFormed (g.setVisited chx chy true) := setVisited_wf g chx chy true hwf
  obtain ⟨hwf2, hw2, hh2, hvis2, hcell2⟩ :=
    removeWall_spec (g.setVisited chx chy true) cx cy chx chy hwf1 hcr hr
  rw [← hmx, ← hmy] at hcell2
  obtain ⟨g2, hg2⟩ : ∃ g2, g2 = (g.setVisited chx chy true).removeWall cx cy chx chy := ⟨_, rfl⟩
  rw [← hg2] at hwf2 hw2 hh2 hvis2 hcell2 ⊢
  clear hmx hmy
  have hg2w : g2.width = w := by rw [hw2]; exact hgw
  have hg2h : g2.height = h := by rw [hh2]; exact hgh
  have hrange2 : ∀ x y, InRange g2 x y ↔ InRange g x y := by
    intro x y
    unfold InRange
    rw [hg2w, hg2h, hgw, hgh]
  have hvisat : ∀ x y, 0 ≤ x → 0 ≤ y →
      g2.visitedAt x y = if x = chx ∧ y = chy then true else g.visitedAt x y := by
    intro x y hx hy
    rw [hvis2, visitedAt_setVisited g chx chy x y true hwf hr hx hy]
  have hcellat : ∀ x y, InRange g x y →
      (g2.cellAt x y = ' ' ↔ ((x = mx ∧ y = my) ∨ (x = chx ∧ y = chy) ∨ g.cellAt x y = ' ')) := by
    intro x y hxy
    rw [hcell2 x y hxy.1 hxy.2.2.1, cellAt_setVisited]
    by_cases hc : (x = mx ∧ y = my) ∨ (x = chx ∧ y = chy) ∨ (x = cx ∧ y = cy)
    · rw [if_pos hc]
      simp only [true_iff]
      rcases hc with hc | hc | hc
      · exact Or.inl hc
      · exact Or.inr (Or.inl hc)
      · rw [hc.1, hc.2]
        exact Or.inr (Or.inr hcopen)
    · rw [if_neg hc]
      constructor
      · exact fun h1 => Or.inr (Or.inr h1)
      · rintro (h1 | h1 | h1)
        · exact absurd (Or.inl h1) hc
        · exact absurd (Or.inr (Or.inl h1)) hc
        · exact h1
  have hmarks2 : ∀ x y, InRange g2 x y → g2.cellAt x y = ' ' ∨ g2.cellAt x y = '#' := by
    intro x y hxy
    rw [hrange2] at hxy
    rw [hcell2 x y hxy.1 hxy.2.2.1, cellAt_setVisited]
    split
    · exact Or.inl rfl
    · exact hmarks x y hxy
  have hvmono : ∀ x y, 0 ≤ x → 0 ≤ y → g.visitedAt x y = true → g2.visitedAt x y = true := by
    intro x y hx hy hxy
    rw [hvisat x y hx hy]
    split
    · rfl
    · exact hxy
  have hnode_nonneg : ∀ d : Coord, IsNode w h d → 0 ≤ d.1 ∧ 0 ≤ d.2 := by
    intro d hd
    unfold IsNode at hd
    omega
  -- counting
  have hmemR : ∀ c : Coord, c ∈ Finset.Ico 0 g.width ×ˢ Finset.Ico 0 g.height ↔
      InRange g c.1 c.2 := fun c => mem_rect _ _ c
  have hcountV : visitedCount g2 = visitedCount g + 1 := by
    unfold visitedCount
    rw [hw2, hh2]
    show ((Finset.Ico 0 g.width ×ˢ Finset.Ico 0 g.height).filter
      fun c : Coord => g2.visitedAt c.1 c.2 = true).card = _
    refine card_filter_add_one _ _ _ (chx, chy) ((hmemR _).2 hr) (by simp [hv]) ?_
    intro c hc
    have hcr' := (hmemR c).1 hc
    rw [hvisat c.1 c.2 hcr'.1 hcr'.2.2.1]
    obtain ⟨c1, c2⟩ := c
    simp only [Prod.mk.injEq]
    by_cases hcc : c1 = chx ∧ c2 = chy
    · simp [hcc]
    · simp [hcc]
  have hne_mc : ((mx, my) : Coord) ≠ (chx, chy) := by
    intro e
    simp only [Prod.mk.injEq] at e
    omega
  have hcountO : openCount g2 = openCount g + 2 := by
    unfold openCount
    rw [hw2, hh2]
    show ((Finset.Ico 0 g.width ×ˢ Finset.Ico 0 g.height).filter
      fun c : Coord => g2.cellAt c.1 c.2 ≠ '#').card = _
    refine card_filter_add_two _ _ _ (mx, my) (chx, chy) ((hmemR _).2 hmr) ((hmemR _).2 hr)
      hne_mc (by simp [hmclosed]) (by simp [hchclosed]) ?_
    intro c hc
    have hcr' := (hmemR c).1 hc
    obtain ⟨c1, c2⟩ := c
    simp only [Prod.mk.injEq] at hcr' ⊢
    have e1 : g2.cellAt c1 c2 ≠ '#' ↔ g2.cellAt c1 c2 = ' ' := by
      rcases hmarks2 c1 c2 ((hrange2 _ _).2 hcr') with h1 | h1
      · simp [h1]
      · simp [h1]
    have e2 : g.cellAt c1 c2 ≠ '#' ↔ g.cellAt c1 c2 = ' ' := by
      rcases hmarks c1 c2 hcr' with h1 | h1
      · simp [h1]
      · simp [h1]
    rw [e1, e2, hcellat c1 c2 hcr']
    constructor
    · rintro (h1 | h1 | h1)
      · exact Or.inr (Or.inl h1)
      · exact Or.inr (Or.inr h1)
      · exact Or.inl h1
    · rintro (h1 | h1 | h1)
      · exact Or.inr (Or.inr h1)
      · exact Or.inl h1
      · exact Or.inr (Or.inl h1)
  have hcountC : corridorCount g2 = corridorCount g + 1 := by
    unfold corridorCount
    rw [hw2, hh2]
    show ((Finset.Ico 0 g.width ×ˢ Finset.Ico 0 g.height).filter
      fun c : Coord => g2.cellAt c.1 c.2 ≠ '#' ∧ IsCorridorPos c).card = _
    refine card_filter_add_one _ _ _ (mx, my) ((hmemR _).2 hmr) (by simp [hmclosed]) ?_
    intro c hc
    have hcr' := (hmemR c).1 hc
    obtain ⟨c1, c2⟩ := c
    simp only [Prod.mk.injEq] at hcr' ⊢
    have e1 : g2.cellAt c1 c2 ≠ '#' ↔ g2.cellAt c1 c2 = ' ' := by
      rcases hmarks2 c1 c2 ((hrange2 _ _).2 hcr') with h1 | h1
      · simp [h1]
      · simp [h1]
    have e2 : g.cellAt c1 c2 ≠ '#' ↔ g.cellAt c1 c2 = ' ' := by
      rcases hmarks c1 c2 hcr' with h1 | h1
      · simp [h1]
      · simp [h1]
    rw [e1, e2, hcellat c1 c2 hcr']
    constructor
    · rintro ⟨h1 | h1 | h1, h2⟩
      · exact Or.inr h1
      · exfalso
        rw [h1.1, h1.2] at h2
        unfold IsCorridorPos IsNode at *
        simp only at h2 hchn
        omega
      · exact Or.inl ⟨h1, h2⟩
    · rintro (⟨h1, h2⟩ | h1)
      · exact ⟨Or.inr (Or.inr h1), h2⟩
      · refine ⟨Or.inl h1, ?_⟩
        rw [h1.1, h1.2]
        exact hmc
  -- the tree grows by the midpoint, then by the chosen node
  have hpc := isPathCell_iff_of_marks g hmarks
  have hpc2 := isPathCell_iff_of_marks g2 hmarks2
  have hnm : ¬ IsPathCell g (mx, my) := by
    rw [hpc]
    simp only
    rw [hmclosed]
    rintro ⟨-, h1⟩
    exact absurd h1 (by decide)
  have hnch : ¬ IsPathCell g (chx, chy) := by
    rw [hpc]
    simp only
    rw [hchclosed]
    rintro ⟨-, h1⟩
    exact absurd h1 (by decide)
  have hcur_ok : IsPathCell g (cx, cy) := (hpc _).2 ⟨hcr, hcopen⟩
  have hadj_cm : Adjacent (cx, cy) (mx, my) := by
    unfold Adjacent
    simp only
    omega
  have hadj_mch : Adjacent (mx, my) (chx, chy) := by
    unfold Adjacent
    simp only
    omega
  have huniq1 : ∀ c, IsPathCell g c → Adjacent c (mx, my) → c = (cx, cy) := by
    intro c hc hcm
    obtain ⟨c1, c2⟩ := c
    rw [hpc] at hc
    simp only at hc
    have h1 := hnoeven c1 c2 hc.1 hc.2
    have h2 : ¬ (c1 = chx ∧ c2 = chy) := by
      rintro ⟨e1, e2⟩
      rw [e1, e2, hchclosed] at hc
      exact absurd hc.2 (by decide)
    rcases mid_neighbour_cases cx cy chx chy mx my c1 c2 hcn.1 hcn.2.1 hmid hcm with h3 | h3 | h3
    · exact Prod.ext h3.1 h3.2
    · exact absurd h3 h2
    · exact absurd h3 h1
  obtain ⟨ok1, hok1⟩ : ∃ ok1 : Coord → Prop, ∀ c, ok1 c ↔ IsPathCell g c ∨ c = (mx, my) :=
    ⟨fun c => IsPathCell g c ∨ c = (mx, my), fun c => Iff.rfl⟩
  have htree1 : TreeLike ok1 := TreeLike.pendant htree hnm hcur_ok hadj_cm huniq1 hok1
  have hnch1 : ¬ ok1 (chx, chy) := by
    rw [hok1]
    rintro (h1 | h1)
    · exact hnch h1
    · exact hne_mc h1.symm
  have huniq2 : ∀ c, ok1 c → Adjacent c (chx, chy) → c = (mx, my) := by
    intro c hc hcc
    rcases (hok1 c).1 hc with h1 | h1
    · exfalso
      rw [hpc] at h1
      have := (hends c.1 c.2 h1.1 h1.2 (chx, chy) hcc hchn.1 hchn.2.1).2
      simp only at this
      rw [hv] at this
      exact absurd this (by decide)
    · exact h1
  have hok2 : ∀ c, IsPathCell g2 c ↔ ok1 c ∨ c = (chx, chy) := by
    intro c
    obtain ⟨c1, c2⟩ := c
    rw [hok1, hpc, hpc2]
    simp only [Prod.mk.injEq]
    rw [hrange2]
    constructor
    · rintro ⟨h1, h2⟩
      rcases (hcellat c1 c2 h1).1 h2 with h3 | h3 | h3
      · exact Or.inl (Or.inr h3)
      · exact Or.inr h3
      · exact Or.inl (Or.inl ⟨h1, h3⟩)
    · rintro ((⟨h1, h2⟩ | h1) | h1)
      · exact ⟨h1, (hcellat c1 c2 h1).2 (Or.inr (Or.inr h2))⟩
      · rw [h1.1, h1.2]
        exact ⟨hmr, (hcellat mx my hmr).2 (Or.inl ⟨rfl, rfl⟩)⟩
      · rw [h1.1, h1.2]
        exact ⟨hr, (hcellat chx chy hr).2 (Or.inr (Or.inl ⟨rfl, rfl⟩))⟩
  have htree2 : TreeLike (IsPathCell g2) :=
    TreeLike.pendant htree1 hnch1 ((hok1 _).2 (Or.inr rfl)) hadj_mch huniq2 hok2
  refine ⟨?_, hcountV⟩
  refine
    { wf := hwf2
      width_eq := hg2w
      height_eq := hg2h
      marks := hmarks2
      vis_node := ?_
      node_open := ?_
      no_even := ?_
      ends := ?_
      stack_vis := ?_
      origin := hvmono 1 1 (by decide) (by decide) horigin
      finished := ?_
      tree := htree2
      draws_eq := ?_
      corridors_eq := ?_
      open_eq := ?_ }
  · intro x y hxy hvxy
    simp only at hxy hvxy
    rw [hrange2] at hxy
    rw [hvisat x y hxy.1 hxy.2.2.1] at hvxy
    by_cases hc : x = chx ∧ y = chy
    · rw [hc.1, hc.2]
      exact hchn
    · rw [if_neg hc] at hvxy
      exact hvisnode x y hxy hvxy
  · intro x y hn
    simp only
    have hnn := hnode_nonneg _ hn
    have hxyr : InRange g x y := by
      rw [hrange]
      unfold IsNode at hn
      simp only at hn
      omega
    rw [hvisat x y hnn.1 hnn.2, hcellat x y hxyr]
    by_cases hc : x = chx ∧ y = chy
    · rw [if_pos hc]
      simp [hc]
    · rw [if_neg hc, hnodeopen x y hn]
      constructor
      · exact fun h1 => Or.inr (Or.inr h1)
      · rintro (h1 | h1 | h1)
        · exfalso
          unfold IsNode IsCorridorPos at *
          simp only at hn hmc
          omega
        · exact absurd h1 hc
        · exact h1
  · intro x y hxy hcxy
    simp only at hxy hcxy
    rw [hrange2] at hxy
    rcases (hcellat x y hxy).1 hcxy with h1 | h1 | h1
    · unfold IsCorridorPos at hmc
      simp only at hmc
      omega
    · unfold IsNode at hchn
      simp only at hchn
      omega
    · exact hnoeven x y hxy h1
  · intro x y hxy hcxy d hd hd1 hd2
    simp only at hxy hcxy ⊢
    rw [hrange2] at hxy
    rcases (hcellat x y hxy).1 hcxy with h1 | h1 | h1
    · have hdc : d = (cx, cy) ∨ d = (chx, chy) := by
        obtain ⟨d1, d2⟩ := d
        have hd' : Adjacent (d1, d2) (mx, my) := by
          rw [h1.1, h1.2] at hd
          exact hd.symm
        simp only at hd1 hd2
        rcases mid_neighbour_cases cx cy chx chy mx my d1 d2 hcn.1 hcn.2.1 hmid hd'
          with h3 | h3 | h3
        · exact Or.inl (Prod.ext h3.1 h3.2)
        · exact Or.inr (Prod.ext h3.1 h3.2)
        · omega
      rcases hdc with rfl | rfl
      · exact ⟨hcn, hvmono cx cy hcr.1 hcr.2.2.1 hcv⟩
      · refine ⟨hchn, ?_⟩
        rw [hvisat chx chy hr.1 hr.2.2.1, if_pos ⟨rfl, rfl⟩]
    · exfalso
      unfold Adjacent at hd
      unfold IsNode at hchn
      simp only at hd hchn
      omega
    · obtain ⟨k1, k2⟩ := hends x y hxy h1 d hd hd1 hd2
      have hnn := hnode_nonneg _ k1
      exact ⟨k1, hvmono d.1 d.2 hnn.1 hnn.2 k2⟩
  · intro c hc
    simp only at hc ⊢
    rcases List.mem_cons.1 hc with rfl | hc
    · refine ⟨hchn, ?_⟩
      rw [hvisat chx chy hr.1 hr.2.2.1, if_pos ⟨rfl, rfl⟩]
    · obtain ⟨k1, k2⟩ := hI.stack_vis c hc
      have hnn := hnode_nonneg _ k1
      exact ⟨k1, hvmono c.1 c.2 hnn.1 hnn.2 k2⟩
  · intro c hcn' hcv' hcs d hdn hcd
    simp only at hcv' hcs ⊢
    have hnn := hnode_nonneg _ hcn'
    have hdnn := hnode_nonneg _ hdn
    have hcne : c ≠ (chx, chy) := fun e => hcs (e ▸ List.mem_cons_self _ _)
    rw [hvisat c.1 c.2 hnn.1 hnn.2, if_neg (fun e => hcne (Prod.ext e.1 e.2))] at hcv'
    have hcs' : c ∉ (cx, cy) :: rest := fun hm => hcs (List.mem_cons_of_mem _ hm)
    have := hI.finished c hcn' hcv' hcs' d hdn hcd
    exact hvmono d.1 d.2 hdnn.1 hdnn.2 this
  · simp only
    rw [hcountV]
    have := hI.draws_eq
    simp only at this
    omega
  · simp only
    rw [hcountV, hcountC]
    have := hI.corridors_eq
    simp only at this
    omega
  · simp only
    rw [hcountV, hcountO]
    have := hI.open_eq
    simp only at this
    omega

/-- The backtracking branch of the loop body keeps the invariant. -/
theorem carve_pop (w h : Int) (s : CarveState) (current : Cell) (rest : List Cell)
    (hI : CarveInv w h s) (hs : s.cellStack = current :: rest)
    (hempty : s.grid.getUnvisitedNeighbors current.1 current.2 = []) :
    CarveInv w h { s with cellStack := rest } := by
  refine
    { wf := hI.wf
      width_eq := hI.width_eq
      height_eq := hI.height_eq
      marks := hI.marks
      vis_node := hI.vis_node
      node_open := hI.node_open
      no_even := hI.no_even
      ends := hI.ends
      stack_vis := fun c hc => hI.stack_vis c (by rw [hs]; exact List.mem_cons_of_mem _ hc)
      origin := hI.origin
      finished := ?_
      tree := hI.tree
      draws_eq := hI.draws_eq
      corridors_eq := hI.corridors_eq
      open_eq := hI.open_eq }
  intro c hcn hcv hcs d hdn hcd
  simp only at hcv hcs ⊢
  by_cases hcc : c = current
  · subst hcc
    cases hdv : s.grid.visitedAt d.1 d.2 with
    | true => rfl
    | false =>
      exfalso
      have hdr : InRange s.grid d.1 d.2 := by
        unfold InRange
        rw [hI.width_eq, hI.height_eq]
        unfold IsNode at hdn
        omega
      have : d ∈ s.grid.getUnvisitedNeighbors c.1 c.2 :=
        (mem_getUnvisitedNeighbors s.grid c.1 c.2 d).2 ⟨hcd, hdr, hdv⟩
      rw [hempty] at this
      simp at this
  · refine hI.finished c hcn hcv ?_ d hdn hcd
    rw [hs]
    intro hm
    rcases List.mem_cons.1 hm with h1 | h1
    · exact hcc h1
    · exact hcs h1

/-- The carving nodes of a `w × h` grid number `((w-1)/2) * ((h-1)/2)`. -/
theorem card_nodes (w h : Int) :
    ((Finset.Ico 0 w ×ˢ Finset.Ico 0 h).filter fun c : Coord =>
      c.1 % 2 = 1 ∧ c.2 % 2 = 1 ∧ 1 ≤ c.1 ∧ c.1 ≤ w - 2 ∧ 1 ≤ c.2 ∧ c.2 ≤ h - 2).card =
      nodeCount w h := by
  have heq : ((Finset.Ico 0 w ×ˢ Finset.Ico 0 h).filter fun c : Coord =>
      c.1 % 2 = 1 ∧ c.2 % 2 = 1 ∧ 1 ≤ c.1 ∧ c.1 ≤ w - 2 ∧ 1 ≤ c.2 ∧ c.2 ≤ h - 2) =
      (Finset.range ((w - 1) / 2).toNat ×ˢ Finset.range ((h - 1) / 2).toNat).image
        (fun p : Nat × Nat => ((2 * (p.1 : Int) + 1, 2 * (p.2 : Int) + 1) : Coord)) := by
    ext c
    obtain ⟨c1, c2⟩ := c
    simp only [Finset.mem_filter, Finset.mem_image, Finset.mem_product, Finset.mem_Ico,
      Finset.mem_range, Prod.mk.injEq, Prod.exists]
    constructor
    · rintro ⟨-, h1, h2, h3, h4, h5, h6⟩
      exact ⟨((c1 - 1) / 2).toNat, ((c2 - 1) / 2).toNat, ⟨by omega, by omega⟩, by omega, by omega⟩
    · rintro ⟨a, b, ⟨ha, hb⟩, rfl, rfl⟩
      omega
  rw [heq, Finset.card_image_of_injective, Finset.card_product, Finset.card_range,
    Finset.card_range]
  · rfl
  · intro p q hpq
    simp only [Prod.mk.injEq] at hpq
    exact Prod.ext (by omega) (by omega)

/-- No more cells are explored than there are carving nodes. -/
theorem visitedCount_le_nodes (w h : Int) (s : CarveState) (hI : CarveInv w h s) :
    visitedCount s.grid ≤ nodeCount w h := by
  rw [← card_nodes w h]
  unfold visitedCount
  rw [hI.width_eq, hI.height_eq]
  apply Finset.card_le_card
  intro c hc
  rw [Finset.mem_filter] at hc ⊢
  refine ⟨hc.1, ?_⟩
  have hr : InRange s.grid c.1 c.2 := by
    unfold InRange
    rw [hI.width_eq, hI.height_eq]
    exact (mem_rect w h c).1 hc.1
  exact hI.vis_node c.1 c.2 hr hc.2

/-- When the stack is empty every carving node is explored. -/
theorem all_nodes_visited (w h : Int) (s : CarveState) (hI : CarveInv w h s)
    (hs : s.cellStack = []) :
    ∀ c, IsNode w h c → s.grid.visitedAt c.1 c.2 = true := by
  have key : ∀ (n : Nat) (x y : Int), IsNode w h (x, y) → x + y ≤ (n : Int) →
      s.grid.visitedAt x y = true := by
    intro n
    induction n with
    | zero =>
      intro x y hn hle
      unfold IsNode at hn
      simp only at hn
      omega
    | succ n ih =>
      intro x y hn hle
      by_cases hx : 1 < x
      · have hp : IsNode w h (x - 2, y) := by
          unfold IsNode at hn ⊢
          simp only at hn ⊢
          omega
        have hv := ih (x - 2) y hp (by omega)
        exact hI.finished (x - 2, y) hp hv (by rw [hs]; simp) (x, y) hn
          (Or.inr ⟨rfl, Or.inr (by show x = x - 2 + 2; omega)⟩)
      · by_cases hy : 1 < y
        · have hp : IsNode w h (x, y - 2) := by
            unfold IsNode at hn ⊢
            simp only at hn ⊢
            omega
          have hv := ih x (y - 2) hp (by omega)
          exact hI.finished (x, y - 2) hp hv (by rw [hs]; simp) (x, y) hn
            (Or.inl ⟨rfl, Or.inr (by show y = y - 2 + 2; omega)⟩)
        · have hx1 : x = 1 := by
            unfold IsNode at hn
            simp only at hn
            omega
          have hy1 : y = 1 := by
            unfold IsNode at hn
            simp only at hn
            omega
          rw [hx1, hy1]
          exact hI.origin
  intro c hc
  exact key (c.1 + c.2).toNat c.1 c.2 hc (by omega)

/-- When the stack is empty the explored cells are exactly the carving nodes. -/
theorem visitedCount_eq_nodes (w h : Int) (s : CarveState) (hI : CarveInv w h s)
    (hs : s.cellStack = []) : visitedCount s.grid = nodeCount w h := by
  rw [← card_nodes w h]
  unfold visitedCount
  rw [hI.width_eq, hI.height_eq]
  apply card_filter_same
  intro c hc
  have hr : InRange s.grid c.1 c.2 := by
    unfold InRange
    rw [hI.width_eq, hI.height_eq]
    exact (mem_rect w h c).1 hc
  constructor
  · exact fun hv => hI.vis_node c.1 c.2 hr hv
  · exact fun hn => all_nodes_visited w h s hI hs c hn

end MazeRunner


/-! ## The whole of `generateMaze` -/

namespace MazeRunner

open MazeGenerator

/-- The state in which the carving loop is entered satisfies the invariant. -/
theorem carveInit_inv (m : MazeGenerator) (hwf : WellFormed m) (h3w : 3 ≤ m.width)
    (h3h : 3 ≤ m.height) : CarveInv m.width m.height (carveInit m) := by
  obtain ⟨cwf, cw, ch, ccells⟩ := clearCells_spec m hwf
  obtain ⟨g0, hg0⟩ : ∃ g0, g0 = ((m.clearCells).setVisited 1 1 true).setCell 1 1 ' ' := ⟨_, rfl⟩
  have hr11 : InRange m.clearCells 1 1 := by
    unfold InRange
    rw [cw, ch]
    omega
  have hwf1 := setVisited_wf m.clearCells 1 1 true cwf
  have hwf0 : WellFormed g0 := by rw [hg0]; exact setCell_wf _ 1 1 ' ' hwf1
  have hw0 : g0.width = m.width := by rw [hg0]; exact cw
  have hh0 : g0.height = m.height := by rw [hg0]; exact ch
  have hrange : ∀ x y, InRange g0 x y ↔ InRange m x y := by
    intro x y
    unfold InRange
    rw [hw0, hh0]
  have hcell : ∀ x y, InRange m x y → g0.cellAt x y = if x = 1 ∧ y = 1 then ' ' else '#' := by
    intro x y hxy
    rw [hg0, cellAt_setCell _ 1 1 x y ' ' hwf1 hr11 hxy.1 hxy.2.2.1, cellAt_setVisited,
      (ccells x y hxy).1]
  have hvis : ∀ x y, InRange m x y →
      g0.visitedAt x y = if x = 1 ∧ y = 1 then true else false := by
    intro x y hxy
    rw [hg0, visitedAt_setCell, visitedAt_setVisited _ 1 1 x y true cwf hr11 hxy.1 hxy.2.2.1,
      (ccells x y hxy).2]
  have hnode11 : IsNode m.width m.height (1, 1) := by
    unfold IsNode
    simp only
    omega
  have hm11 : InRange m 1 1 := by
    unfold InRange
    omega
  have hnode_range : ∀ c : Coord, IsNode m.width m.height c → InRange m c.1 c.2 := by
    intro c hc
    unfold IsNode at hc
    unfold InRange
    omega
  have hv11 : g0.visitedAt 1 1 = true := by rw [hvis 1 1 hm11]; simp
  have hc11 : g0.cellAt 1 1 = ' ' := by rw [hcell 1 1 hm11]; simp
  have hvis_iff : ∀ x y, InRange m x y → (g0.visitedAt x y = true ↔ (x = 1 ∧ y = 1)) := by
    intro x y hxy
    rw [hvis x y hxy]
    by_cases hc : x = 1 ∧ y = 1
    · simp [hc]
    · simp [hc]
  have hcell_iff : ∀ x y, InRange m x y → (g0.cellAt x y = ' ' ↔ (x = 1 ∧ y = 1)) := by
    intro x y hxy
    rw [hcell x y hxy]
    by_cases hc : x = 1 ∧ y = 1
    · simp [hc]
    · rw [if_neg hc]
      simp only [hc, iff_false]
      decide
  have hmarks : ∀ x y, InRange g0 x y → g0.cellAt x y = ' ' ∨ g0.cellAt x y = '#' := by
    intro x y hxy
    rw [hrange] at hxy
    rw [hcell x y hxy]
    split
    · exact Or.inl rfl
    · exact Or.inr rfl
  have hmemR : ∀ c : Coord, c ∈ Finset.Ico 0 g0.width ×ˢ Finset.Ico 0 g0.height ↔
      InRange m c.1 c.2 := by
    intro c
    rw [mem_rect, hw0, hh0]
    rfl
  have hcountV : visitedCount g0 = 1 := by
    unfold visitedCount
    refine card_filter_single _ _ (1, 1) ((hmemR _).2 hm11) ?_
    intro c hc
    obtain ⟨c1, c2⟩ := c
    simp only [Prod.mk.injEq]
    exact hvis_iff c1 c2 ((hmemR _).1 hc)
  have hcountO : openCount g0 = 1 := by
    unfold openCount
    refine card_filter_single _ _ (1, 1) ((hmemR _).2 hm11) ?_
    intro c hc
    obtain ⟨c1, c2⟩ := c
    have hcr := (hmemR _).1 hc
    simp only [Prod.mk.injEq] at hcr ⊢
    rw [← hcell_iff c1 c2 hcr]
    rcases hmarks c1 c2 ((hrange _ _).2 hcr) with h1 | h1
    · simp [h1]
    · simp [h1]
  have hcountC : corridorCount g0 = 0 := by
    unfold corridorCount
    refine card_filter_none _ _ ?_
    intro c hc
    obtain ⟨c1, c2⟩ := c
    have hcr := (hmemR _).1 hc
    simp only at hcr ⊢
    rintro ⟨h1, h2⟩
    have h3 : g0.cellAt c1 c2 = ' ' := by
      rcases hmarks c1 c2 ((hrange _ _).2 hcr) with h4 | h4
      · exact h4
      · exact absurd h4 h1
    have h5 := (hcell_iff c1 c2 hcr).1 h3
    unfold IsCorridorPos at h2
    simp only at h2
    omega
  have hinit : carveInit m = { cellStack := [(1, 1)], grid := g0, draws := 0 } := by
    rw [hg0]
    rfl
  rw [hinit]
  refine
    { wf := hwf0
      width_eq := hw0
      height_eq := hh0
      marks := hmarks
      vis_node := ?_
      node_open := ?_
      no_even := ?_
      ends := ?_
      stack_vis := ?_
      origin := hv11
      finished := ?_
      tree := ?_
      draws_eq := by simp only; rw [hcountV]
      corridors_eq := by simp only; rw [hcountV, hcountC]
      open_eq := by simp only; rw [hcountV, hcountO] }
  · intro x y hxy hv
    simp only at hxy hv
    rw [hrange] at hxy
    obtain ⟨e1, e2⟩ := (hvis_iff x y hxy).1 hv
    rw [e1, e2]
    exact hnode11
  · intro x y hn
    simp only
    have hxy := hnode_range _ hn
    rw [hvis_iff x y hxy, hcell_iff x y hxy]
  · intro x y hxy hc
    simp only at hxy hc
    rw [hrange] at hxy
    have := (hcell_iff x y hxy).1 hc
    omega
  · intro x y hxy hc d hd hd1 hd2
    simp only at hxy hc
    rw [hrange] at hxy
    have := (hcell_iff x y hxy).1 hc
    exfalso
    unfold Adjacent at hd
    simp only at hd
    omega
  · intro c hc
    simp only [List.mem_singleton] at hc
    subst hc
    exact ⟨hnode11, hv11⟩
  · intro c hcn hcv hcs
    exfalso
    simp only [List.mem_singleton] at hcs hcv
    have hxy := hnode_range _ hcn
    obtain ⟨e1, e2⟩ := (hvis_iff c.1 c.2 hxy).1 hcv
    exact hcs (Prod.ext e1 e2)
  · refine TreeLike.singleton (1, 1) ?_
    intro c
    obtain ⟨c1, c2⟩ := c
    rw [isPathCell_iff_of_marks g0 hmarks]
    simp only [Prod.mk.injEq]
    constructor
    · rintro ⟨h1, h2⟩
      rw [hrange] at h1
      exact (hcell_iff c1 c2 h1).1 h2
    · rintro ⟨e1, e2⟩
      rw [e1, e2]
      exact ⟨(hrange _ _).2 hm11, hc11⟩

/-- Specification of the carving phase: on a well-formed grid of odd
dimensions at least 3 and for every sequence of draws, the loop ends within
`2 * nodeCount` iterations, with an empty stack and the invariant in force. -/
theorem carveMaze_spec (m : MazeGenerator) (hwf : WellFormed m) (hw : m.width % 2 = 1)
    (hh : m.height % 2 = 1) (h3w : 3 ≤ m.width) (h3h : 3 ≤ m.height) (fuel : Nat)
    (rand : Nat → Nat) (hfuel : 2 * nodeCount m.width m.height ≤ fuel) :
    ∃ s, carveMaze fuel rand m = some s ∧ CarveInv m.width m.height s ∧ s.cellStack = [] := by
  have hinit := carveInit_inv m hwf h3w h3h
  have hV0 := visitedCount_le_nodes _ _ _ hinit
  have hd0 := hinit.draws_eq
  refine runLoop_spec (carveStep rand) (CarveInv m.width m.height)
    (carveMeasure m.width m.height) (fun s => CarveInv m.width m.height s ∧ s.cellStack = [])
    ?_ ?_ fuel (carveInit m) hinit ?_
  · intro s r hI hstep
    unfold carveStep at hstep
    cases hs : s.cellStack with
    | nil =>
      rw [hs] at hstep
      simp only [Sum.inl.injEq] at hstep
      subst hstep
      exact ⟨hI, hs⟩
    | cons current rest =>
      rw [hs] at hstep
      simp only at hstep
      split at hstep <;> simp at hstep
  · intro s s' hI hstep
    unfold carveStep at hstep
    cases hs : s.cellStack with
    | nil =>
      rw [hs] at hstep
      simp at hstep
    | cons current rest =>
      rw [hs] at hstep
      simp only at hstep
      by_cases hne : (s.grid.getUnvisitedNeighbors current.1 current.2).isEmpty = true
      · rw [if_pos hne] at hstep
        simp only [Sum.inr.injEq] at hstep
        subst hstep
        refine ⟨carve_pop _ _ s current rest hI hs (List.isEmpty_iff.1 hne), ?_⟩
        simp only [carveMeasure, hs, List.length_cons]
        omega
      · rw [if_neg hne] at hstep
        simp only [Sum.inr.injEq] at hstep
        subst hstep
        have hnil : s.grid.getUnvisitedNeighbors current.1 current.2 ≠ [] := by
          intro e
          rw [e] at hne
          simp at hne
        have hmem := getD_mod_mem (s.grid.getUnvisitedNeighbors current.1 current.2)
          (rand s.draws) (0, 0) hnil
        generalize (s.grid.getUnvisitedNeighbors current.1 current.2).getD
          (rand s.draws % (s.grid.getUnvisitedNeighbors current.1 current.2).length) (0, 0) =
          chosen at hmem
        obtain ⟨hadj, hr, hv⟩ := (mem_getUnvisitedNeighbors _ _ _ _).1 hmem
        obtain ⟨stack, g, draws⟩ := s
        simp only at hs hadj hr hv hI ⊢
        subst hs
        obtain ⟨hI', hcount⟩ := carve_push m.width m.height hw hh g draws current.1 current.2
          chosen.1 chosen.2 rest hI hadj hr hv
        refine ⟨hI', ?_⟩
        have hle := visitedCount_le_nodes _ _ _ hI'
        simp only at hle
        simp only [carveMeasure, List.length_cons]
        omega
  · simp only [carveMeasure]
    have : (carveInit m).cellStack.length = 1 := rfl
    omega

/-- Specification of `generateMaze`: it returns, and the grid it returns is the
carved grid with Start written at (1,1) and Exit at (width-2, height-2), the
latter only when that is another cell. -/
theorem generateMaze_spec (m : MazeGenerator) (hwf : WellFormed m) (hw : m.width % 2 = 1)
    (hh : m.height % 2 = 1) (h3w : 3 ≤ m.width) (h3h : 3 ≤ m.height) (fuel : Nat)
    (rand : Nat → Nat) (hfuel : 2 * nodeCount m.width m.height ≤ fuel) :
    ∃ s m', carveMaze fuel rand m = some s ∧ generateMaze fuel rand m = some m' ∧
      CarveInv m.width m.height s ∧ s.cellStack = [] ∧
      WellFormed m' ∧ m'.width = m.width ∧ m'.height = m.height ∧
      ∀ x y, InRange m x y →
        m'.cellAt x y =
          if x = 1 ∧ y = 1 then 'S'
          else if x = m.width - 2 ∧ y = m.height - 2 then 'E' else s.grid.cellAt x y := by
  obtain ⟨s, hs, hI, hstack⟩ := carveMaze_spec m hwf hw hh h3w h3h fuel rand hfuel
  have hnode11 : IsNode m.width m.height (1, 1) := by
    unfold IsNode
    simp only
    omega
  have hnodeE : IsNode m.width m.height (m.width - 2, m.height - 2) := by
    unfold IsNode
    simp only
    omega
  have hr11 : InRange s.grid 1 1 := by
    unfold InRange
    rw [hI.width_eq, hI.height_eq]
    omega
  have hrE : InRange s.grid (m.width - 2) (m.height - 2) := by
    unfold InRange
    rw [hI.width_eq, hI.height_eq]
    omega
  have hc11 : s.grid.cellAt 1 1 = ' ' := (hI.node_open 1 1 hnode11).1 hI.origin
  have hcE : s.grid.cellAt (m.width - 2) (m.height - 2) = ' ' :=
    (hI.node_open _ _ hnodeE).1 (all_nodes_visited _ _ s hI hstack _ hnodeE)
  have hstart : s.grid.setStartPosition 1 1 = s.grid.setCell 1 1 'S' := by
    unfold setStartPosition
    rw [if_pos]
    rw [Bool.and_eq_true, isValidCell_iff, hc11]
    exact ⟨hr11, by decide⟩
  have hwf1 : WellFormed (s.grid.setCell 1 1 'S') := setCell_wf _ 1 1 'S' hI.wf
  have hcell1 : ∀ x y, 0 ≤ x → 0 ≤ y →
      (s.grid.setCell 1 1 'S').cellAt x y = if x = 1 ∧ y = 1 then 'S' else s.grid.cellAt x y :=
    fun x y hx hy => cellAt_setCell _ 1 1 x y 'S' hI.wf hr11 hx hy
  have hgen : generateMaze fuel rand m =
      some ((s.grid.setCell 1 1 'S').setExitPosition (m.width - 2) (m.height - 2)) := by
    unfold generateMaze
    rw [hs]
    simp only
    rw [hstart, hI.width_eq, hI.height_eq]
  by_cases h33 : m.width - 2 = 1 ∧ m.height - 2 = 1
  · -- the exit corner is the start cell: no Exit marker is written
    have hexit : (s.grid.setCell 1 1 'S').setExitPosition (m.width - 2) (m.height - 2) =
        s.grid.setCell 1 1 'S' := by
      unfold setExitPosition
      rw [if_neg]
      rw [Bool.and_eq_true, hcell1 _ _ hrE.1 hrE.2.2.1, if_pos h33]
      rintro ⟨-, h1⟩
      exact absurd h1 (by decide)
    rw [hexit] at hgen
    refine ⟨s, _, hs, hgen, hI, hstack, hwf1, hI.width_eq, hI.height_eq, ?_⟩
    intro x y hxy
    rw [hcell1 x y hxy.1 hxy.2.2.1]
    by_cases hc : x = 1 ∧ y = 1
    · rw [if_pos hc, if_pos hc]
    · rw [if_neg hc, if_neg hc, if_neg]
      rintro ⟨e1, e2⟩
      exact hc ⟨by omega, by omega⟩
  · have hrE1 : InRange (s.grid.setCell 1 1 'S') (m.width - 2) (m.height - 2) := hrE
    have hexit : (s.grid.setCell 1 1 'S').setExitPosition (m.width - 2) (m.height - 2) =
        (s.grid.setCell 1 1 'S').setCell (m.width - 2) (m.height - 2) 'E' := by
      unfold setExitPosition
      rw [if_pos]
      rw [Bool.and_eq_true, isValidCell_iff, hcell1 _ _ hrE.1 hrE.2.2.1, if_neg h33, hcE]
      exact ⟨hrE1, by decide⟩
    rw [hexit] at hgen
    refine ⟨s, _, hs, hgen, hI, hstack, setCell_wf _ _ _ 'E' hwf1, hI.width_eq, hI.height_eq, ?_⟩
    intro x y hxy
    rw [cellAt_setCell _ _ _ x y 'E' hwf1 hrE1 hxy.1 hxy.2.2.1, hcell1 x y hxy.1 hxy.2.2.1]
    by_cases hc : x = 1 ∧ y = 1
    · rw [if_pos hc, if_pos hc, if_neg]
      rintro ⟨e1, e2⟩
      exact h33 ⟨by omega, by omega⟩
    · rw [if_neg hc, if_neg hc]

/-- Facts about the finished maze that the properties below draw on: the Start
and Exit markers replace Path markers only, so the path cells and the counts of
the carved grid are those of the finished maze. -/
theorem generateMaze_cells (m : MazeGenerator) (hwf : WellFormed m) (hw : m.width % 2 = 1)
    (hh : m.height % 2 = 1) (h3w : 3 ≤ m.width) (h3h : 3 ≤ m.height) (fuel : Nat)
    (rand : Nat → Nat) (hfuel : 2 * nodeCount m.width m.height ≤ fuel) :
    ∃ s m', carveMaze fuel rand m = some s ∧ generateMaze fuel rand m = some m' ∧
      CarveInv m.width m.height s ∧ s.cellStack = [] ∧
      m'.width = m.width ∧ m'.height = m.height ∧
      (∀ x y, InRange m x y →
        m'.cellAt x y =
          if x = 1 ∧ y = 1 then 'S'
          else if x = m.width - 2 ∧ y = m.height - 2 then 'E' else s.grid.cellAt x y) ∧
      (∀ c, IsPathCell m' c ↔ IsPathCell s.grid c) ∧
      openCount m' = openCount s.grid ∧ corridorCount m' = corridorCount s.grid := by
  obtain ⟨s, m', hs, hgen, hI, hstack, -, hw', hh', hcell⟩ :=
    generateMaze_spec m hwf hw hh h3w h3h fuel rand hfuel
  have hnode11 : IsNode m.width m.height (1, 1) := by
    unfold IsNode
    simp only
    omega
  have hnodeE : IsNode m.width m.height (m.width - 2, m.height - 2) := by
    unfold IsNode
    simp only
    omega
  have hc11 : s.grid.cellAt 1 1 = ' ' := (hI.node_open 1 1 hnode11).1 hI.origin
  have hcE : s.grid.cellAt (m.width - 2) (m.height - 2) = ' ' :=
    (hI.node_open _ _ hnodeE).1 (all_nodes_visited _ _ s hI hstack _ hnodeE)
  have hrs : ∀ x y, InRange s.grid x y ↔ InRange m x y := by
    intro x y
    unfold InRange
    rw [hI.width_eq, hI.height_eq]
  have hrm : ∀ x y, InRange m' x y ↔ InRange m x y := by
    intro x y
    unfold InRange
    rw [hw', hh']
  -- a cell is a wall in the finished maze exactly when it is one in the carved grid
  have hwall : ∀ x y, InRange m x y → (m'.cellAt x y ≠ '#' ↔ s.grid.cellAt x y ≠ '#') := by
    intro x y hxy
    rw [hcell x y hxy]
    by_cases h1 : x = 1 ∧ y = 1
    · rw [if_pos h1, h1.1, h1.2, hc11]
      simp
    · rw [if_neg h1]
      by_cases h2 : x = m.width - 2 ∧ y = m.height - 2
      · rw [if_pos h2, h2.1, h2.2, hcE]
        simp
      · rw [if_neg h2]
  have hpath : ∀ c, IsPathCell m' c ↔ IsPathCell s.grid c := by
    intro c
    unfold IsPathCell
    rw [isValidCell_iff, isValidCell_iff, hrs, hrm]
    constructor
    · rintro ⟨hr, hc⟩
      refine ⟨hr, Or.inl ?_⟩
      have h1 : s.grid.cellAt c.1 c.2 ≠ '#' := by
        rw [← hwall c.1 c.2 hr]
        rcases hc with hc | hc | hc <;> rw [hc] <;> decide
      rcases hI.marks c.1 c.2 ((hrs _ _).2 hr) with h2 | h2
      · exact h2
      · exact absurd h2 h1
    · rintro ⟨hr, hc⟩
      refine ⟨hr, ?_⟩
      rw [hcell c.1 c.2 hr]
      by_cases h1 : c.1 = 1 ∧ c.2 = 1
      · rw [if_pos h1]
        exact Or.inr (Or.inl rfl)
      · rw [if_neg h1]
        by_cases h2 : c.1 = m.width - 2 ∧ c.2 = m.height - 2
        · rw [if_pos h2]
          exact Or.inr (Or.inr rfl)
        · rw [if_neg h2]
          rcases hI.marks c.1 c.2 ((hrs _ _).2 hr) with h3 | h3
          · exact Or.inl h3
          · rw [h3] at hc
            rcases hc with hc | hc | hc <;> exact absurd hc (by decide)
  refine ⟨s, m', hs, hgen, hI, hstack, hw', hh', hcell, hpath, ?_, ?_⟩
  · unfold openCount
    rw [hw', hh', hI.width_eq, hI.height_eq]
    apply card_filter_same
    intro c hc
    exact hwall c.1 c.2 ((mem_rect _ _ c).1 hc)
  · unfold corridorCount
    rw [hw', hh', hI.width_eq, hI.height_eq]
    apply card_filter_same
    intro c hc
    rw [hwall c.1 c.2 ((mem_rect _ _ c).1 hc)]

/-- A path cell is traversable. -/
theorem isValidPath_of_isPathCell (m : MazeGenerator) (c : Coord) (h : IsPathCell m c) :
    m.isValidPath c.1 c.2 = true := by
  obtain ⟨h1, h2⟩ := h
  unfold isValidPath
  rw [h1]
  rcases h2 with h2 | h2 | h2 <;> rw [h2] <;> decide

end MazeRunner


/-! ## Properties of the searches -/

namespace MazeRunner

open AIPathfinder

theorem IsRoute.ne_nil {maze : MazeGenerator} {s e : Coord} {p : List Coord}
    (h : IsRoute maze s e p) : p ≠ [] := by
  intro hp
  rw [hp] at h
  simp [IsRoute] at h

/-- On a non-empty path `getPathLength` is the narrowed element count less
one. -/
theorem getPathLength_of_ne_nil {p : List Coord} (h : p ≠ []) :
    getPathLength p = toInt32 (toSizeT ((p.length : Int) - 1)) := by
  cases p with
  | nil => exact absurd rfl h
  | cons a t => simp [getPathLength]

/-- Up to `2^31` elements nothing is lost in the narrowing. -/
theorem getPathLength_of_small {p : List Coord} (h : p ≠ []) (hs : p.length ≤ 2147483648) :
    getPathLength p = (p.length : Int) - 1 := by
  rw [getPathLength_of_ne_nil h]
  have hpos : 0 < p.length := List.length_pos.2 h
  unfold toInt32 toSizeT
  omega

/-- A search result is empty exactly when the goal is unreachable. -/
theorem SearchResult.nil_iff {maze : MazeGenerator} {s e : Coord} {p : List Coord}
    (h : SearchResult maze s e p) : p = [] ↔ ¬ Reachable maze s e := by
  constructor
  · intro hp
    rcases h with h | h
    · exact h.2
    · exact absurd hp h.1.ne_nil
  · intro hr
    rcases h with h | h
    · exact h.1
    · exact absurd ⟨p, h.1⟩ hr

/-- From a start with no traversable neighbour nothing but the start is
reachable. -/
theorem not_reachable_of_isolated (maze : MazeGenerator) (s e : Coord) (hne : s ≠ e)
    (hiso : ∀ c, Adjacent s c → maze.isValidPath c.1 c.2 = false) : ¬ Reachable maze s e := by
  rintro ⟨r, hr⟩
  obtain ⟨t, -, hch, hlast⟩ := hr.cons_chain
  cases t with
  | nil =>
    simp at hlast
    exact hne hlast
  | cons a t =>
    rw [List.chain_cons] at hch
    have := hiso a hch.1.1
    rw [hch.1.2] at this
    exact absurd this (by decide)

/-- No route ends in a cell that is not traversable, unless it never moves. -/
theorem not_reachable_of_invalid_goal (maze : MazeGenerator) (s e : Coord) (hne : s ≠ e)
    (hinv : maze.isValidPath e.1 e.2 = false) : ¬ Reachable maze s e := by
  rintro ⟨r, hr⟩
  have hv := hr.tail_valid
  obtain ⟨t, rfl, -, hlast⟩ := hr.cons_chain
  cases t with
  | nil =>
    simp at hlast
    exact hne hlast
  | cons a t =>
    rw [List.getLast?_cons_cons] at hlast
    have hmem : e ∈ (s :: a :: t).tail := by
      simp only [List.tail_cons]
      exact List.mem_of_mem_getLast? (by rw [hlast]; rfl)
    have := hv e hmem
    rw [hinv] at this
    exact absurd this (by decide)

/-- Claim C3. For every grid, start and end, any non-empty sequence returned by
`findPathBFS` or `findPathDijkstra` is a well-formed path: its first element is
the start, its last element is the end, every two consecutive elements differ
by exactly 1 in exactly one coordinate, every element after the first satisfies
`isValidPath`, and no coordinate occurs twice. Both searches do return. -/
theorem search_paths_wellFormed (maze : MazeGenerator) (startX startY endX endY : Int)
    (fuelB fuelD : Nat) (tie : Nat → Nat)
    (hfuelB : maze.width.toNat * maze.height.toNat + 2 ≤ fuelB)
    (hfuelD : 4 * (maze.width.toNat * maze.height.toNat) + 6 ≤ fuelD) :
    ∃ p q, findPathBFS fuelB startX startY endX endY maze = some p ∧
      findPathDijkstra fuelD tie startX startY endX endY maze = some q ∧
      (p ≠ [] → WellFormedPath maze (startX, startY) (endX, endY) p) ∧
      (q ≠ [] → WellFormedPath maze (startX, startY) (endX, endY) q) := by
  obtain ⟨p, hp, hres⟩ := findPathBFS_spec maze startX startY endX endY fuelB hfuelB
  obtain ⟨q, hq, hresq, -⟩ := findPathDijkstra_spec maze startX startY endX endY fuelD tie hfuelD
  refine ⟨p, q, hp, hq, fun hne => ?_, fun hne => ?_⟩
  · rcases hres with h | h
    · exact absurd h.1 hne
    · exact h.1.wellFormed h.2.1
  · rcases hresq with h | h
    · exact absurd h hne
    · exact h.1.wellFormed h.2

theorem search_paths_wellFormed_witness :
    ∃ p q, findPathBFS 11 1 1 2 1 corridorGrid = some p ∧
      findPathDijkstra 42 (fun n => n) 1 1 2 1 corridorGrid = some q ∧
      (p ≠ [] → WellFormedPath corridorGrid (1, 1) (2, 1) p) ∧
      (q ≠ [] → WellFormedPath corridorGrid (1, 1) (2, 1) q) :=
  search_paths_wellFormed corridorGrid 1 1 2 1 11 42 (fun n => n) (by decide) (by decide)

end MazeRunner


/-! ## Properties of the generated maze -/

namespace MazeRunner

open MazeGenerator AIPathfinder

/-- Claim C5. For every maze produced by `generateMaze` on a (well-formed) grid
of odd width and height both at least 5, and for every sequence `rand` of
random neighbour choices, every cell marked Path, Start or Exit is reachable
from (1,1) by 4-directional unit steps that pass only through cells marked
Path, Start or Exit; the route can be taken free of repetitions. -/
theorem generateMaze_connected (m : MazeGenerator) (hwf : WellFormed m)
    (hw : m.width % 2 = 1) (hh : m.height % 2 = 1) (h5w : 5 ≤ m.width) (h5h : 5 ≤ m.height)
    (fuel : Nat) (rand : Nat → Nat) (hfuel : 2 * nodeCount m.width m.height ≤ fuel) :
    ∃ m', generateMaze fuel rand m = some m' ∧
      ∀ c, IsPathCell m' c →
        ∃ p : List Coord, p.head? = some (1, 1) ∧ p.getLast? = some c ∧ p.Chain' Adjacent ∧
          (∀ d ∈ p, IsPathCell m' d) ∧ p.Nodup := by
  obtain ⟨s, m', -, hgen, hI, -, -, -, -, hpath, -, -⟩ :=
    generateMaze_cells m hwf hw hh (by omega) (by omega) fuel rand hfuel
  refine ⟨m', hgen, fun c hc => ?_⟩
  have htree : TreeLike (IsPathCell m') := hI.tree.congr hpath
  have h11 : IsPathCell m' (1, 1) := by
    rw [hpath]
    refine ⟨?_, Or.inl ?_⟩
    · rw [isValidCell_iff]
      unfold InRange
      rw [hI.width_eq, hI.height_eq]
      simp only
      omega
    · exact (hI.node_open 1 1 (by unfold IsNode; simp only; omega)).1 hI.origin
  exact htree.1 (1, 1) c h11 hc

theorem generateMaze_connected_witness :
    ∃ m', generateMaze 8 (fun n => n) (MazeGenerator.new 5 5) = some m' ∧
      ∀ c, IsPathCell m' c →
        ∃ p : List Coord, p.head? = some (1, 1) ∧ p.getLast? = some c ∧ p.Chain' Adjacent ∧
          (∀ d ∈ p, IsPathCell m' d) ∧ p.Nodup :=
  generateMaze_connected (MazeGenerator.new 5 5) (new_wf 5 5) (by decide) (by decide)
    (by decide) (by decide) 8 (fun n => n) (by decide)

/-- Claim C6. For every maze produced by `generateMaze` (well-formed grid, odd
width and height at least 3, any sequence `rand` of random choices), the
non-wall cells form a perfect maze: between any two non-wall cells there is
exactly one simple 4-connected route through non-wall cells, and the non-wall
cells contain no cycle. -/
theorem generateMaze_perfect (m : MazeGenerator) (hwf : WellFormed m)
    (hw : m.width % 2 = 1) (hh : m.height % 2 = 1) (h3w : 3 ≤ m.width) (h3h : 3 ≤ m.height)
    (fuel : Nat) (rand : Nat → Nat) (hfuel : 2 * nodeCount m.width m.height ≤ fuel) :
    ∃ m', generateMaze fuel rand m = some m' ∧
      (∀ a b, IsPathCell m' a → IsPathCell m' b →
        ∃ p, SimpleRoute (IsPathCell m') a b p ∧
          ∀ q, SimpleRoute (IsPathCell m') a b q → q = p) ∧
      ∀ cyc, ¬ IsCycle (IsPathCell m') cyc := by
  obtain ⟨s, m', -, hgen, hI, -, -, -, -, hpath, -, -⟩ :=
    generateMaze_cells m hwf hw hh h3w h3h fuel rand hfuel
  have htree : TreeLike (IsPathCell m') := hI.tree.congr hpath
  refine ⟨m', hgen, fun a b ha hb => ?_, fun cyc => htree.no_cycle cyc⟩
  obtain ⟨p, hp⟩ := htree.1 a b ha hb
  exact ⟨p, hp, fun q hq => htree.2 a b q p hq hp⟩

theorem generateMaze_perfect_witness :
    ∃ m', generateMaze 8 (fun n => n) (MazeGenerator.new 5 5) = some m' ∧
      (∀ a b, IsPathCell m' a → IsPathCell m' b →
        ∃ p, SimpleRoute (IsPathCell m') a b p ∧
          ∀ q, SimpleRoute (IsPathCell m') a b q → q = p) ∧
      ∀ cyc, ¬ IsCycle (IsPathCell m') cyc :=
  generateMaze_perfect (MazeGenerator.new 5 5) (new_wf 5 5) (by decide) (by decide)
    (by decide) (by decide) 8 (fun n => n) (by decide)

/-- Claim C7. For every maze produced by `generateMaze` on a (well-formed) grid
of odd width `w` and height `h`, both at least 3, the number of `removeWall`
calls (the draws of the carving loop) and the number of non-wall cells with
exactly one even coordinate both equal the number of carving nodes minus one,
where the carving nodes are the `((w-1)/2) * ((h-1)/2)` cells with both
coordinates odd; and the maze has exactly `2 * ((w-1)/2) * ((h-1)/2) - 1`
non-wall cells. -/
theorem generateMaze_counts (m : MazeGenerator) (hwf : WellFormed m)
    (hw : m.width % 2 = 1) (hh : m.height % 2 = 1) (h3w : 3 ≤ m.width) (h3h : 3 ≤ m.height)
    (fuel : Nat) (rand : Nat → Nat) (hfuel : 2 * nodeCount m.width m.height ≤ fuel) :
    ∃ s m', carveMaze fuel rand m = some s ∧ generateMaze fuel rand m = some m' ∧
      ((Finset.Ico 0 m.width ×ˢ Finset.Ico 0 m.height).filter
        fun c : Coord => c.1 % 2 = 1 ∧ c.2 % 2 = 1).card = nodeCount m.width m.height ∧
      nodeCount m.width m.height = ((m.width - 1) / 2).toNat * ((m.height - 1) / 2).toNat ∧
      1 ≤ nodeCount m.width m.height ∧
      s.draws = nodeCount m.width m.height - 1 ∧
      corridorCount m' = nodeCount m.width m.height - 1 ∧
      openCount m' = 2 * nodeCount m.width m.height - 1 := by
  obtain ⟨s, m', hs, hgen, hI, hstack, -, -, -, -, hopen, hcorr⟩ :=
    generateMaze_cells m hwf hw hh h3w h3h fuel rand hfuel
  have hV := visitedCount_eq_nodes _ _ s hI hstack
  have h1 := hI.draws_eq
  have h2 := hI.corridors_eq
  have h3 := hI.open_eq
  have hV1 : 1 ≤ visitedCount s.grid := by omega
  refine ⟨s, m', hs, hgen, ?_, rfl, by omega, by omega, by omega, by omega⟩
  rw [← card_nodes m.width m.height]
  apply card_filter_same
  intro c hc
  have := (mem_rect _ _ c).1 hc
  constructor
  · intro h
    omega
  · intro h
    exact ⟨h.1, h.2.1⟩

theorem generateMaze_counts_witness :
    ∃ s m', carveMaze 8 (fun n => n) (MazeGenerator.new 5 5) = some s ∧
      generateMaze 8 (fun n => n) (MazeGenerator.new 5 5) = some m' ∧
      ((Finset.Ico 0 (MazeGenerator.new 5 5).width ×ˢ
          Finset.Ico 0 (MazeGenerator.new 5 5).height).filter
        fun c : Coord => c.1 % 2 = 1 ∧ c.2 % 2 = 1).card =
        nodeCount (MazeGenerator.new 5 5).width (MazeGenerator.new 5 5).height ∧
      nodeCount (MazeGenerator.new 5 5).width (MazeGenerator.new 5 5).height =
        (((MazeGenerator.new 5 5).width - 1) / 2).toNat *
          (((MazeGenerator.new 5 5).height - 1) / 2).toNat ∧
      1 ≤ nodeCount (MazeGenerator.new 5 5).width (MazeGenerator.new 5 5).height ∧
      s.draws = nodeCount (MazeGenerator.new 5 5).width (MazeGenerator.new 5 5).height - 1 ∧
      corridorCount m' =
        nodeCount (MazeGenerator.new 5 5).width (MazeGenerator.new 5 5).height - 1 ∧
      openCount m' =
        2 * nodeCount (MazeGenerator.new 5 5).width (MazeGenerator.new 5 5).height - 1 :=
  generateMaze_counts (MazeGenerator.new 5 5) (new_wf 5 5) (by decide) (by decide)
    (by decide) (by decide) 8 (fun n => n) (by decide)

/-- Claim C8. For every (well-formed) grid of odd width `w` and height `h` both
at least 5 and every sequence `rand` of random choices, after `generateMaze`
the cell (1,1) holds the Start marker 'S' and the cell (w-2,h-2) holds the Exit
marker 'E', and no other cell of the grid holds 'S' or 'E'. -/
theorem generateMaze_markers (m : MazeGenerator) (hwf : WellFormed m)
    (hw : m.width % 2 = 1) (hh : m.height % 2 = 1) (h5w : 5 ≤ m.width) (h5h : 5 ≤ m.height)
    (fuel : Nat) (rand : Nat → Nat) (hfuel : 2 * nodeCount m.width m.height ≤ fuel) :
    ∃ m', generateMaze fuel rand m = some m' ∧
      m'.cellAt 1 1 = 'S' ∧ m'.cellAt (m.width - 2) (m.height - 2) = 'E' ∧
      ∀ x y, InRange m' x y →
        (m'.cellAt x y = 'S' → x = 1 ∧ y = 1) ∧
        (m'.cellAt x y = 'E' → x = m.width - 2 ∧ y = m.height - 2) := by
  obtain ⟨s, m', -, hgen, hI, -, hw', hh', hcell, -, -, -⟩ :=
    generateMaze_cells m hwf hw hh (by omega) (by omega) fuel rand hfuel
  have hr11 : InRange m 1 1 := by unfold InRange; omega
  have hrE : InRange m (m.width - 2) (m.height - 2) := by unfold InRange; omega
  refine ⟨m', hgen, ?_, ?_, ?_⟩
  · rw [hcell 1 1 hr11, if_pos ⟨rfl, rfl⟩]
  · rw [hcell _ _ hrE, if_neg (by omega), if_pos ⟨rfl, rfl⟩]
  · intro x y hxy
    have hxy' : InRange m x y := by
      unfold InRange at hxy ⊢
      rw [hw', hh'] at hxy
      exact hxy
    have hmark := hI.marks x y (by
      unfold InRange
      rw [hI.width_eq, hI.height_eq]
      exact hxy')
    rw [hcell x y hxy']
    by_cases h1 : x = 1 ∧ y = 1
    · rw [if_pos h1]
      exact ⟨fun _ => h1, fun h => absurd h (by decide)⟩
    · rw [if_neg h1]
      by_cases h2 : x = m.width - 2 ∧ y = m.height - 2
      · rw [if_pos h2]
        exact ⟨fun h => absurd h (by decide), fun _ => h2⟩
      · rw [if_neg h2]
        rcases hmark with h3 | h3 <;> rw [h3] <;>
          exact ⟨fun h => absurd h (by decide), fun h => absurd h (by decide)⟩

theorem generateMaze_markers_witness :
    ∃ m', generateMaze 8 (fun n => n) (MazeGenerator.new 5 5) = some m' ∧
      m'.cellAt 1 1 = 'S' ∧ m'.cellAt 3 3 = 'E' ∧
      ∀ x y, InRange m' x y →
        (m'.cellAt x y = 'S' → x = 1 ∧ y = 1) ∧
        (m'.cellAt x y = 'E' → x = 3 ∧ y = 3) :=
  generateMaze_markers (MazeGenerator.new 5 5) (new_wf 5 5) (by decide) (by decide)
    (by decide) (by decide) 8 (fun n => n) (by decide)

end MazeRunner


/-! ## Out-of-range coordinates -/

namespace MazeRunner

open AIPathfinder

/-- Counterexample to claim C10 as stated: with the start outside the grid
(x = -1) both searches return non-empty paths: the one-element path when start
and end are the same outside cell, and a two-element path into the in-range
traversable cell (0,0). -/
theorem search_outside_start_nonempty :
    findPathBFS 11 (-1) 0 (-1) 0 (MazeGenerator.new 3 3) = some [(-1, 0)] ∧
    findPathDijkstra 42 (fun n => n) (-1) 0 (-1) 0 (MazeGenerator.new 3 3) = some [(-1, 0)] ∧
    findPathBFS 11 (-1) 0 0 0 ((MazeGenerator.new 3 3).setCell 0 0 ' ') =
      some [(-1, 0), (0, 0)] ∧
    findPathDijkstra 42 (fun n => n) (-1) 0 0 0 ((MazeGenerator.new 3 3).setCell 0 0 ' ') =
      some [(-1, 0), (0, 0)] := by
  refine ⟨by decide, by decide, by decide, by decide⟩

/-- Claim C10, amended. For every grid and every start and end that differ, if
the end lies outside the grid, or the start has no traversable neighbour (as
when it lies outside the grid and away from its border), `findPathBFS` and
`findPathDijkstra` return the empty path. -/
theorem search_outside_empty (maze : MazeGenerator) (startX startY endX endY : Int)
    (fuelB fuelD : Nat) (tie : Nat → Nat)
    (hfuelB : maze.width.toNat * maze.height.toNat + 2 ≤ fuelB)
    (hfuelD : 4 * (maze.width.toNat * maze.height.toNat) + 6 ≤ fuelD)
    (hne : (startX, startY) ≠ (endX, endY))
    (hout : (endX < 0 ∨ endX ≥ maze.width ∨ endY < 0 ∨ endY ≥ maze.height) ∨
      (∀ c, Adjacent (startX, startY) c → maze.isValidPath c.1 c.2 = false)) :
    findPathBFS fuelB startX startY endX endY maze = some [] ∧
      findPathDijkstra fuelD tie startX startY endX endY maze = some [] := by
  have hnr : ¬ Reachable maze (startX, startY) (endX, endY) := by
    rcases hout with h | h
    · refine not_reachable_of_invalid_goal maze _ _ hne ?_
      cases hv : maze.isValidPath endX endY with
      | false => rfl
      | true =>
        have := isValidPath_range hv
        omega
    · exact not_reachable_of_isolated maze _ _ hne h
  obtain ⟨p, hp, hres⟩ := findPathBFS_spec maze startX startY endX endY fuelB hfuelB
  obtain ⟨q, hq, hresq, -⟩ := findPathDijkstra_spec maze startX startY endX endY fuelD tie hfuelD
  have hp0 : p = [] := hres.nil_iff.2 hnr
  have hq0 : q = [] := by
    rcases hresq with h | h
    · exact h
    · exact absurd ⟨q, h.1⟩ hnr
  rw [hp, hq, hp0, hq0]
  exact ⟨rfl, rfl⟩

theorem search_outside_empty_witness :
    findPathBFS 11 1 1 (-1) 0 corridorGrid = some [] ∧
      findPathDijkstra 42 (fun n => n) 1 1 (-1) 0 corridorGrid = some [] :=
  search_outside_empty corridorGrid 1 1 (-1) 0 11 42 (fun n => n) (by decide) (by decide)
    (by decide) (Or.inl (Or.inl (by decide)))

end MazeRunner

namespace MazeRunner

open AIPathfinder

/-! ## Boundary, predicate and constructor contracts (C11, C12, C13, C17) -/

theorem popMin_singleton (choice : Nat) (n : Node) : popMin choice [n] = some (n, []) := by
  have hc : cheapestIndices [n] = [0] := by
    simp [cheapestIndices, isCheapest, List.range_succ]
  unfold popMin
  rw [hc]
  simp only [List.length_singleton, Nat.mod_one]
  rfl

theorem reconstructPath_empty (fuel : Nat) (x y : Int) :
    reconstructPath (fuel + 1) KeyMap.empty x y = some [(x, y)] := by
  simp [reconstructPath, runLoop, reconstructStep, KeyMap.empty]

theorem tmod_two_eq_zero_iff (n : Int) : Int.tmod n 2 = 0 ↔ n % 2 = 0 := by
  constructor
  · intro h
    have := Int.tmod_add_tdiv n 2
    omega
  · intro h
    obtain ⟨k, hk⟩ := Int.dvd_of_emod_eq_zero h
    rw [hk, Int.mul_tmod_right]

theorem new_width (width height : Int) :
    (MazeGenerator.new width height).width = if width % 2 = 0 then width + 1 else width := by
  simp only [MazeGenerator.new, tmod_two_eq_zero_iff]

theorem new_height (width height : Int) :
    (MazeGenerator.new width height).height =
      if height % 2 = 0 then height + 1 else height := by
  simp only [MazeGenerator.new, tmod_two_eq_zero_iff]

theorem bump_least_odd (n : Int) :
    let n' := if n % 2 = 0 then n + 1 else n
    n' = (if n % 2 = 1 then n else n + 1) ∧ n' % 2 = 1 ∧ n ≤ n' ∧
      ∀ k : Int, k % 2 = 1 → n ≤ k → n' ≤ k := by
  intro n'
  by_cases h : n % 2 = 0
  · have hn : n' = n + 1 := if_pos h
    rw [hn]
    refine ⟨?_, by omega, by omega, fun k hk hle => by omega⟩
    rw [if_neg (by omega)]
  · have hn : n' = n := if_neg h
    rw [hn]
    refine ⟨?_, by omega, le_refl _, fun k _ hle => hle⟩
    rw [if_pos (by omega)]

/-- C11: when the goal is the start, both searches return exactly the
one-element sequence holding that coordinate, on every grid and for every
coordinate (one iteration of fuel is enough), and its path length is 0. -/
theorem search_start_eq_end (fuel : Nat) (tie : Nat → Nat) (x y : Int)
    (maze : MazeGenerator) :
    findPathBFS (fuel + 1) x y x y maze = some [(x, y)] ∧
    findPathDijkstra (fuel + 1) tie x y x y maze = some [(x, y)] ∧
    getPathLength [(x, y)] = 0 := by
  refine ⟨?_, ?_, by simp [getPathLength, toInt32, toSizeT]⟩
  · simp [findPathBFS, runLoop, bfsStep, bfsInit, reconstructPath_empty]
  · simp [findPathDijkstra, runLoop, dijkstraStep, dijkstraInit, popMin_singleton,
      reconstructPath_empty, ← KeyMap.empty.eq_1, KeyMap.find_empty]

/-- C12: `isValidCell x y` holds exactly when `0 ≤ x < width` and
`0 ≤ y < height`; `isValidPath x y` holds exactly when `isValidCell x y` holds
and the marker at `(x, y)` is one of `' '`, `'S'`, `'E'`, `'P'`, `'*'`, `'B'`; so
`isValidPath` is false on every Wall cell and at every coordinate out of
range. -/
theorem isValidCell_isValidPath_iff (m : MazeGenerator) (x y : Int) :
    (m.isValidCell x y = true ↔ (0 ≤ x ∧ x < m.width) ∧ (0 ≤ y ∧ y < m.height)) ∧
    (m.isValidPath x y = true ↔
      m.isValidCell x y = true ∧
        (m.cellAt x y = ' ' ∨ m.cellAt x y = 'S' ∨ m.cellAt x y = 'E' ∨
          m.cellAt x y = 'P' ∨ m.cellAt x y = '*' ∨ m.cellAt x y = 'B')) ∧
    (m.cellAt x y = '#' → m.isValidPath x y = false) ∧
    (¬ ((0 ≤ x ∧ x < m.width) ∧ (0 ≤ y ∧ y < m.height)) → m.isValidPath x y = false) := by
  have h1 : m.isValidCell x y = true ↔ (0 ≤ x ∧ x < m.width) ∧ (0 ≤ y ∧ y < m.height) := by
    simp [MazeGenerator.isValidCell, and_assoc]
  have h2 : m.isValidPath x y = true ↔
      m.isValidCell x y = true ∧
        (m.cellAt x y = ' ' ∨ m.cellAt x y = 'S' ∨ m.cellAt x y = 'E' ∨
          m.cellAt x y = 'P' ∨ m.cellAt x y = '*' ∨ m.cellAt x y = 'B') := by
    unfold MazeGenerator.isValidPath
    by_cases hc : m.isValidCell x y = true
    · simp [hc, or_assoc]
    · simp [hc]
  refine ⟨h1, h2, ?_, ?_⟩
  · intro hw
    rw [Bool.eq_false_iff]
    intro hp
    have := (h2.1 hp).2
    rw [hw] at this
    revert this
    decide
  · intro hr
    rw [Bool.eq_false_iff]
    intro hp
    exact hr (h1.1 (h2.1 hp).1)

/-- C13: for positive requested dimensions the constructor stores the request
when it is odd and the request plus one when it is even; both stored
dimensions are odd and each is the least odd value not below the request; the
marker array has `height'` rows of `width'` cells, all Wall, and the explored
mask has the same shape with nothing explored; odd requests are kept. -/
theorem new_dimensions (width height : Int) (hw : 0 < width) (hh : 0 < height) :
    ((MazeGenerator.new width height).width = (if width % 2 = 1 then width else width + 1) ∧
      (MazeGenerator.new width height).height =
        (if height % 2 = 1 then height else height + 1)) ∧
    ((MazeGenerator.new width height).width % 2 = 1 ∧
      (MazeGenerator.new width height).height % 2 = 1) ∧
    (0 < (MazeGenerator.new width height).width ∧
      width ≤ (MazeGenerator.new width height).width ∧
      ∀ k : Int, k % 2 = 1 → width ≤ k → (MazeGenerator.new width height).width ≤ k) ∧
    (0 < (MazeGenerator.new width height).height ∧
      height ≤ (MazeGenerator.new width height).height ∧
      ∀ k : Int, k % 2 = 1 → height ≤ k → (MazeGenerator.new width height).height ≤ k) ∧
    ((MazeGenerator.new width height).maze.length =
        (MazeGenerator.new width height).height.toNat ∧
      ∀ row ∈ (MazeGenerator.new width height).maze,
        row.length = (MazeGenerator.new width height).width.toNat ∧ ∀ c ∈ row, c = '#') ∧
    ((MazeGenerator.new width height).visited.length =
        (MazeGenerator.new width height).height.toNat ∧
      ∀ row ∈ (MazeGenerator.new width height).visited,
        row.length = (MazeGenerator.new width height).width.toNat ∧
          ∀ b ∈ row, b = false) ∧
    (width % 2 = 1 → height % 2 = 1 →
      (MazeGenerator.new width height).width = width ∧
        (MazeGenerator.new width height).height = height) := by
  have bw := bump_least_odd width
  have bh := bump_least_odd height
  simp only [← new_width width height] at bw
  simp only [← new_height width height] at bh
  obtain ⟨bw1, bw2, bw3, bw4⟩ := bw
  obtain ⟨bh1, bh2, bh3, bh4⟩ := bh
  refine ⟨⟨bw1, bh1⟩, ⟨bw2, bh2⟩, ⟨by omega, bw3, bw4⟩, ⟨by omega, bh3, bh4⟩, ?_, ?_, ?_⟩
  · refine ⟨by simp [MazeGenerator.new], fun row hrow => ?_⟩
    have hrow' : row = List.replicate (MazeGenerator.new width height).width.toNat '#' := by
      simp only [MazeGenerator.new] at hrow ⊢
      exact (List.mem_replicate.1 hrow).2
    rw [hrow']
    exact ⟨List.length_replicate _ _, fun c hc => (List.mem_replicate.1 hc).2⟩
  · refine ⟨by simp [MazeGenerator.new], fun row hrow => ?_⟩
    have hrow' : row = List.replicate (MazeGenerator.new width height).width.toNat false := by
      simp only [MazeGenerator.new] at hrow ⊢
      exact (List.mem_replicate.1 hrow).2
    rw [hrow']
    exact ⟨List.length_replicate _ _, fun c hc => (List.mem_replicate.1 hc).2⟩
  · intro ow oh
    rw [bw1, bh1, if_pos ow, if_pos oh]
    exact ⟨rfl, rfl⟩

/-- Witness for C13 at the request 5×5, which is kept unchanged. -/
theorem new_dimensions_witness :
    (0 : Int) < 5 ∧ (MazeGenerator.new 5 5).width = 5 ∧ (MazeGenerator.new 5 5).height = 5 ∧
      (MazeGenerator.new 5 5).maze.length = 5 :=
  ⟨by decide,
    ((new_dimensions 5 5 (by decide) (by decide)).2.2.2.2.2.2 (by decide) (by decide)).1,
    ((new_dimensions 5 5 (by decide) (by decide)).2.2.2.2.2.2 (by decide) (by decide)).2,
    by
      have h := (new_dimensions 5 5 (by decide) (by decide)).2.2.2.2.1.1
      rw [h, ((new_dimensions 5 5 (by decide) (by decide)).2.2.2.2.2.2
        (by decide) (by decide)).2]
      rfl⟩

/-- C17, as stated, fails: on a path of `2^31 + 1` elements the count
`|path| − 1 = 2^31` does not fit the `int` that `getPathLength` returns, which is
`−2^31`. -/
theorem getPathLength_wraps :
    getPathLength longPath = -2147483648 ∧
    max 0 ((longPath.length : Int) - 1) = 2147483648 ∧
    getPathLength longPath ≠ max 0 ((longPath.length : Int) - 1) := by
  have hlen : longPath.length = 2147483649 := List.length_replicate _ _
  have hne : longPath ≠ [] := by
    intro h
    rw [h] at hlen
    exact absurd hlen (by decide)
  have h1 : getPathLength longPath = -2147483648 := by
    rw [getPathLength_of_ne_nil hne, hlen]
    decide
  have h2 : max 0 ((longPath.length : Int) - 1) = 2147483648 := by
    rw [hlen]
    decide
  refine ⟨h1, h2, ?_⟩
  rw [h1, h2]
  decide

/-- C17, amended: for every path of at most `2^31` elements `getPathLength path`
is `max 0 (|path| − 1)`; it is 0 on the empty sequence and on every one-element
sequence. -/
theorem getPathLength_eq_max (path : List Coord) (hs : path.length ≤ 2147483648) :
    getPathLength path = max 0 ((path.length : Int) - 1) ∧
    getPathLength [] = 0 ∧ ∀ c : Coord, getPathLength [c] = 0 := by
  refine ⟨?_, by simp [getPathLength],
    fun c => by simp [getPathLength, toInt32, toSizeT]⟩
  cases path with
  | nil => simp [getPathLength]
  | cons a t =>
    rw [getPathLength_of_small (List.cons_ne_nil a t) hs, max_eq_right]
    simp only [List.length_cons]
    push_cast
    omega

/-- Witness for the amended C17 on a path of three cells. -/
theorem getPathLength_eq_max_witness :
    getPathLength [(1, 1), (2, 1), (3, 1)] = max 0 (((3 : Nat) : Int) - 1) ∧
    getPathLength [] = 0 ∧ ∀ c : Coord, getPathLength [c] = 0 :=
  getPathLength_eq_max [(1, 1), (2, 1), (3, 1)] (by decide)

end MazeRunner

namespace MazeRunner

/-! ## Player moves, efficiency and the score table (C18, C19, C20) -/

theorem isValidMove_eq (x y : Int) (maze : MazeGenerator) :
    Player.isValidMove x y maze = maze.isValidPath x y := by
  unfold Player.isValidMove
  split
  · next h =>
    symm
    rw [Bool.eq_false_iff]
    intro hp
    have hr := isValidPath_range hp
    simp only [MazeGenerator.getWidth, MazeGenerator.getHeight] at h
    omega
  · rfl

theorem toInt32_of_range (n : Int) (h0 : -2147483648 ≤ n) (h1 : n ≤ 2147483647) :
    toInt32 n = n := by
  unfold toInt32
  omega

theorem sortNotAfter_isStdSort : IsStdSort sortNotAfter GameManager.byScoreDesc := by
  intro l
  refine ⟨List.mergeSort_perm _ _, ?_⟩
  have h := @List.sorted_mergeSort ScoreEntry
    (fun a b : ScoreEntry => !GameManager.byScoreDesc b a)
    (fun a b c hab hbc => by
      simp only [GameManager.byScoreDesc, Bool.not_eq_true', decide_eq_false_iff_not] at *
      omega)
    (fun a b => by
      simp only [GameManager.byScoreDesc, Bool.or_eq_true, Bool.not_eq_true',
        decide_eq_false_iff_not]
      omega) l
  refine h.imp ?_
  intro a b hab
  simpa using hab

/-- C18: `Player::move` returns true exactly when the direction is one of W, A,
S, D in either case and the target cell (W: `y − 1`, S: `y + 1`, A: `x − 1`,
D: `x + 1`) satisfies `isValidPath`; a true result moves the player onto the
target, adds one to the move counter and appends the target to the history; a
false result leaves the player unchanged. -/
theorem move_spec (p : Player) (direction : Char) (maze : MazeGenerator) :
    ((p.move direction maze).1 = true ↔
      ((direction = 'W' ∨ direction = 'w') ∧ maze.isValidPath p.x (p.y - 1) = true) ∨
      ((direction = 'S' ∨ direction = 's') ∧ maze.isValidPath p.x (p.y + 1) = true) ∨
      ((direction = 'A' ∨ direction = 'a') ∧ maze.isValidPath (p.x - 1) p.y = true) ∨
      ((direction = 'D' ∨ direction = 'd') ∧ maze.isValidPath (p.x + 1) p.y = true)) ∧
    ((p.move direction maze).1 = true →
      ∃ t : Coord,
        (((direction = 'W' ∨ direction = 'w') ∧ t = (p.x, p.y - 1)) ∨
          ((direction = 'S' ∨ direction = 's') ∧ t = (p.x, p.y + 1)) ∨
          ((direction = 'A' ∨ direction = 'a') ∧ t = (p.x - 1, p.y)) ∨
          ((direction = 'D' ∨ direction = 'd') ∧ t = (p.x + 1, p.y))) ∧
        (p.move direction maze).2 =
          { x := t.1, y := t.2, startX := p.startX, startY := p.startY,
            moves := p.moves + 1, moveHistory := p.moveHistory ++ [t] }) ∧
    ((p.move direction maze).1 = false → (p.move direction maze).2 = p) := by
  by_cases hW : direction = 'W' ∨ direction = 'w'
  · have hS : ¬ (direction = 'S' ∨ direction = 's') := by
      rcases hW with h | h <;> rw [h] <;> decide
    have hA : ¬ (direction = 'A' ∨ direction = 'a') := by
      rcases hW with h | h <;> rw [h] <;> decide
    have hD : ¬ (direction = 'D' ∨ direction = 'd') := by
      rcases hW with h | h <;> rw [h] <;> decide
    by_cases hv : maze.isValidPath p.x (p.y - 1) = true
    · simp [Player.move, Player.addToHistory, isValidMove_eq, hW, hS, hA, hD, hv]
    · simp [Player.move, Player.addToHistory, isValidMove_eq, hW, hS, hA, hD, hv]
  by_cases hS : direction = 'S' ∨ direction = 's'
  · have hA : ¬ (direction = 'A' ∨ direction = 'a') := by
      rcases hS with h | h <;> rw [h] <;> decide
    have hD : ¬ (direction = 'D' ∨ direction = 'd') := by
      rcases hS with h | h <;> rw [h] <;> decide
    by_cases hv : maze.isValidPath p.x (p.y + 1) = true
    · simp [Player.move, Player.addToHistory, isValidMove_eq, hW, hS, hA, hD, hv]
    · simp [Player.move, Player.addToHistory, isValidMove_eq, hW, hS, hA, hD, hv]
  by_cases hA : direction = 'A' ∨ direction = 'a'
  · have hD : ¬ (direction = 'D' ∨ direction = 'd') := by
      rcases hA with h | h <;> rw [h] <;> decide
    by_cases hv : maze.isValidPath (p.x - 1) p.y = true
    · simp [Player.move, Player.addToHistory, isValidMove_eq, hW, hS, hA, hD, hv]
    · simp [Player.move, Player.addToHistory, isValidMove_eq, hW, hS, hA, hD, hv]
  by_cases hD : direction = 'D' ∨ direction = 'd'
  · by_cases hv : maze.isValidPath (p.x + 1) p.y = true
    · simp [Player.move, Player.addToHistory, isValidMove_eq, hW, hS, hA, hD, hv]
    · simp [Player.move, Player.addToHistory, isValidMove_eq, hW, hS, hA, hD, hv]
  · simp [Player.move, hW, hS, hA, hD]

/-- Witness for C18 on the 3×3 corridor grid: from (1,1) the move `d` succeeds
onto (2,1), and the key `x` leaves the player as it was. -/
theorem move_spec_witness :
    (samplePlayer.move 'd' corridorGrid).1 = true ∧
    (samplePlayer.move 'x' corridorGrid).2 = samplePlayer :=
  ⟨(move_spec samplePlayer 'd' corridorGrid).1.2
      (Or.inr (Or.inr (Or.inr ⟨Or.inr rfl, by decide⟩))),
    (move_spec samplePlayer 'x' corridorGrid).2.2 (by decide)⟩

/-- C19: `calculateEfficiency` returns 0 when either argument is 0; for
positive arguments with `100 · shortestPathLength` in the range of `int` it
returns `min 100 ⌊100 · shortestPathLength / playerMoves⌋`; so for non-negative
arguments in that range the result lies between 0 and 100 and is 100 exactly
when `0 < playerMoves ≤ shortestPathLength`. -/
theorem calculateEfficiency_spec (playerMoves shortestPathLength : Int) :
    ((playerMoves = 0 ∨ shortestPathLength = 0) →
      GameManager.calculateEfficiency playerMoves shortestPathLength = 0) ∧
    (0 < playerMoves → 0 < shortestPathLength → 100 * shortestPathLength ≤ INT_MAX →
      GameManager.calculateEfficiency playerMoves shortestPathLength =
        min 100 (100 * shortestPathLength / playerMoves)) ∧
    (0 ≤ playerMoves → 0 ≤ shortestPathLength → 100 * shortestPathLength ≤ INT_MAX →
      0 ≤ GameManager.calculateEfficiency playerMoves shortestPathLength ∧
      GameManager.calculateEfficiency playerMoves shortestPathLength ≤ 100 ∧
      (GameManager.calculateEfficiency playerMoves shortestPathLength = 100 ↔
        0 < playerMoves ∧ playerMoves ≤ shortestPathLength)) := by
  have hzero : (playerMoves = 0 ∨ shortestPathLength = 0) →
      GameManager.calculateEfficiency playerMoves shortestPathLength = 0 := by
    intro h
    unfold GameManager.calculateEfficiency
    rw [if_pos h]
  have hpos : 0 < playerMoves → 0 < shortestPathLength →
      100 * shortestPathLength ≤ INT_MAX →
      GameManager.calculateEfficiency playerMoves shortestPathLength =
        min 100 (100 * shortestPathLength / playerMoves) := by
    intro hp hs hr
    unfold INT_MAX at hr
    unfold GameManager.calculateEfficiency
    rw [if_neg (by omega), toInt32_of_range _ (by omega) (by omega),
      Int.tdiv_eq_ediv (by omega) (by omega), mul_comm]
  refine ⟨hzero, hpos, ?_⟩
  intro hp hs hr
  by_cases hz : playerMoves = 0 ∨ shortestPathLength = 0
  · rw [hzero hz]
    refine ⟨le_refl _, by decide, ?_⟩
    constructor
    · intro h
      exact absurd h (by decide)
    · intro h
      omega
  · have hp' : 0 < playerMoves := by omega
    have hs' : 0 < shortestPathLength := by omega
    rw [hpos hp' hs' hr]
    have hq : 0 ≤ 100 * shortestPathLength / playerMoves :=
      Int.ediv_nonneg (by omega) (by omega)
    have hiff : 100 ≤ 100 * shortestPathLength / playerMoves ↔
        playerMoves ≤ shortestPathLength := by
      rw [Int.le_ediv_iff_mul_le hp']
      omega
    refine ⟨le_min (by decide : (0 : Int) ≤ 100) hq, min_le_left (100 : Int) _, ?_⟩
    constructor
    · intro h
      have h2 : min 100 (100 * shortestPathLength / playerMoves) ≤
          100 * shortestPathLength / playerMoves := min_le_right (100 : Int) _
      rw [h] at h2
      exact ⟨hp', hiff.1 h2⟩
    · intro h
      exact min_eq_left (hiff.2 h.2)

/-- Witness for C19: 4 moves against an optimum of 3 give 75, and 3 moves
against 3 give 100. -/
theorem calculateEfficiency_spec_witness :
    GameManager.calculateEfficiency 4 3 = min 100 (100 * 3 / 4) ∧
    GameManager.calculateEfficiency 3 3 = 100 :=
  ⟨(calculateEfficiency_spec 4 3).2.1 (by decide) (by decide) (by decide),
    ((calculateEfficiency_spec 3 3).2.2 (by decide) (by decide) (by decide)).2.2.2
      ⟨by decide, by decide⟩⟩

/-- C20: for a score table with one entry per player, a `std::sort` meeting its
contract and a count between 0 and `INT_MAX`, `getTopScores count` has
`min count (number of players)` entries, each an entry of the table, no player
twice, scores non-increasing, and every entry of the table that is left out
scores no more than every returned entry. -/
theorem getTopScores_spec
    (sort : (ScoreEntry → ScoreEntry → Bool) → List ScoreEntry → List ScoreEntry)
    (scoreMap : List ScoreEntry) (count : Int)
    (hsort : IsStdSort sort GameManager.byScoreDesc)
    (hkeys : (scoreMap.map Prod.fst).Nodup)
    (hc0 : 0 ≤ count) (hc1 : count ≤ INT_MAX) :
    ((GameManager.getTopScores sort scoreMap count).length : Int) =
      min count (scoreMap.length : Int) ∧
    (∀ e ∈ GameManager.getTopScores sort scoreMap count, e ∈ scoreMap) ∧
    ((GameManager.getTopScores sort scoreMap count).map Prod.fst).Nodup ∧
    (GameManager.getTopScores sort scoreMap count).Pairwise (fun a b => b.2 ≤ a.2) ∧
    (∀ e ∈ scoreMap, e ∉ GameManager.getTopScores sort scoreMap count →
      ∀ r ∈ GameManager.getTopScores sort scoreMap count, e.2 ≤ r.2) := by
  obtain ⟨hperm, hsorted⟩ := hsort scoreMap
  have hsorted' : (sort GameManager.byScoreDesc scoreMap).Pairwise
      (fun a b => b.2 ≤ a.2) := by
    refine hsorted.imp ?_
    intro a b hab
    simp only [GameManager.byScoreDesc, decide_eq_false_iff_not] at hab
    omega
  have hk : toSizeT count = count.toNat := by
    unfold toSizeT
    unfold INT_MAX at hc1
    rw [Int.emod_eq_of_lt hc0 (by omega)]
  have hres : GameManager.getTopScores sort scoreMap count =
      (sort GameManager.byScoreDesc scoreMap).take count.toNat := by
    unfold GameManager.getTopScores
    simp only [hk]
    split
    · rfl
    · next h => rw [List.take_of_length_le (by omega)]
  have hlen : (sort GameManager.byScoreDesc scoreMap).length = scoreMap.length :=
    hperm.length_eq
  rw [hres]
  refine ⟨?_, ?_, ?_, ?_, ?_⟩
  · rw [List.length_take, hlen]
    have := Int.toNat_of_nonneg hc0
    omega
  · intro e he
    exact hperm.subset (List.mem_of_mem_take he)
  · have hnd : ((sort GameManager.byScoreDesc scoreMap).map Prod.fst).Nodup :=
      ((hperm.map Prod.fst).nodup_iff).2 hkeys
    exact hnd.sublist ((List.take_sublist _ _).map _)
  · exact hsorted'.sublist (List.take_sublist _ _)
  · intro e he hne r hr
    have he' : e ∈ sort GameManager.byScoreDesc scoreMap := hperm.symm.subset he
    rw [← List.take_append_drop count.toNat (sort GameManager.byScoreDesc scoreMap)] at he'
    have hd : e ∈ (sort GameManager.byScoreDesc scoreMap).drop count.toNat := by
      rcases List.mem_append.1 he' with h | h
      · exact absurd h hne
      · exact h
    have hs := hsorted'
    rw [← List.take_append_drop count.toNat (sort GameManager.byScoreDesc scoreMap)] at hs
    exact (List.pairwise_append.1 hs).2.2 r hr e hd

/-- Witness for C20: the top two of a table of three players under merge
sort. -/
theorem getTopScores_spec_witness :
    ((GameManager.getTopScores sortNotAfter sampleScores 2).length : Int) =
      min 2 (sampleScores.length : Int) ∧
    (∀ e ∈ GameManager.getTopScores sortNotAfter sampleScores 2, e ∈ sampleScores) ∧
    ((GameManager.getTopScores sortNotAfter sampleScores 2).map Prod.fst).Nodup ∧
    (GameManager.getTopScores sortNotAfter sampleScores 2).Pairwise (fun a b => b.2 ≤ a.2) ∧
    (∀ e ∈ sampleScores, e ∉ GameManager.getTopScores sortNotAfter sampleScores 2 →
      ∀ r ∈ GameManager.getTopScores sortNotAfter sampleScores 2, e.2 ≤ r.2) :=
  getTopScores_spec sortNotAfter sampleScores 2 sortNotAfter_isStdSort (by decide)
    (by decide) (by decide)

end MazeRunner

namespace MazeRunner

open AIPathfinder MazeGenerator

/-! ## Totality, termination and determinism of the runs (C14, C15, C16) -/

/-- Every state of the trace of a loop satisfies an invariant that holds
initially and is kept by each continuing iteration. -/
theorem loopTrace_inv {σ ρ : Type} (step : σ → ρ ⊕ σ) (Inv : σ → Prop)
    (hcont : ∀ s s', Inv s → step s = Sum.inr s' → Inv s') :
    ∀ fuel s, Inv s → ∀ t ∈ loopTrace step fuel s, Inv t := by
  intro fuel
  induction fuel with
  | zero => intro s _ t ht; simp [loopTrace] at ht
  | succ n ih =>
    intro s hI t ht
    simp only [loopTrace, List.mem_cons] at ht
    rcases ht with rfl | ht
    · exact hI
    · cases hs : step s with
      | inl r => rw [hs] at ht; simp at ht
      | inr s' =>
        rw [hs] at ht
        exact ih s' (hcont s s' hI hs) t ht

/-! ### The carving loop -/

/-- A continuing iteration of the carving loop keeps the invariant. -/
theorem carveStep_inv (w h : Int) (hw : w % 2 = 1) (hh : h % 2 = 1) (rand : Nat → Nat)
    (s s' : CarveState) (hI : CarveInv w h s) (hstep : carveStep rand s = Sum.inr s') :
    CarveInv w h s' := by
  unfold carveStep at hstep
  cases hs : s.cellStack with
  | nil =>
    rw [hs] at hstep
    simp at hstep
  | cons current rest =>
    rw [hs] at hstep
    simp only at hstep
    by_cases hne : (s.grid.getUnvisitedNeighbors current.1 current.2).isEmpty = true
    · rw [if_pos hne] at hstep
      simp only [Sum.inr.injEq] at hstep
      subst hstep
      exact carve_pop _ _ s current rest hI hs (List.isEmpty_iff.1 hne)
    · rw [if_neg hne] at hstep
      simp only [Sum.inr.injEq] at hstep
      subst hstep
      have hnil : s.grid.getUnvisitedNeighbors current.1 current.2 ≠ [] := by
        intro e
        rw [e] at hne
        simp at hne
      have hmem := getD_mod_mem (s.grid.getUnvisitedNeighbors current.1 current.2)
        (rand s.draws) (0, 0) hnil
      generalize (s.grid.getUnvisitedNeighbors current.1 current.2).getD
        (rand s.draws % (s.grid.getUnvisitedNeighbors current.1 current.2).length) (0, 0) =
        chosen at hmem
      obtain ⟨hadj, hr, hv⟩ := (mem_getUnvisitedNeighbors _ _ _ _).1 hmem
      obtain ⟨stack, g, draws⟩ := s
      simp only at hs hadj hr hv hI ⊢
      subst hs
      exact (carve_push w h hw hh g draws current.1 current.2
        chosen.1 chosen.2 rest hI hadj hr hv).1

/-- The midpoint between a carving node and a lattice neighbour in range is in
range. -/
theorem midpoint_inRange (w h cx cy chx chy : Int) (hc : IsNode w h (cx, cy))
    (hadj : LatticeAdj (cx, cy) (chx, chy))
    (hr : 0 ≤ chx ∧ chx < w ∧ 0 ≤ chy ∧ chy < h) :
    0 ≤ Int.tdiv (cx + chx) 2 ∧ Int.tdiv (cx + chx) 2 < w ∧
      0 ≤ Int.tdiv (cy + chy) 2 ∧ Int.tdiv (cy + chy) 2 < h := by
  unfold IsNode at hc
  unfold LatticeAdj at hadj
  simp only at hc hadj
  rw [Int.tdiv_eq_ediv (by omega) (by decide), Int.tdiv_eq_ediv (by omega) (by decide)]
  rcases hadj with ⟨h1, h2 | h2⟩ | ⟨h1, h2 | h2⟩ <;> omega

/-- Under the carving invariant every cell an iteration reads or writes is in
range. -/
theorem carveAccesses_inRange (w h : Int) (rand : Nat → Nat) (s : CarveState)
    (hI : CarveInv w h s) :
    ∀ c ∈ carveAccesses rand s, 0 ≤ c.1 ∧ c.1 < w ∧ 0 ≤ c.2 ∧ c.2 < h := by
  have hrange : ∀ x y, InRange s.grid x y → 0 ≤ x ∧ x < w ∧ 0 ≤ y ∧ y < h := by
    intro x y hr
    unfold InRange at hr
    rw [hI.width_eq, hI.height_eq] at hr
    exact hr
  intro c hc
  unfold carveAccesses at hc
  cases hs : s.cellStack with
  | nil =>
    rw [hs] at hc
    simp at hc
  | cons current rest =>
    rw [hs] at hc
    simp only at hc
    have hprobed : ∀ c ∈ (([(0, -2), (0, 2), (-2, 0), (2, 0)] : List (Int × Int)).map
        fun d => (current.1 + d.1, current.2 + d.2)).filter
        (fun c => s.grid.isValidCell c.1 c.2), 0 ≤ c.1 ∧ c.1 < w ∧ 0 ≤ c.2 ∧ c.2 < h := by
      intro c hc
      exact hrange _ _ ((isValidCell_iff _ _ _).1 (List.mem_filter.1 hc).2)
    by_cases hne : (s.grid.getUnvisitedNeighbors current.1 current.2).isEmpty = true
    · rw [if_pos hne] at hc
      exact hprobed c hc
    · rw [if_neg hne] at hc
      have hnil : s.grid.getUnvisitedNeighbors current.1 current.2 ≠ [] := by
        intro e
        rw [e] at hne
        simp at hne
      have hmem := getD_mod_mem (s.grid.getUnvisitedNeighbors current.1 current.2)
        (rand s.draws) (0, 0) hnil
      generalize (s.grid.getUnvisitedNeighbors current.1 current.2).getD
        (rand s.draws % (s.grid.getUnvisitedNeighbors current.1 current.2).length) (0, 0) =
        chosen at hmem hc
      obtain ⟨hadj, hr, -⟩ := (mem_getUnvisitedNeighbors _ _ _ _).1 hmem
      have hcur : IsNode w h current :=
        (hI.stack_vis current (by rw [hs]; exact List.mem_cons_self _ _)).1
      have hchosen := hrange _ _ hr
      have hcurr : 0 ≤ current.1 ∧ current.1 < w ∧ 0 ≤ current.2 ∧ current.2 < h := by
        unfold IsNode at hcur
        omega
      have hmid := midpoint_inRange w h current.1 current.2 chosen.1 chosen.2 hcur hadj hchosen
      rcases List.mem_append.1 hc with hc | hc
      · exact hprobed c hc
      · simp only [List.mem_cons, List.mem_singleton, List.not_mem_nil, or_false] at hc
        rcases hc with rfl | rfl | rfl | rfl
        · exact hchosen
        · exact hcurr
        · exact hchosen
        · exact hmid

/-! ### The breadth-first queue -/

/-- What the neighbour loop of `findPathBFS` appends to the queue: coordinates
not yet visited, each once, all visited afterwards; visited coordinates stay
visited. -/
theorem bfs_fold_pushed (cur : Node) (nbs : List Node) :
    ∀ s : BFSState, ∃ pushed : List Node,
      (nbs.foldl (bfsVisit cur) s).queue = s.queue ++ pushed ∧
      (pushed.map fun n => (n.x, n.y)).Nodup ∧
      (∀ n ∈ pushed, s.visited.find (n.x, n.y) = none) ∧
      (∀ n ∈ pushed, (nbs.foldl (bfsVisit cur) s).visited.find (n.x, n.y) ≠ none) ∧
      (∀ c, s.visited.find c ≠ none → (nbs.foldl (bfsVisit cur) s).visited.find c ≠ none) := by
  induction nbs with
  | nil =>
    intro s
    exact ⟨[], by simp, by simp, by simp, by simp, fun c hc => hc⟩
  | cons a t ih =>
    intro s
    rw [List.foldl_cons]
    obtain ⟨pushed, hq, hnd, hnew, hvis, hmono⟩ := ih (bfsVisit cur s a)
    by_cases hv : s.visited.find (createKey a.x a.y) = none
    · have hstep : bfsVisit cur s a =
          { queue := s.queue ++ [Node.mk a.x a.y 0 (cur.distance + 1)]
            visited := s.visited.insert (createKey a.x a.y) true
            cameFrom := s.cameFrom.insert (createKey a.x a.y) (cur.x, cur.y) } := by
        unfold bfsVisit
        exact if_pos hv
      have ha1 : (bfsVisit cur s a).visited.find (a.x, a.y) ≠ none := by
        rw [hstep]
        simp [KeyMap.insert, createKey]
      have hfr : ∀ c, (bfsVisit cur s a).visited.find c = none → s.visited.find c = none := by
        intro c hc
        rw [hstep] at hc
        simp only [KeyMap.insert] at hc
        by_cases hca : c = createKey a.x a.y
        · rw [if_pos hca] at hc
          exact absurd hc (by simp)
        · rw [if_neg hca] at hc
          exact hc
      refine ⟨Node.mk a.x a.y 0 (cur.distance + 1) :: pushed, ?_, ?_, ?_, ?_, ?_⟩
      · rw [hq, hstep]
        simp
      · rw [List.map_cons, List.nodup_cons]
        refine ⟨?_, hnd⟩
        intro hmem
        obtain ⟨n, hn, hn'⟩ := List.mem_map.1 hmem
        have h1 := hnew n hn
        simp only at hn'
        rw [hn'] at h1
        exact ha1 h1
      · intro n hn
        rcases List.mem_cons.1 hn with rfl | hn
        · exact hv
        · exact hfr _ (hnew n hn)
      · intro n hn
        rcases List.mem_cons.1 hn with rfl | hn
        · exact hmono _ ha1
        · exact hvis n hn
      · intro c hc
        refine hmono c ?_
        intro hc'
        exact hc (hfr c hc')
    · have hstep : bfsVisit cur s a = s := by
        unfold bfsVisit
        exact if_neg hv
      rw [hstep] at hq hnew hvis hmono ⊢
      exact ⟨pushed, hq, hnd, hnew, hvis, hmono⟩

/-- The pushes of one iteration: nothing when the loop is left, otherwise new
coordinates, each once, all visited in the next state. -/
theorem bfsPushed_spec (endX endY : Int) (maze : MazeGenerator) (s : BFSState) :
    (∀ r, bfsStep 0 endX endY maze s = Sum.inl r → bfsPushed endX endY maze s = []) ∧
    (∀ s', bfsStep 0 endX endY maze s = Sum.inr s' →
      ((bfsPushed endX endY maze s).map fun n => (n.x, n.y)).Nodup ∧
      (∀ n ∈ bfsPushed endX endY maze s, s.visited.find (n.x, n.y) = none) ∧
      (∀ n ∈ bfsPushed endX endY maze s, s'.visited.find (n.x, n.y) ≠ none) ∧
      (∀ c, s.visited.find c ≠ none → s'.visited.find c ≠ none)) := by
  constructor
  · intro r hr
    unfold bfsPushed
    rw [hr]
  · intro s' hs'
    have hp : bfsPushed endX endY maze s = s'.queue.drop (s.queue.length - 1) := by
      unfold bfsPushed
      rw [hs']
    unfold bfsStep at hs'
    cases hq : s.queue with
    | nil =>
      rw [hq] at hs'
      simp at hs'
    | cons current rest =>
      rw [hq] at hs'
      simp only at hs'
      by_cases hg : current.x = endX ∧ current.y = endY
      · rw [if_pos hg] at hs'
        simp at hs'
      · rw [if_neg hg] at hs'
        simp only [Sum.inr.injEq] at hs'
        obtain ⟨pushed, hpq, hnd, hnew, hvis, hmono⟩ :=
          bfs_fold_pushed current (getNeighbors current.x current.y maze)
            { s with queue := rest }
        rw [hs'] at hpq hvis hmono
        simp only at hpq hnew hmono
        have hpe : bfsPushed endX endY maze s = pushed := by
          rw [hp, hpq, hq]
          simp
        rw [hpe]
        exact ⟨hnd, hnew, hvis, hmono⟩

/-- Along the loop of `findPathBFS`, the coordinates pushed from a state on are
pairwise different and not yet visited in that state. -/
theorem bfs_trace_pushed (endX endY : Int) (maze : MazeGenerator) :
    ∀ (fuel : Nat) (s : BFSState),
      ((((loopTrace (bfsStep 0 endX endY maze) fuel s).map
        (bfsPushed endX endY maze)).flatten).map fun n => (n.x, n.y)).Nodup ∧
      ∀ c ∈ (((loopTrace (bfsStep 0 endX endY maze) fuel s).map
        (bfsPushed endX endY maze)).flatten).map fun n => (n.x, n.y),
        s.visited.find c = none := by
  intro fuel
  induction fuel with
  | zero =>
    intro s
    simp [loopTrace]
  | succ k ih =>
    intro s
    obtain ⟨hleft, hcont⟩ := bfsPushed_spec endX endY maze s
    cases hs : bfsStep 0 endX endY maze s with
    | inl r =>
      simp [loopTrace, hs, hleft r hs]
    | inr s' =>
      obtain ⟨hnd, hnew, hvis, hmono⟩ := hcont s' hs
      obtain ⟨ihnd, ihnew⟩ := ih s'
      simp only [loopTrace, hs, List.map_cons, List.flatten_cons, List.map_append]
      constructor
      · rw [List.nodup_append]
        refine ⟨hnd, ihnd, ?_⟩
        intro c hc1 hc2
        obtain ⟨n, hn, rfl⟩ := List.mem_map.1 hc1
        exact hvis n hn (ihnew _ hc2)
      · intro c hc
        rcases List.mem_append.1 hc with hc | hc
        · obtain ⟨n, hn, rfl⟩ := List.mem_map.1 hc
          exact hnew n hn
        · by_contra hne
          exact hmono c hne (ihnew c hc)

/-! ### Grids with the same traversable cells -/

theorem getNeighbors_congr (m1 m2 : MazeGenerator) (hw : m1.width = m2.width)
    (hh : m1.height = m2.height)
    (hv : ∀ x y, m1.isValidPath x y = m2.isValidPath x y) (x y : Int) :
    getNeighbors x y m1 = getNeighbors x y m2 := by
  simp only [getNeighbors, getWidth, getHeight, hw, hh, hv]

theorem initDistances_congr (m1 m2 : MazeGenerator) (hw : m1.width = m2.width)
    (hh : m1.height = m2.height)
    (hv : ∀ x y, m1.isValidPath x y = m2.isValidPath x y) :
    initDistances m1 = initDistances m2 := by
  simp only [initDistances, getWidth, getHeight, hw, hh, hv]

theorem findPathBFS_congr (m1 m2 : MazeGenerator) (hw : m1.width = m2.width)
    (hh : m1.height = m2.height)
    (hv : ∀ x y, m1.isValidPath x y = m2.isValidPath x y) (fuel : Nat)
    (sx sy ex ey : Int) :
    findPathBFS fuel sx sy ex ey m1 = findPathBFS fuel sx sy ex ey m2 := by
  have hstep : bfsStep fuel ex ey m1 = bfsStep fuel ex ey m2 := by
    funext s
    simp only [bfsStep, getNeighbors_congr m1 m2 hw hh hv]
  unfold findPathBFS
  rw [hstep]

theorem findPathDijkstra_congr (m1 m2 : MazeGenerator) (hw : m1.width = m2.width)
    (hh : m1.height = m2.height)
    (hv : ∀ x y, m1.isValidPath x y = m2.isValidPath x y) (fuel : Nat) (tie : Nat → Nat)
    (sx sy ex ey : Int) :
    findPathDijkstra fuel tie sx sy ex ey m1 = findPathDijkstra fuel tie sx sy ex ey m2 := by
  have hstep : dijkstraStep fuel tie ex ey m1 = dijkstraStep fuel tie ex ey m2 := by
    funext s
    simp only [dijkstraStep, getNeighbors_congr m1 m2 hw hh hv]
  have hinit : dijkstraInit sx sy m1 = dijkstraInit sx sy m2 := by
    simp only [dijkstraInit, initDistances_congr m1 m2 hw hh hv]
  unfold findPathDijkstra
  rw [hstep, hinit]

/-- Writing an overlay marker on a traversable cell leaves `isValidPath` as it
was at every coordinate. -/
theorem isValidPath_setCell_overlay (m : MazeGenerator) (x y : Int) (c : Char)
    (hwf : WellFormed m) (hp : m.isValidPath x y = true)
    (hc : c = 'P' ∨ c = '*' ∨ c = 'B') (x' y' : Int) :
    (m.setCell x y c).isValidPath x' y' = m.isValidPath x' y' := by
  have hr : InRange m x y := isValidPath_range hp
  have hcell : (m.setCell x y c).isValidCell x' y' = m.isValidCell x' y' := rfl
  unfold isValidPath
  rw [hcell]
  by_cases hv : m.isValidCell x' y' = true
  · have hr' := (isValidCell_iff m x' y').1 hv
    simp only [hv, Bool.not_true, Bool.false_eq_true, if_false]
    rw [cellAt_setCell m x y x' y' c hwf hr hr'.1 hr'.2.2.1]
    by_cases he : x' = x ∧ y' = y
    · rw [if_pos he, he.1, he.2]
      have hp' := hp
      unfold isValidPath at hp'
      rw [he.1, he.2] at hv
      simp only [hv, Bool.not_true, Bool.false_eq_true, if_false] at hp'
      rw [hp']
      rcases hc with rfl | rfl | rfl <;> decide
    · rw [if_neg he]
  · simp [hv]

theorem overlayGrid_agrees (x y : Int) :
    corridorGrid.isValidPath x y = overlayGrid.isValidPath x y :=
  (isValidPath_setCell_overlay corridorGrid 2 1 'P'
    (setCell_wf _ 2 1 ' ' (setCell_wf _ 1 1 ' ' (new_wf 3 3))) (by decide)
    (Or.inl rfl) x y).symm

/-- C14: on a grid of odd width and height at least 3 and for every sequence of
draws, `generateMaze` is total: the carving loop leaves with an empty stack
within `2 * nodeCount` iterations and `generateMaze` returns; the cell (1,1)
and every cell read or written in any iteration of the loop (the probed
neighbours, the chosen neighbour, the current cell and the wall midpoint) lie
inside the grid. -/
theorem generateMaze_total (m : MazeGenerator) (hwf : WellFormed m) (hw : m.width % 2 = 1)
    (hh : m.height % 2 = 1) (h3w : 3 ≤ m.width) (h3h : 3 ≤ m.height) (rand : Nat → Nat) :
    (∀ fuel, 2 * nodeCount m.width m.height ≤ fuel →
      ∃ s m', carveMaze fuel rand m = some s ∧ s.cellStack = [] ∧
        generateMaze fuel rand m = some m') ∧
    InRange m 1 1 ∧
    (∀ fuel, ∀ s ∈ loopTrace (carveStep rand) fuel (carveInit m),
      ∀ c ∈ carveAccesses rand s, InRange m c.1 c.2) := by
  refine ⟨?_, ?_, ?_⟩
  · intro fuel hfuel
    obtain ⟨s, m', hs, hm', -, hst, -⟩ :=
      generateMaze_spec m hwf hw hh h3w h3h fuel rand hfuel
    exact ⟨s, m', hs, hst, hm'⟩
  · unfold InRange
    omega
  · intro fuel s hs c hc
    have hI := loopTrace_inv (carveStep rand) (CarveInv m.width m.height)
      (fun s s' hI hstep => carveStep_inv m.width m.height hw hh rand s s' hI hstep)
      fuel (carveInit m) (carveInit_inv m hwf h3w h3h) s hs
    exact carveAccesses_inRange m.width m.height rand s hI c hc

/-- Witness for C14 on the 5×5 grid of the constructor with the draws
`0, 1, 2, …`. -/
theorem generateMaze_total_witness :
    (∀ fuel, 2 * nodeCount (MazeGenerator.new 5 5).width (MazeGenerator.new 5 5).height ≤ fuel →
      ∃ s m', carveMaze fuel (fun n => n) (MazeGenerator.new 5 5) = some s ∧ s.cellStack = [] ∧
        generateMaze fuel (fun n => n) (MazeGenerator.new 5 5) = some m') ∧
    InRange (MazeGenerator.new 5 5) 1 1 ∧
    (∀ fuel, ∀ s ∈ loopTrace (carveStep fun n => n) fuel (carveInit (MazeGenerator.new 5 5)),
      ∀ c ∈ carveAccesses (fun n => n) s, InRange (MazeGenerator.new 5 5) c.1 c.2) :=
  generateMaze_total (MazeGenerator.new 5 5) (new_wf 5 5) (by decide) (by decide) (by decide)
    (by decide) (fun n => n)

/-- C15: on every grid and for all start and end coordinates, both searches
return once the fuel covers the grid (`w·h + 2` iterations for `findPathBFS`,
`4·w·h + 6` for `findPathDijkstra`), with the empty sequence (frontier
exhausted) or a route to the goal; and the coordinates `findPathBFS` pushes onto
its queue, the start included, are pairwise different however long it runs. -/
theorem search_terminates (maze : MazeGenerator) (startX startY endX endY : Int)
    (tie : Nat → Nat) :
    (∀ fuel, maze.width.toNat * maze.height.toNat + 2 ≤ fuel →
      ∃ p, findPathBFS fuel startX startY endX endY maze = some p ∧
        (p = [] ∨ IsRoute maze (startX, startY) (endX, endY) p)) ∧
    (∀ fuel, 4 * (maze.width.toNat * maze.height.toNat) + 6 ≤ fuel →
      ∃ p, findPathDijkstra fuel tie startX startY endX endY maze = some p ∧
        (p = [] ∨ IsRoute maze (startX, startY) (endX, endY) p)) ∧
    (∀ fuel, (bfsEnqueued fuel startX startY endX endY maze).Nodup) := by
  refine ⟨?_, ?_, ?_⟩
  · intro fuel hf
    obtain ⟨p, hp, hres⟩ := findPathBFS_spec maze startX startY endX endY fuel hf
    refine ⟨p, hp, ?_⟩
    rcases hres with h | h
    · exact Or.inl h.1
    · exact Or.inr h.1
  · intro fuel hf
    obtain ⟨p, hp, hres, -⟩ := findPathDijkstra_spec maze startX startY endX endY fuel tie hf
    refine ⟨p, hp, ?_⟩
    rcases hres with h | h
    · exact Or.inl h
    · exact Or.inr h.1
  · intro fuel
    obtain ⟨hnd, hnew⟩ := bfs_trace_pushed endX endY maze fuel (bfsInit startX startY)
    unfold bfsEnqueued
    rw [List.nodup_cons]
    refine ⟨?_, hnd⟩
    intro hmem
    have := hnew _ hmem
    simp [bfsInit, KeyMap.insert, createKey] at this

/-- Witness for C15 on the 3×3 corridor grid, from (1,1) to (2,1). -/
theorem search_terminates_witness :
    (∃ p, findPathBFS 11 1 1 2 1 corridorGrid = some p ∧
      (p = [] ∨ IsRoute corridorGrid (1, 1) (2, 1) p)) ∧
    (∃ p, findPathDijkstra 42 (fun _ => 0) 1 1 2 1 corridorGrid = some p ∧
      (p = [] ∨ IsRoute corridorGrid (1, 1) (2, 1) p)) ∧
    (bfsEnqueued 11 1 1 2 1 corridorGrid).Nodup :=
  ⟨(search_terminates corridorGrid 1 1 2 1 (fun _ => 0)).1 11 (by decide),
    (search_terminates corridorGrid 1 1 2 1 (fun _ => 0)).2.1 42 (by decide),
    (search_terminates corridorGrid 1 1 2 1 (fun _ => 0)).2.2 11⟩

/-- C16: on two grids of the same width and height whose `isValidPath` agree at
every coordinate, `findPathBFS` returns the same sequence for the same start and
end, and so does `findPathDijkstra` (same order of equal-cost pops); the
searches being functions of their inputs, a repeated call returns the same
sequence. -/
theorem search_congr (m1 m2 : MazeGenerator) (hw : m1.width = m2.width)
    (hh : m1.height = m2.height)
    (hv : ∀ x y, m1.isValidPath x y = m2.isValidPath x y) (tie : Nat → Nat)
    (startX startY endX endY : Int) (fuel : Nat)
    (hf : 4 * (m1.width.toNat * m1.height.toNat) + 6 ≤ fuel) :
    (∃ p, findPathBFS fuel startX startY endX endY m1 = some p ∧
      findPathBFS fuel startX startY endX endY m2 = some p) ∧
    (∃ q, findPathDijkstra fuel tie startX startY endX endY m1 = some q ∧
      findPathDijkstra fuel tie startX startY endX endY m2 = some q) := by
  obtain ⟨p, hp, -⟩ := findPathBFS_spec m1 startX startY endX endY fuel (by omega)
  obtain ⟨q, hq, -⟩ := findPathDijkstra_spec m1 startX startY endX endY fuel tie hf
  refine ⟨⟨p, hp, ?_⟩, ⟨q, hq, ?_⟩⟩
  · rw [← findPathBFS_congr m1 m2 hw hh hv]
    exact hp
  · rw [← findPathDijkstra_congr m1 m2 hw hh hv]
    exact hq

/-- Witness for C16: the 3×3 corridor grid before and after the overlay marker
`'P'` is written on its cell (2,1). -/
theorem search_congr_witness :
    (∃ p, findPathBFS 42 1 1 2 1 corridorGrid = some p ∧
      findPathBFS 42 1 1 2 1 overlayGrid = some p) ∧
    (∃ q, findPathDijkstra 42 (fun _ => 0) 1 1 2 1 corridorGrid = some q ∧
      findPathDijkstra 42 (fun _ => 0) 1 1 2 1 overlayGrid = some q) :=
  search_congr corridorGrid overlayGrid rfl rfl overlayGrid_agrees (fun _ => 0) 1 1 2 1 42
    (by decide)

end MazeRunner

namespace MazeRunner

open AIPathfinder

/-! ## Neighbour order and sequences of player calls (C28, C29, C30) -/

/-- The two outcomes of `Player::move`: blocked, with the player unchanged, or a
unit step onto a traversable cell. -/
theorem move_cases (p : Player) (direction : Char) (maze : MazeGenerator) :
    p.move direction maze = (false, p) ∨
    ∃ t : Coord, Adjacent (p.x, p.y) t ∧ maze.isValidPath t.1 t.2 = true ∧
      p.move direction maze =
        (true, { x := t.1, y := t.2, startX := p.startX, startY := p.startY,
                 moves := p.moves + 1, moveHistory := p.moveHistory ++ [t] }) := by
  have key : ∀ t : Coord, Adjacent (p.x, p.y) t →
      ((if Player.isValidMove t.1 t.2 maze = true then
          (true, ({ p with x := t.1, y := t.2, moves := p.moves + 1 }).addToHistory t.1 t.2)
        else (false, p)) = (false, p)) ∨
      ∃ t' : Coord, Adjacent (p.x, p.y) t' ∧ maze.isValidPath t'.1 t'.2 = true ∧
        (if Player.isValidMove t.1 t.2 maze = true then
          (true, ({ p with x := t.1, y := t.2, moves := p.moves + 1 }).addToHistory t.1 t.2)
        else (false, p)) =
        (true, { x := t'.1, y := t'.2, startX := p.startX, startY := p.startY,
                 moves := p.moves + 1, moveHistory := p.moveHistory ++ [t'] }) := by
    intro t hadj
    by_cases hv : Player.isValidMove t.1 t.2 maze = true
    · right
      refine ⟨t, hadj, by rw [← isValidMove_eq]; exact hv, ?_⟩
      rw [if_pos hv]
      rfl
    · left
      rw [if_neg hv]
  unfold Player.move
  simp only
  split_ifs with h1 h2 h3 h4
  · exact key (p.x, p.y - 1) (Or.inl ⟨rfl, Or.inl (by simp)⟩)
  · exact key (p.x, p.y + 1) (Or.inl ⟨rfl, Or.inr rfl⟩)
  · exact key (p.x - 1, p.y) (Or.inr ⟨rfl, Or.inl (by simp)⟩)
  · exact key (p.x + 1, p.y) (Or.inr ⟨rfl, Or.inr rfl⟩)
  · exact Or.inl rfl

/-- Invariant of play: the player and its start cell are on traversable
cells. -/
theorem runCalls_valid (maze : MazeGenerator) (calls : List PlayerCall) :
    ∀ p : Player, maze.isValidPath p.x p.y = true →
      maze.isValidPath p.startX p.startY = true →
      maze.isValidPath (p.runCalls maze calls).x (p.runCalls maze calls).y = true := by
  induction calls with
  | nil => intro p hp _; exact hp
  | cons c cs ih =>
    intro p hp hs
    have hstep : Player.runCalls maze p (c :: cs) =
        Player.runCalls maze (PlayerCall.run maze p c) cs := rfl
    rw [hstep]
    cases c with
    | move direction =>
      rcases move_cases p direction maze with h | ⟨t, -, hv, h⟩
      · have : PlayerCall.run maze p (PlayerCall.move direction) = p := by
          simp only [PlayerCall.run, h]
        rw [this]
        exact ih p hp hs
      · have : PlayerCall.run maze p (PlayerCall.move direction) =
            { x := t.1, y := t.2, startX := p.startX, startY := p.startY,
              moves := p.moves + 1, moveHistory := p.moveHistory ++ [t] } := by
          simp only [PlayerCall.run, h]
        rw [this]
        exact ih _ hv hs
    | reset =>
      exact ih _ hs hs

/-- Invariant of play on the move history: start cell fixed, one entry more
than the move counter, first entry the start cell, last entry the position,
consecutive entries adjacent. -/
theorem runCalls_history (maze : MazeGenerator) (sx sy : Int) (calls : List PlayerCall) :
    ∀ p : Player, p.startX = sx → p.startY = sy →
      (p.moveHistory.length : Int) = p.moves + 1 →
      p.moveHistory.head? = some (sx, sy) →
      p.moveHistory.getLast? = some (p.x, p.y) →
      p.moveHistory.Chain' Adjacent →
      (p.runCalls maze calls).startX = sx ∧ (p.runCalls maze calls).startY = sy ∧
      ((p.runCalls maze calls).moveHistory.length : Int) = (p.runCalls maze calls).moves + 1 ∧
      (p.runCalls maze calls).moveHistory.head? = some (sx, sy) ∧
      (p.runCalls maze calls).moveHistory.getLast? =
        some ((p.runCalls maze calls).x, (p.runCalls maze calls).y) ∧
      (p.runCalls maze calls).moveHistory.Chain' Adjacent := by
  induction calls with
  | nil => intro p h1 h2 h3 h4 h5 h6; exact ⟨h1, h2, h3, h4, h5, h6⟩
  | cons c cs ih =>
    intro p h1 h2 h3 h4 h5 h6
    have hstep : Player.runCalls maze p (c :: cs) =
        Player.runCalls maze (PlayerCall.run maze p c) cs := rfl
    rw [hstep]
    cases c with
    | move direction =>
      rcases move_cases p direction maze with h | ⟨t, hadj, -, h⟩
      · have : PlayerCall.run maze p (PlayerCall.move direction) = p := by
          simp only [PlayerCall.run, h]
        rw [this]
        exact ih p h1 h2 h3 h4 h5 h6
      · have : PlayerCall.run maze p (PlayerCall.move direction) =
            { x := t.1, y := t.2, startX := p.startX, startY := p.startY,
              moves := p.moves + 1, moveHistory := p.moveHistory ++ [t] } := by
          simp only [PlayerCall.run, h]
        rw [this]
        refine ih _ h1 h2 ?_ ?_ ?_ ?_
        · simp only [List.length_append, List.length_singleton]
          push_cast
          omega
        · cases hm : p.moveHistory with
          | nil => rw [hm] at h4; simp at h4
          | cons a l => rw [hm] at h4; simpa using h4
        · simp
        · refine List.Chain'.append h6 (by simp) ?_
          intro a ha b hb
          rw [h5] at ha
          simp at ha hb
          subst ha; subst hb
          exact hadj
    | reset =>
      refine ih _ h1 h2 ?_ ?_ ?_ ?_
      · simp [PlayerCall.run, Player.reset, Player.addToHistory, Player.clearHistory]
      · simp [PlayerCall.run, Player.reset, Player.addToHistory, Player.clearHistory, h1, h2]
      · simp [PlayerCall.run, Player.reset, Player.addToHistory, Player.clearHistory]
      · simp [PlayerCall.run, Player.reset, Player.addToHistory, Player.clearHistory]

/-- C28: `getNeighbors x y` is the list up, down, left, right filtered by
`isValidPath` alone (the bounds test changes nothing), each kept cell as a node
of cost and distance 0; so its cells come in that relative order and none
twice. -/
theorem getNeighbors_eq_filter (x y : Int) (maze : MazeGenerator) :
    getNeighbors x y maze =
      ((([(x, y - 1), (x, y + 1), (x - 1, y), (x + 1, y)] : List Coord).filter
        fun c => maze.isValidPath c.1 c.2).map fun c => Node.mk c.1 c.2 0 0) ∧
    ((getNeighbors x y maze).map Node.pos).Sublist
      [(x, y - 1), (x, y + 1), (x - 1, y), (x + 1, y)] ∧
    ((getNeighbors x y maze).map Node.pos).Nodup ∧
    (∀ c : Coord, c ∈ (getNeighbors x y maze).map Node.pos ↔
      c ∈ ([(x, y - 1), (x, y + 1), (x - 1, y), (x + 1, y)] : List Coord) ∧
        maze.isValidPath c.1 c.2 = true) := by
  have hpred : ∀ c : Coord,
      (decide (c.1 ≥ 0) && decide (c.1 < maze.getWidth) &&
        decide (c.2 ≥ 0) && decide (c.2 < maze.getHeight) && maze.isValidPath c.1 c.2) =
      maze.isValidPath c.1 c.2 := by
    intro c
    by_cases hv : maze.isValidPath c.1 c.2 = true
    · have hr := isValidPath_range hv
      simp [hv, MazeGenerator.getWidth, MazeGenerator.getHeight, hr.1, hr.2.1, hr.2.2.1,
        hr.2.2.2]
    · simp [hv]
  have heq : getNeighbors x y maze =
      ((([(x, y - 1), (x, y + 1), (x - 1, y), (x + 1, y)] : List Coord).filter
        fun c => maze.isValidPath c.1 c.2).map fun c => Node.mk c.1 c.2 0 0) := by
    unfold getNeighbors
    simp only [hpred, List.map_cons, List.map_nil, add_zero]
    rfl
  have hpos : (getNeighbors x y maze).map Node.pos =
      ([(x, y - 1), (x, y + 1), (x - 1, y), (x + 1, y)] : List Coord).filter
        fun c => maze.isValidPath c.1 c.2 := by
    rw [heq, List.map_map]
    have : (Node.pos ∘ fun c : Coord => Node.mk c.1 c.2 0 0) = id := by
      funext c
      rfl
    rw [this, List.map_id]
  have hnd : ([(x, y - 1), (x, y + 1), (x - 1, y), (x + 1, y)] : List Coord).Nodup := by
    simp only [List.nodup_cons, List.mem_cons, List.mem_singleton, Prod.mk.injEq,
      List.not_mem_nil, List.nodup_nil, and_true, not_or, not_and]
    exact ⟨⟨fun _ => by omega, fun _ => by omega, fun _ => by omega, not_false⟩,
      ⟨fun _ => by omega, fun _ => by omega, not_false⟩, ⟨by omega, not_false⟩, not_false⟩
  refine ⟨heq, ?_, ?_, ?_⟩
  · rw [hpos]
    exact List.filter_sublist _
  · rw [hpos]
    exact hnd.sublist (List.filter_sublist _)
  · intro c
    rw [hpos, List.mem_filter]

/-- C29: a player placed by `initialize` on a traversable cell is on a
traversable cell after every sequence of `move` and `reset` calls on the same
maze. -/
theorem player_stays_on_path (maze : MazeGenerator) (p0 : Player) (sx sy : Int)
    (calls : List PlayerCall) (h : maze.isValidPath sx sy = true) :
    maze.isValidPath ((p0.initialise sx sy).runCalls maze calls).getX
      ((p0.initialise sx sy).runCalls maze calls).getY = true :=
  runCalls_valid maze calls (p0.initialise sx sy) h h

/-- Witness for C29 on the 3×3 corridor grid: right, down (blocked), reset,
right. -/
theorem player_stays_on_path_witness :
    corridorGrid.isValidPath
      ((Player.new.initialise 1 1).runCalls corridorGrid
        [PlayerCall.move 'd', PlayerCall.move 's', PlayerCall.reset, PlayerCall.move 'D']).getX
      ((Player.new.initialise 1 1).runCalls corridorGrid
        [PlayerCall.move 'd', PlayerCall.move 's', PlayerCall.reset, PlayerCall.move 'D']).getY
      = true :=
  player_stays_on_path corridorGrid Player.new 1 1
    [PlayerCall.move 'd', PlayerCall.move 's', PlayerCall.reset, PlayerCall.move 'D']
    (by decide)

/-- C30: after `initialize sx sy` and any sequence of `move` and `reset` calls
the history has `getMoves + 1` entries, starts with `(sx, sy)`, ends with the
current position, and consecutive entries differ by 1 in exactly one
coordinate; a `reset` then leaves the history `[(sx, sy)]` and the counter 0. -/
theorem history_consistent (maze : MazeGenerator) (p0 : Player) (sx sy : Int)
    (calls : List PlayerCall) :
    (((p0.initialise sx sy).runCalls maze calls).getMoveHistory.length : Int) =
      ((p0.initialise sx sy).runCalls maze calls).getMoves + 1 ∧
    ((p0.initialise sx sy).runCalls maze calls).getMoveHistory.head? = some (sx, sy) ∧
    ((p0.initialise sx sy).runCalls maze calls).getMoveHistory.getLast? =
      some (((p0.initialise sx sy).runCalls maze calls).getX,
        ((p0.initialise sx sy).runCalls maze calls).getY) ∧
    ((p0.initialise sx sy).runCalls maze calls).getMoveHistory.Chain' Adjacent ∧
    (((p0.initialise sx sy).runCalls maze calls).reset).getMoveHistory = [(sx, sy)] ∧
    (((p0.initialise sx sy).runCalls maze calls).reset).getMoves = 0 := by
  obtain ⟨h1, h2, h3, h4, h5, h6⟩ := runCalls_history maze sx sy calls (p0.initialise sx sy)
    rfl rfl (by simp [Player.initialise, Player.addToHistory, Player.clearHistory])
    (by simp [Player.initialise, Player.addToHistory, Player.clearHistory])
    (by simp [Player.initialise, Player.addToHistory, Player.clearHistory])
    (by simp [Player.initialise, Player.addToHistory, Player.clearHistory])
  refine ⟨h3, h4, h5, h6, ?_, rfl⟩
  simp [Player.reset, Player.addToHistory, Player.clearHistory, Player.getMoveHistory, h1, h2]

end MazeRunner

namespace MazeRunner

/-! ## The final score (C21) -/

/-- For a non-negative dividend the quotient does not grow with the divisor. -/
theorem ediv_antitone_of_nonneg (a m m' : Int) (ha : 0 ≤ a) (hm : 0 < m) (hmm : m ≤ m') :
    a / m' ≤ a / m := by
  rw [Int.le_ediv_iff_mul_le hm]
  have hq : 0 ≤ a / m' := Int.ediv_nonneg ha (by omega)
  have h1 : a / m' * m ≤ a / m' * m' := Int.mul_le_mul_of_nonneg_left hmm hq
  have h2 : a / m' * m' ≤ a := Int.ediv_mul_le a (by omega)
  omega

/-- Closed form of `calculateEfficiency` on its intended range. -/
theorem calculateEfficiency_of_pos (p s : Int) (hp : 0 < p) (hs : 0 ≤ s)
    (hr : 100 * s ≤ INT_MAX) :
    GameManager.calculateEfficiency p s = min 100 (100 * s / p) := by
  unfold INT_MAX at hr
  unfold GameManager.calculateEfficiency
  by_cases hz : s = 0
  · rw [if_pos (Or.inr hz), hz]
    simp
  · rw [if_neg (by omega), toInt32_of_range _ (by omega) (by omega),
      Int.tdiv_eq_ediv (by omega) (by omega), mul_comm]

/-- On its intended range the efficiency lies between 0 and 100. -/
theorem calculateEfficiency_range (p s : Int) (hp : 0 ≤ p) (hs : 0 ≤ s)
    (hr : 100 * s ≤ INT_MAX) :
    0 ≤ GameManager.calculateEfficiency p s ∧ GameManager.calculateEfficiency p s ≤ 100 := by
  by_cases hz : p = 0
  · have : GameManager.calculateEfficiency p s = 0 := by
      unfold GameManager.calculateEfficiency
      rw [if_pos (Or.inl hz)]
    rw [this]
    exact ⟨le_refl _, by decide⟩
  · rw [calculateEfficiency_of_pos p s (by omega) hs hr]
    have hq : 0 ≤ 100 * s / p := Int.ediv_nonneg (by omega) (by omega)
    exact ⟨le_min (by decide : (0 : Int) ≤ 100) hq, min_le_left (100 : Int) _⟩

/-- With every value in the range of `int`, `endGame` is the plain sum of its
three parts. -/
theorem endGame_eq (m t s : Int) (hs : 0 ≤ s) (hr : 100 * s ≤ INT_MAX) (hm : 0 ≤ m)
    (hm' : m ≤ INT_MAX) (ht : 0 ≤ t) (ht' : t ≤ INT_MAX) :
    GameManager.endGame m t s =
      10 * GameManager.calculateEfficiency m s + max 0 (1000 - t) + max 0 (500 - m) := by
  obtain ⟨e0, e1⟩ := calculateEfficiency_range m s hm hs hr
  unfold INT_MAX at hm' ht'
  unfold GameManager.endGame
  simp only
  generalize GameManager.calculateEfficiency m s = e at e0 e1
  rw [toInt32_of_range t (by omega) (by omega),
    toInt32_of_range (1000 - t) (by omega) (by omega),
    toInt32_of_range (500 - m) (by omega) (by omega),
    toInt32_of_range (e * 10) (by omega) (by omega),
    toInt32_of_range (e * 10 + max 0 (1000 - t)) (by omega) (by omega),
    toInt32_of_range _ (by omega) (by omega)]
  omega

/-- C21, as stated, fails: with an optimum of 5 and no time taken, one move
scores more than no move (the efficiency of no move is 0); and with a negative
optimum two moves score more than one. -/
theorem endGame_not_antitone :
    GameManager.endGame 0 0 5 < GameManager.endGame 1 0 5 ∧
    GameManager.endGame 1 0 (-1) < GameManager.endGame 2 0 (-1) := by
  decide

/-- C21, amended: for a fixed optimum `s ≥ 0` with `100 · s` in the range of
`int` and non-negative `moves` and `timeTaken` in that range, `endGame` returns
`10 · calculateEfficiency moves s + max 0 (1000 − timeTaken) + max 0 (500 − moves)`;
the score never increases when `timeTaken` increases, and never increases when
`moves` increases from a value of at least 1. -/
theorem endGame_antitone (s m m' t t' : Int) (hs : 0 ≤ s) (hr : 100 * s ≤ INT_MAX)
    (hm : 0 ≤ m) (hmm : m ≤ m') (hm' : m' ≤ INT_MAX)
    (ht : 0 ≤ t) (htt : t ≤ t') (ht' : t' ≤ INT_MAX) :
    GameManager.endGame m t s =
      10 * GameManager.calculateEfficiency m s + max 0 (1000 - t) + max 0 (500 - m) ∧
    GameManager.endGame m t' s ≤ GameManager.endGame m t s ∧
    (1 ≤ m → GameManager.endGame m' t s ≤ GameManager.endGame m t s) ∧
    (1 ≤ m → GameManager.endGame m' t' s ≤ GameManager.endGame m t s) := by
  have e1 := endGame_eq m t s hs hr hm (by omega) ht (by omega)
  have e2 := endGame_eq m t' s hs hr hm (by omega) (by omega) ht'
  have e3 := endGame_eq m' t s hs hr (by omega) hm' ht (by omega)
  have e4 := endGame_eq m' t' s hs hr (by omega) hm' (by omega) ht'
  have heff : 1 ≤ m →
      GameManager.calculateEfficiency m' s ≤ GameManager.calculateEfficiency m s := by
    intro h1
    rw [calculateEfficiency_of_pos m' s (by omega) hs hr,
      calculateEfficiency_of_pos m s (by omega) hs hr]
    exact min_le_min (le_refl _) (ediv_antitone_of_nonneg _ m m' (by omega) (by omega) hmm)
  refine ⟨e1, ?_, ?_, ?_⟩
  · rw [e1, e2]
    omega
  · intro h1
    have := heff h1
    rw [e1, e3]
    omega
  · intro h1
    have := heff h1
    rw [e1, e4]
    omega

/-- Witness for the amended C21: optimum 5, from 6 moves in 10 seconds to 8
moves in 20 seconds. -/
theorem endGame_antitone_witness :
    GameManager.endGame 8 20 5 ≤ GameManager.endGame 6 10 5 :=
  (endGame_antitone 5 6 8 10 20 (by decide) (by decide) (by decide) (by decide) (by decide)
    (by decide) (by decide) (by decide)).2.2.2 (by decide)

end MazeRunner

namespace MazeRunner

open AIPathfinder MazeGenerator

/-! ## Wall lattice and uniqueness of the route on a generated maze (C24, C26) -/

/-- Under the carving invariant, the cells with both coordinates even and the
cells of the outer border are Wall. -/
theorem carved_lattice_wall (w h : Int) (hw : w % 2 = 1) (hh : h % 2 = 1) (s : CarveState)
    (hI : CarveInv w h s) (x y : Int) (hr : InRange s.grid x y)
    (hxy : (x % 2 = 0 ∧ y % 2 = 0) ∨ x = 0 ∨ x = w - 1 ∨ y = 0 ∨ y = h - 1) :
    s.grid.cellAt x y = '#' := by
  rcases hI.marks x y hr with hopen | hwall
  · exfalso
    have hne := hI.no_even x y hr hopen
    have hends := hI.ends x y hr hopen
    by_cases hx : x % 2 = 0
    · have hy : y % 2 = 1 := by omega
      rcases hxy with h0 | h0 | h0 | h0 | h0
      · omega
      · have := (hends (x - 1, y) (Or.inr ⟨rfl, Or.inl (by simp)⟩) (by simp only; omega) hy).1
        unfold IsNode at this
        simp only at this
        omega
      · have := (hends (x + 1, y) (Or.inr ⟨rfl, Or.inr rfl⟩) (by simp only; omega) hy).1
        unfold IsNode at this
        simp only at this
        omega
      · omega
      · omega
    · have hx1 : x % 2 = 1 := by omega
      rcases hxy with h0 | h0 | h0 | h0 | h0
      · omega
      · omega
      · omega
      · have := (hends (x, y - 1) (Or.inl ⟨rfl, Or.inl (by simp)⟩) hx1 (by simp only; omega)).1
        unfold IsNode at this
        simp only at this
        omega
      · have := (hends (x, y + 1) (Or.inl ⟨rfl, Or.inr rfl⟩) hx1 (by simp only; omega)).1
        unfold IsNode at this
        simp only at this
        omega
  · exact hwall

/-- C26: in every maze produced by `generateMaze` (odd dimensions at least 3,
any draws) every cell with both coordinates even is Wall and every cell of the
outer border is Wall. -/
theorem generateMaze_lattice (m : MazeGenerator) (hwf : WellFormed m)
    (hw : m.width % 2 = 1) (hh : m.height % 2 = 1) (h3w : 3 ≤ m.width) (h3h : 3 ≤ m.height)
    (fuel : Nat) (rand : Nat → Nat) (hfuel : 2 * nodeCount m.width m.height ≤ fuel) :
    ∃ m', generateMaze fuel rand m = some m' ∧ m'.width = m.width ∧ m'.height = m.height ∧
      (∀ x y, InRange m' x y → x % 2 = 0 → y % 2 = 0 → m'.cellAt x y = '#') ∧
      (∀ x y, InRange m' x y → (x = 0 ∨ x = m'.width - 1 ∨ y = 0 ∨ y = m'.height - 1) →
        m'.cellAt x y = '#') := by
  obtain ⟨s, m', -, hgen, hI, -, -, hw', hh', hcell⟩ :=
    generateMaze_spec m hwf hw hh h3w h3h fuel rand hfuel
  have key : ∀ x y, InRange m' x y →
      ((x % 2 = 0 ∧ y % 2 = 0) ∨ x = 0 ∨ x = m.width - 1 ∨ y = 0 ∨ y = m.height - 1) →
      m'.cellAt x y = '#' := by
    intro x y hr hxy
    have hrm : InRange m x y := by
      unfold InRange at hr ⊢
      rw [← hw', ← hh']
      exact hr
    have hrs : InRange s.grid x y := by
      unfold InRange
      rw [hI.width_eq, hI.height_eq]
      exact hrm
    rw [hcell x y hrm, if_neg, if_neg]
    · exact carved_lattice_wall m.width m.height hw hh s hI x y hrs hxy
    · rintro ⟨e1, e2⟩
      unfold InRange at hrm
      rcases hxy with h0 | h0 | h0 | h0 | h0 <;> omega
    · rintro ⟨e1, e2⟩
      rcases hxy with h0 | h0 | h0 | h0 | h0 <;> omega
  refine ⟨m', hgen, hw', hh', fun x y hr hx hy => key x y hr (Or.inl ⟨hx, hy⟩), ?_⟩
  intro x y hr hb
  rw [hw', hh'] at hb
  exact key x y hr (Or.inr hb)

/-- Witness for C26 on the 5×5 grid of the constructor with the draws
`0, 1, 2, …`. -/
theorem generateMaze_lattice_witness :
    ∃ m', generateMaze 8 (fun n => n) (MazeGenerator.new 5 5) = some m' ∧
      m'.width = (MazeGenerator.new 5 5).width ∧ m'.height = (MazeGenerator.new 5 5).height ∧
      (∀ x y, InRange m' x y → x % 2 = 0 → y % 2 = 0 → m'.cellAt x y = '#') ∧
      (∀ x y, InRange m' x y → (x = 0 ∨ x = m'.width - 1 ∨ y = 0 ∨ y = m'.height - 1) →
        m'.cellAt x y = '#') :=
  generateMaze_lattice (MazeGenerator.new 5 5) (new_wf 5 5) (by decide) (by decide)
    (by decide) (by decide) 8 (fun n => n) (by decide)

end MazeRunner

namespace MazeRunner

open MazeGenerator

/-! ## Each carving node is discovered once (C25) -/

/-- An element of a repetition-free list occurs in it exactly once. -/
theorem count_eq_one_of_nodup {α : Type} [BEq α] [LawfulBEq α] (a : α) :
    ∀ l : List α, l.Nodup → a ∈ l → l.count a = 1 := by
  intro l
  induction l with
  | nil => intro _ h; simp at h
  | cons b t ih =>
    intro hnd hmem
    rw [List.nodup_cons] at hnd
    rw [List.count_cons]
    rcases List.mem_cons.1 hmem with h | h
    · subst h
      have : List.count a t = 0 := List.count_eq_zero.2 hnd.1
      simp [this]
    · have hne : (b == a) = false := by
        rw [beq_eq_false_iff_ne]
        intro e
        rw [e] at hnd
        exact hnd.1 h
      rw [ih hnd.2 h, hne]
      simp

/-- What one iteration of the carving loop does to the explored mask: an
iteration that leaves or pops changes nothing and discovers nothing; a carving
iteration discovers one unexplored cell in range and marks exactly it. -/
theorem carveStep_chosen (w h : Int) (rand : Nat → Nat) (s : CarveState)
    (hI : CarveInv w h s) :
    (∀ r, carveStep rand s = Sum.inl r → carveChosen rand s = [] ∧ r = s) ∧
    (∀ s', carveStep rand s = Sum.inr s' →
      (carveChosen rand s = [] ∧ s'.grid = s.grid) ∨
      ∃ c : Cell, carveChosen rand s = [c] ∧ InRange s.grid c.1 c.2 ∧
        s.grid.visitedAt c.1 c.2 = false ∧
        ∀ x y, InRange s.grid x y →
          s'.grid.visitedAt x y = if x = c.1 ∧ y = c.2 then true else s.grid.visitedAt x y) := by
  unfold carveStep carveChosen
  cases hs : s.cellStack with
  | nil =>
    simp
  | cons current rest =>
    simp only
    by_cases hne : (s.grid.getUnvisitedNeighbors current.1 current.2).isEmpty = true
    · rw [if_pos hne, if_pos hne]
      refine ⟨fun r hr => by simp at hr, fun s' hs' => Or.inl ⟨rfl, ?_⟩⟩
      simp only [Sum.inr.injEq] at hs'
      rw [← hs']
    · rw [if_neg hne, if_neg hne]
      refine ⟨fun r hr => by simp at hr, fun s' hs' => Or.inr ?_⟩
      simp only [Sum.inr.injEq] at hs'
      have hnil : s.grid.getUnvisitedNeighbors current.1 current.2 ≠ [] := by
        intro e
        rw [e] at hne
        simp at hne
      have hmem := getD_mod_mem (s.grid.getUnvisitedNeighbors current.1 current.2)
        (rand s.draws) (0, 0) hnil
      generalize (s.grid.getUnvisitedNeighbors current.1 current.2).getD
        (rand s.draws % (s.grid.getUnvisitedNeighbors current.1 current.2).length) (0, 0) =
        chosen at hmem hs'
      obtain ⟨-, hr, hv⟩ := (mem_getUnvisitedNeighbors _ _ _ _).1 hmem
      refine ⟨chosen, rfl, hr, hv, fun x y hxy => ?_⟩
      rw [← hs']
      simp only [removeWall, visitedAt_setCell]
      exact visitedAt_setVisited s.grid chosen.1 chosen.2 x y true hI.wf hr hxy.1 hxy.2.2.1

/-- Along the carving loop from a state satisfying the invariant: the cells
discovered from there on are pairwise different, in range and unexplored in
that state, and the final explored mask is the mask of that state together with
these cells. -/
theorem carve_trace_explored (w h : Int) (hw : w % 2 = 1) (hh : h % 2 = 1)
    (rand : Nat → Nat) :
    ∀ (fuel : Nat) (s r : CarveState), CarveInv w h s →
      runLoop (carveStep rand) fuel s = some r →
      (carveChosenFrom rand fuel s).Nodup ∧
      (∀ c ∈ carveChosenFrom rand fuel s,
        InRange s.grid c.1 c.2 ∧ s.grid.visitedAt c.1 c.2 = false) ∧
      (∀ x y, InRange s.grid x y →
        (r.grid.visitedAt x y = true ↔
          s.grid.visitedAt x y = true ∨ (x, y) ∈ carveChosenFrom rand fuel s)) := by
  intro fuel
  induction fuel with
  | zero =>
    intro s r _ hrun
    simp [runLoop] at hrun
  | succ k ih =>
    intro s r hI hrun
    obtain ⟨hleft, hcont⟩ := carveStep_chosen w h rand s hI
    cases hs : carveStep rand s with
    | inl r' =>
      obtain ⟨hch, hr'⟩ := hleft r' hs
      have hrs : r = s := by
        simp only [runLoop, hs, Option.some.injEq] at hrun
        rw [← hrun, hr']
      have hD : carveChosenFrom rand (k + 1) s = [] := by
        simp [carveChosenFrom, loopTrace, hs, hch]
      rw [hD, hrs]
      simp
    | inr s' =>
      have hI' := carveStep_inv w h hw hh rand s s' hI hs
      have hrun' : runLoop (carveStep rand) k s' = some r := by
        simpa only [runLoop, hs] using hrun
      obtain ⟨ihnd, ihnew, ihfin⟩ := ih s' r hI' hrun'
      have hD : carveChosenFrom rand (k + 1) s =
          carveChosen rand s ++ carveChosenFrom rand k s' := by
        simp [carveChosenFrom, loopTrace, hs]
      have hrange : ∀ x y, InRange s'.grid x y ↔ InRange s.grid x y := by
        intro x y
        unfold InRange
        rw [hI.width_eq, hI.height_eq, hI'.width_eq, hI'.height_eq]
      rcases hcont s' hs with ⟨hch, hg⟩ | ⟨c, hch, hcr, hcv, hvis⟩
      · rw [hD, hch, List.nil_append]
        rw [hg] at ihnew ihfin
        exact ⟨ihnd, ihnew, ihfin⟩
      · have hcs' : s'.grid.visitedAt c.1 c.2 = true := by
          rw [hvis c.1 c.2 hcr, if_pos ⟨rfl, rfl⟩]
        rw [hD, hch]
        refine ⟨?_, ?_, ?_⟩
        · rw [List.singleton_append, List.nodup_cons]
          refine ⟨fun hmem => ?_, ihnd⟩
          have := (ihnew c hmem).2
          rw [hcs'] at this
          exact absurd this (by decide)
        · intro d hd
          rcases List.mem_append.1 hd with hd | hd
          · rw [List.mem_singleton] at hd
            rw [hd]
            exact ⟨hcr, hcv⟩
          · obtain ⟨hdr, hdv⟩ := ihnew d hd
            have hdr' := (hrange _ _).1 hdr
            refine ⟨hdr', ?_⟩
            rw [hvis d.1 d.2 hdr'] at hdv
            by_cases hdc : d.1 = c.1 ∧ d.2 = c.2
            · rw [if_pos hdc] at hdv
              exact absurd hdv (by decide)
            · rw [if_neg hdc] at hdv
              exact hdv
        · intro x y hxy
          rw [ihfin x y ((hrange _ _).2 hxy), hvis x y hxy]
          simp only [List.singleton_append, List.mem_cons]
          by_cases hxc : x = c.1 ∧ y = c.2
          · rw [if_pos hxc]
            have : (x, y) = c := by
              obtain ⟨c1, c2⟩ := c
              simp only at hxc
              rw [hxc.1, hxc.2]
            simp [this]
          · rw [if_neg hxc]
            have : (x, y) ≠ c := by
              intro e
              rw [← e] at hxc
              exact hxc ⟨rfl, rfl⟩
            simp [this]

/-- In the state in which the carving loop is entered only (1,1) is explored. -/
theorem carveInit_explored (m : MazeGenerator) (hwf : WellFormed m) (h3w : 3 ≤ m.width)
    (h3h : 3 ≤ m.height) (x y : Int) (hr : InRange m x y) :
    (carveInit m).grid.visitedAt x y = true ↔ x = 1 ∧ y = 1 := by
  obtain ⟨cwf, cw, ch, ccells⟩ := clearCells_spec m hwf
  have hr11 : InRange m.clearCells 1 1 := by
    unfold InRange
    rw [cw, ch]
    omega
  have : (carveInit m).grid.visitedAt x y =
      if x = 1 ∧ y = 1 then true else m.clearCells.visitedAt x y := by
    simp only [carveInit, visitedAt_setCell]
    exact visitedAt_setVisited m.clearCells 1 1 x y true cwf hr11 hr.1 hr.2.2.1
  rw [this]
  by_cases hc : x = 1 ∧ y = 1
  · rw [if_pos hc]
    simp [hc]
  · rw [if_neg hc, (ccells x y hr).2]
    simp [hc]

/-- The Start and Exit markers leave the explored mask as the carving loop left
it. -/
theorem generateMaze_explored (fuel : Nat) (rand : Nat → Nat) (m : MazeGenerator)
    (s : CarveState) (m' : MazeGenerator) (hs : carveMaze fuel rand m = some s)
    (hgen : generateMaze fuel rand m = some m') (x y : Int) :
    m'.visitedAt x y = s.grid.visitedAt x y := by
  unfold generateMaze at hgen
  rw [hs] at hgen
  simp only [Option.some.injEq] at hgen
  rw [← hgen]
  unfold setExitPosition setStartPosition
  split <;> split <;> rfl

/-- C25: on a grid of odd dimensions at least 3 and for every sequence of
draws, the list of cells that `generateMaze` marks explored and pushes as newly
discovered holds every carving node exactly once and nothing else; when the
stack has emptied the explored mask is true exactly at the carving nodes, and
every carving node is a non-wall, traversable cell of the finished maze. -/
theorem carve_discovers_nodes_once (m : MazeGenerator) (hwf : WellFormed m)
    (hw : m.width % 2 = 1) (hh : m.height % 2 = 1) (h3w : 3 ≤ m.width) (h3h : 3 ≤ m.height)
    (fuel : Nat) (rand : Nat → Nat) (hfuel : 2 * nodeCount m.width m.height ≤ fuel) :
    ∃ s m', carveMaze fuel rand m = some s ∧ s.cellStack = [] ∧
      generateMaze fuel rand m = some m' ∧
      (∀ c, IsNode m.width m.height c → (carveDiscovered fuel rand m).count c = 1) ∧
      (∀ c ∈ carveDiscovered fuel rand m, IsNode m.width m.height c) ∧
      (carveDiscovered fuel rand m).Nodup ∧
      (∀ x y, InRange m x y →
        (m'.visitedAt x y = true ↔ IsNode m.width m.height (x, y))) ∧
      (∀ c, IsNode m.width m.height c →
        m'.cellAt c.1 c.2 ≠ '#' ∧ m'.isValidPath c.1 c.2 = true) := by
  obtain ⟨s, m', hs, hgen, hI, hstack, -, -, -, hpath, -, -⟩ :=
    generateMaze_cells m hwf hw hh h3w h3h fuel rand hfuel
  have hinit := carveInit_inv m hwf h3w h3h
  obtain ⟨hnd, hnew, hfin⟩ :=
    carve_trace_explored m.width m.height hw hh rand fuel (carveInit m) s hinit hs
  have hri : ∀ x y, InRange (carveInit m).grid x y ↔ InRange m x y := by
    intro x y
    unfold InRange
    rw [hinit.width_eq, hinit.height_eq]
  have hrs : ∀ x y, InRange s.grid x y ↔ InRange m x y := by
    intro x y
    unfold InRange
    rw [hI.width_eq, hI.height_eq]
  have hnode_range : ∀ c : Coord, IsNode m.width m.height c → InRange m c.1 c.2 := by
    intro c hc
    unfold IsNode at hc
    unfold InRange
    omega
  have hnode11 : IsNode m.width m.height (1, 1) := by
    unfold IsNode
    simp only
    omega
  -- the explored mask at the end
  have hmask : ∀ x y, InRange m x y →
      (s.grid.visitedAt x y = true ↔ IsNode m.width m.height (x, y)) := by
    intro x y hr
    constructor
    · intro hv
      exact hI.vis_node x y ((hrs _ _).2 hr) hv
    · intro hn
      exact all_nodes_visited _ _ s hI hstack (x, y) hn
  have hmem : ∀ c : Coord, c ∈ carveDiscovered fuel rand m ↔ IsNode m.width m.height c := by
    intro c
    unfold carveDiscovered
    rw [List.mem_cons]
    constructor
    · rintro (h | h)
      · rw [h]
        exact hnode11
      · have hr := (hnew c h).1
        have hv := (hfin c.1 c.2 hr).2 (Or.inr h)
        exact (hmask c.1 c.2 ((hri _ _).1 hr)).1 hv
    · intro hn
      have hr := hnode_range c hn
      have hv := (hmask c.1 c.2 hr).2 hn
      rcases (hfin c.1 c.2 ((hri _ _).2 hr)).1 hv with h | h
      · left
        have := (carveInit_explored m hwf h3w h3h c.1 c.2 hr).1 h
        obtain ⟨c1, c2⟩ := c
        simp only at this
        rw [this.1, this.2]
      · exact Or.inr h
  have hnodup : (carveDiscovered fuel rand m).Nodup := by
    unfold carveDiscovered
    rw [List.nodup_cons]
    refine ⟨fun h => ?_, hnd⟩
    have := (hnew (1, 1) h).2
    rw [hinit.origin] at this
    exact absurd this (by decide)
  refine ⟨s, m', hs, hstack, hgen, ?_, fun c hc => (hmem c).1 hc, hnodup, ?_, ?_⟩
  · intro c hc
    exact count_eq_one_of_nodup c _ hnodup ((hmem c).2 hc)
  · intro x y hr
    rw [generateMaze_explored fuel rand m s m' hs hgen]
    exact hmask x y hr
  · intro c hc
    have hpc : IsPathCell m' c := by
      rw [hpath]
      refine ⟨?_, Or.inl ?_⟩
      · rw [isValidCell_iff]
        exact (hrs _ _).2 (hnode_range c hc)
      · exact (hI.node_open c.1 c.2 hc).1 (all_nodes_visited _ _ s hI hstack c hc)
    refine ⟨?_, isValidPath_of_isPathCell m' c hpc⟩
    rcases hpc.2 with h | h | h <;> rw [h] <;> decide

/-- Witness for C25 on the 5×5 grid of the constructor with the draws
`0, 1, 2, …`. -/
theorem carve_discovers_nodes_once_witness :
    ∃ s m', carveMaze 8 (fun n => n) (MazeGenerator.new 5 5) = some s ∧ s.cellStack = [] ∧
      generateMaze 8 (fun n => n) (MazeGenerator.new 5 5) = some m' ∧
      (∀ c, IsNode (MazeGenerator.new 5 5).width (MazeGenerator.new 5 5).height c →
        (carveDiscovered 8 (fun n => n) (MazeGenerator.new 5 5)).count c = 1) ∧
      (∀ c ∈ carveDiscovered 8 (fun n => n) (MazeGenerator.new 5 5),
        IsNode (MazeGenerator.new 5 5).width (MazeGenerator.new 5 5).height c) ∧
      (carveDiscovered 8 (fun n => n) (MazeGenerator.new 5 5)).Nodup ∧
      (∀ x y, InRange (MazeGenerator.new 5 5) x y →
        (m'.visitedAt x y = true ↔
          IsNode (MazeGenerator.new 5 5).width (MazeGenerator.new 5 5).height (x, y))) ∧
      (∀ c, IsNode (MazeGenerator.new 5 5).width (MazeGenerator.new 5 5).height c →
        m'.cellAt c.1 c.2 ≠ '#' ∧ m'.isValidPath c.1 c.2 = true) :=
  carve_discovers_nodes_once (MazeGenerator.new 5 5) (new_wf 5 5) (by decide) (by decide)
    (by decide) (by decide) 8 (fun n => n) (by decide)

end MazeRunner

namespace MazeRunner

open MazeGenerator

/-! ## Markers written by the core (C27) -/

/-- A loop that returns, returns what its exits establish from the invariant. -/
theorem runLoop_inv {σ ρ : Type} (step : σ → ρ ⊕ σ) (Inv : σ → Prop) (Post : ρ → Prop)
    (hdone : ∀ s r, Inv s → step s = Sum.inl r → Post r)
    (hcont : ∀ s s', Inv s → step s = Sum.inr s' → Inv s') :
    ∀ fuel s r, Inv s → runLoop step fuel s = some r → Post r := by
  intro fuel
  induction fuel with
  | zero => intro s r _ h; simp [runLoop] at h
  | succ n ih =>
    intro s r hI h
    cases hs : step s with
    | inl r' =>
      simp only [runLoop, hs, Option.some.injEq] at h
      rw [← h]
      exact hdone s r' hI hs
    | inr s' =>
      simp only [runLoop, hs] at h
      exact ih s' r (hcont s s' hI hs) h

/-- A fold keeps what each of its steps keeps. -/
theorem foldl_keeps {α β : Type} (P : β → Prop) (f : β → α → β)
    (hf : ∀ b a, P b → P (f b a)) : ∀ (l : List α) (b : β), P b → P (l.foldl f b) := by
  intro l
  induction l with
  | nil => intro b hb; exact hb
  | cons a t ih => intro b hb; exact ih (f b a) (hf b a hb)

theorem getD_mem_or_default {α : Type} (l : List α) (i : Nat) (d : α) :
    l.getD i d ∈ l ∨ l.getD i d = d := by
  by_cases h : i < l.length
  · left
    rw [List.getD_eq_getElem _ _ h]
    exact List.getElem_mem h
  · right
    exact List.getD_eq_default _ _ (by omega)

/-- What holds of a marker also holds of `cellAt`, which reads Wall where the
array has no entry. -/
theorem cellAt_of_markers (m : MazeGenerator) (P : Char → Prop) (hwall : P '#')
    (hm : ∀ row ∈ m.maze, ∀ c ∈ row, P c) (x y : Int) : P (m.cellAt x y) := by
  unfold cellAt
  rcases getD_mem_or_default (m.maze.getD y.toNat []) x.toNat '#' with h | h
  · rcases getD_mem_or_default m.maze y.toNat [] with h' | h'
    · exact hm _ h' _ h
    · rw [h'] at h
      simp at h
  · rw [h]
    exact hwall

/-- Writing a core marker keeps the markers core markers and the stored
dimensions as they are. -/
theorem setCell_markers (w h : Int) (m : MazeGenerator) (x y : Int) (c : Char)
    (hc : c = '#' ∨ c = ' ' ∨ c = 'S' ∨ c = 'E')
    (hm : CoreMarkers m ∧ m.width = w ∧ m.height = h) :
    CoreMarkers (m.setCell x y c) ∧ (m.setCell x y c).width = w ∧
      (m.setCell x y c).height = h := by
  refine ⟨?_, hm.2.1, hm.2.2⟩
  intro row hrow ch hch
  unfold setCell at hrow
  simp only at hrow
  rcases List.mem_or_eq_of_mem_set hrow with h1 | h1
  · exact hm.1 row h1 ch hch
  · rw [h1] at hch
    rcases List.mem_or_eq_of_mem_set hch with h2 | h2
    · rcases getD_mem_or_default m.maze y.toNat [] with h3 | h3
      · exact hm.1 _ h3 ch h2
      · rw [h3] at h2
        simp at h2
    · rw [h2]
      exact hc

theorem setVisited_markers (w h : Int) (m : MazeGenerator) (x y : Int) (b : Bool)
    (hm : CoreMarkers m ∧ m.width = w ∧ m.height = h) :
    CoreMarkers (m.setVisited x y b) ∧ (m.setVisited x y b).width = w ∧
      (m.setVisited x y b).height = h := hm

theorem clearCells_markers (w h : Int) (m : MazeGenerator)
    (hm : CoreMarkers m ∧ m.width = w ∧ m.height = h) :
    CoreMarkers m.clearCells ∧ m.clearCells.width = w ∧ m.clearCells.height = h := by
  unfold clearCells
  refine foldl_keeps (fun g : MazeGenerator => CoreMarkers g ∧ g.width = w ∧ g.height = h)
    _ ?_ _ m hm
  intro g i hg
  refine foldl_keeps (fun g : MazeGenerator => CoreMarkers g ∧ g.width = w ∧ g.height = h)
    _ ?_ _ g hg
  intro g2 j hg2
  exact setVisited_markers w h _ _ _ false (setCell_markers w h g2 _ _ '#' (Or.inl rfl) hg2)

theorem removeWall_markers (w h : Int) (m : MazeGenerator) (x1 y1 x2 y2 : Int)
    (hm : CoreMarkers m ∧ m.width = w ∧ m.height = h) :
    CoreMarkers (m.removeWall x1 y1 x2 y2) ∧ (m.removeWall x1 y1 x2 y2).width = w ∧
      (m.removeWall x1 y1 x2 y2).height = h := by
  unfold removeWall
  exact setCell_markers w h _ _ _ ' ' (Or.inr (Or.inl rfl))
    (setCell_markers w h _ _ _ ' ' (Or.inr (Or.inl rfl))
      (setCell_markers w h _ _ _ ' ' (Or.inr (Or.inl rfl)) hm))

theorem setStartPosition_markers (w h : Int) (m : MazeGenerator) (x y : Int)
    (hm : CoreMarkers m ∧ m.width = w ∧ m.height = h) :
    CoreMarkers (m.setStartPosition x y) ∧ (m.setStartPosition x y).width = w ∧
      (m.setStartPosition x y).height = h := by
  unfold setStartPosition
  split
  · exact setCell_markers w h _ _ _ 'S' (Or.inr (Or.inr (Or.inl rfl))) hm
  · exact hm

theorem setExitPosition_markers (w h : Int) (m : MazeGenerator) (x y : Int)
    (hm : CoreMarkers m ∧ m.width = w ∧ m.height = h) :
    CoreMarkers (m.setExitPosition x y) ∧ (m.setExitPosition x y).width = w ∧
      (m.setExitPosition x y).height = h := by
  unfold setExitPosition
  split
  · exact setCell_markers w h _ _ _ 'E' (Or.inr (Or.inr (Or.inr rfl))) hm
  · exact hm

/-- A `generateMaze` that returns leaves core markers only and the stored
dimensions as they were, on any object whatever. -/
theorem generateMaze_markers_only (w h : Int) (m m' : MazeGenerator) (fuel : Nat)
    (rand : Nat → Nat) (hm : CoreMarkers m ∧ m.width = w ∧ m.height = h)
    (hgen : generateMaze fuel rand m = some m') :
    CoreMarkers m' ∧ m'.width = w ∧ m'.height = h := by
  unfold generateMaze at hgen
  cases hs : carveMaze fuel rand m with
  | none => rw [hs] at hgen; simp at hgen
  | some s =>
    rw [hs] at hgen
    simp only [Option.some.injEq] at hgen
    have hsg : CoreMarkers s.grid ∧ s.grid.width = w ∧ s.grid.height = h := by
      refine runLoop_inv (carveStep rand)
        (fun st => CoreMarkers st.grid ∧ st.grid.width = w ∧ st.grid.height = h)
        (fun st => CoreMarkers st.grid ∧ st.grid.width = w ∧ st.grid.height = h)
        ?_ ?_ fuel (carveInit m) s ?_ hs
      · intro st r hI hstep
        unfold carveStep at hstep
        cases hst : st.cellStack with
        | nil =>
          rw [hst] at hstep
          simp only [Sum.inl.injEq] at hstep
          rw [← hstep]
          exact hI
        | cons current rest =>
          rw [hst] at hstep
          simp only at hstep
          split at hstep <;> simp at hstep
      · intro st st' hI hstep
        unfold carveStep at hstep
        cases hst : st.cellStack with
        | nil =>
          rw [hst] at hstep
          simp at hstep
        | cons current rest =>
          rw [hst] at hstep
          simp only at hstep
          split at hstep
          · simp only [Sum.inr.injEq] at hstep
            rw [← hstep]
            exact hI
          · simp only [Sum.inr.injEq] at hstep
            rw [← hstep]
            exact removeWall_markers w h _ _ _ _ _ (setVisited_markers w h _ _ _ true hI)
      · exact setCell_markers w h _ 1 1 ' ' (Or.inr (Or.inl rfl))
          (setVisited_markers w h _ 1 1 true (clearCells_markers w h m hm))
    rw [← hgen]
    exact setExitPosition_markers w h _ _ _ (setStartPosition_markers w h _ 1 1 hsg)

/-- Every call that returns keeps core markers and dimensions. -/
theorem runGridCalls_markers (w h : Int) (calls : List GridCall) :
    ∀ m m' : MazeGenerator, (CoreMarkers m ∧ m.width = w ∧ m.height = h) →
      runGridCalls calls m = some m' → CoreMarkers m' ∧ m'.width = w ∧ m'.height = h := by
  induction calls with
  | nil =>
    intro m m' hm hrun
    simp only [runGridCalls, Option.some.injEq] at hrun
    rw [← hrun]
    exact hm
  | cons c cs ih =>
    intro m m' hm hrun
    unfold runGridCalls at hrun
    cases hc : c.run m with
    | none => rw [hc] at hrun; simp at hrun
    | some m1 =>
      rw [hc] at hrun
      simp only at hrun
      refine ih m1 m' ?_ hrun
      cases c with
      | generate fuel rand => exact generateMaze_markers_only w h m m1 fuel rand hm hc
      | setStart x y =>
        simp only [GridCall.run, Option.some.injEq] at hc
        rw [← hc]
        exact setStartPosition_markers w h m x y hm
      | setExit x y =>
        simp only [GridCall.run, Option.some.injEq] at hc
        rw [← hc]
        exact setExitPosition_markers w h m x y hm

/-- On a well-formed grid of odd dimensions at least 3 every sequence of calls
whose `generateMaze` calls have fuel returns. -/
theorem runGridCalls_total (w h : Int) (hw : w % 2 = 1) (hh : h % 2 = 1) (h3w : 3 ≤ w)
    (h3h : 3 ≤ h) (calls : List GridCall) :
    ∀ m : MazeGenerator, WellFormed m → m.width = w → m.height = h → EnoughFuel w h calls →
      ∃ m', runGridCalls calls m = some m' := by
  induction calls with
  | nil => intro m _ _ _ _; exact ⟨m, rfl⟩
  | cons c cs ih =>
    intro m hwf hmw hmh hfuel
    have hfuel' : EnoughFuel w h cs :=
      fun c' hc' fuel rand he => hfuel c' (List.mem_cons_of_mem _ hc') fuel rand he
    unfold runGridCalls
    cases c with
    | generate fuel rand =>
      have hf := hfuel _ (List.mem_cons_self _ _) fuel rand rfl
      subst hmw
      subst hmh
      obtain ⟨s, m1, -, hgen, -, -, hwf1, hw1, hh1, -⟩ :=
        generateMaze_spec m hwf hw hh h3w h3h fuel rand hf
      simp only [GridCall.run, hgen]
      exact ih m1 hwf1 hw1 hh1 hfuel'
    | setStart x y =>
      simp only [GridCall.run]
      refine ih _ ?_ ?_ ?_ hfuel'
      · unfold setStartPosition
        split
        · exact setCell_wf _ _ _ _ hwf
        · exact hwf
      · unfold setStartPosition
        split <;> exact hmw
      · unfold setStartPosition
        split <;> exact hmh
    | setExit x y =>
      simp only [GridCall.run]
      refine ih _ ?_ ?_ ?_ hfuel'
      · unfold setExitPosition
        split
        · exact setCell_wf _ _ _ _ hwf
        · exact hwf
      · unfold setExitPosition
        split <;> exact hmw
      · unfold setExitPosition
        split <;> exact hmh

theorem new_markers (width height : Int) : CoreMarkers (MazeGenerator.new width height) := by
  intro row hrow c hc
  simp only [MazeGenerator.new] at hrow
  rw [List.eq_of_mem_replicate hrow] at hc
  exact Or.inl (List.eq_of_mem_replicate hc)

/-- C27: every object reached from the constructor by a sequence of
`generateMaze`, `setStartPosition` and `setExitPosition` calls, with any
arguments and draws, holds only the markers `'#'`, `' '`, `'S'` and `'E'`, so
no overlay marker, and has the stored width and height of the constructor; and
on odd dimensions at least 3 every such sequence returns, given fuel. -/
theorem core_markers_only (width height : Int) (calls : List GridCall) :
    (∀ m', runGridCalls calls (MazeGenerator.new width height) = some m' →
      CoreMarkers m' ∧
      (∀ x y, m'.cellAt x y = '#' ∨ m'.cellAt x y = ' ' ∨ m'.cellAt x y = 'S' ∨
        m'.cellAt x y = 'E') ∧
      (∀ x y, m'.cellAt x y ≠ 'P' ∧ m'.cellAt x y ≠ '*' ∧ m'.cellAt x y ≠ 'B') ∧
      m'.width = (MazeGenerator.new width height).width ∧
      m'.height = (MazeGenerator.new width height).height) ∧
    (3 ≤ (MazeGenerator.new width height).width →
      3 ≤ (MazeGenerator.new width height).height →
      EnoughFuel (MazeGenerator.new width height).width
        (MazeGenerator.new width height).height calls →
      ∃ m', runGridCalls calls (MazeGenerator.new width height) = some m') := by
  constructor
  · intro m' hrun
    obtain ⟨hm, hw, hh⟩ := runGridCalls_markers _ _ calls (MazeGenerator.new width height) m'
      ⟨new_markers width height, rfl, rfl⟩ hrun
    have hcell : ∀ x y, m'.cellAt x y = '#' ∨ m'.cellAt x y = ' ' ∨ m'.cellAt x y = 'S' ∨
        m'.cellAt x y = 'E' :=
      fun x y => cellAt_of_markers m' (fun c => c = '#' ∨ c = ' ' ∨ c = 'S' ∨ c = 'E')
        (Or.inl rfl) hm x y
    refine ⟨hm, hcell, fun x y => ?_, hw, hh⟩
    rcases hcell x y with h | h | h | h <;> rw [h] <;> decide
  · intro h3w h3h hfuel
    have hodd : ∀ n : Int, (if Int.tmod n 2 = 0 then n + 1 else n) % 2 = 1 := by
      intro n
      by_cases hn : Int.tmod n 2 = 0
      · rw [if_pos hn]
        have := (tmod_two_eq_zero_iff n).1 hn
        omega
      · rw [if_neg hn]
        have : ¬ n % 2 = 0 := fun e => hn ((tmod_two_eq_zero_iff n).2 e)
        omega
    exact runGridCalls_total _ _ (hodd width) (hodd height) h3w h3h calls
      (MazeGenerator.new width height) (new_wf width height) rfl rfl hfuel

/-- Witness for C27: on the 5×5 grid, a generation, a Start and an Exit request
and a second generation return an object with core markers and dimensions
5×5. -/
theorem core_markers_only_witness :
    ∃ m', runGridCalls
        [GridCall.generate 8 (fun n => n), GridCall.setStart 3 3, GridCall.setExit 1 1,
          GridCall.generate 9 (fun n => 2 * n)] (MazeGenerator.new 5 5) = some m' ∧
      CoreMarkers m' ∧ m'.width = 5 ∧ m'.height = 5 := by
  obtain ⟨m', hm'⟩ := (core_markers_only 5 5
    [GridCall.generate 8 (fun n => n), GridCall.setStart 3 3, GridCall.setExit 1 1,
      GridCall.generate 9 (fun n => 2 * n)]).2 (by decide) (by decide) (by
      intro c hc fuel rand he
      simp only [List.mem_cons, List.mem_singleton, List.not_mem_nil, or_false] at hc
      rcases hc with rfl | rfl | rfl | rfl
      · injection he with h1 _
        rw [← h1]
        decide
      · cases he
      · cases he
      · injection he with h1 _
        rw [← h1]
        decide)
  obtain ⟨h1, -, -, h2, h3⟩ := (core_markers_only 5 5 _).1 m' hm'
  exact ⟨m', hm', h1, h2, h3⟩

end MazeRunner

namespace MazeRunner

open AIPathfinder

/-! ## Each coordinate enters the priority queue once (C22) -/

/-- The bag before a `pop` is the popped entry together with what is kept. -/
theorem popMin_perm {choice : Nat} {pq rest : List Node} {n : Node}
    (h : popMin choice pq = some (n, rest)) : pq.Perm (n :: rest) := by
  unfold popMin at h
  simp only at h
  split at h
  · simp at h
  · rename_i i hi
    split at h
    · rename_i m hm
      simp only [Option.some.injEq, Prod.mk.injEq] at h
      obtain ⟨rfl, rfl⟩ := h
      have hlt : i < pq.length := by
        by_contra hge
        rw [List.getElem?_eq_none (by omega)] at hm
        simp at hm
      have hget : pq[i] = m := by
        rw [List.getElem?_eq_getElem hlt] at hm
        exact Option.some.inj hm
      have h1 : pq = pq.take i ++ m :: pq.drop (i + 1) := by
        rw [← hget, ← List.drop_eq_getElem_cons hlt, List.take_append_drop]
      have h2 : pq.eraseIdx i = pq.take i ++ pq.drop (i + 1) :=
        List.eraseIdx_eq_take_drop_succ pq i
      rw [h2]
      nth_rewrite 1 [h1]
      exact List.perm_middle
    · simp at h

/-- One relaxation keeps the queue invariant around the popped node; what it
pushes is a coordinate that is neither finalised nor waiting. -/
theorem relax_queue (cur nb : Node) (c : Int) (s : DijkstraState)
    (hq : DijQueueInv c s) (hc : distAt s.distances cur.pos = c)
    (hd : s.visited.find cur.pos ≠ none) :
    DijQueueInv c (relax cur s nb) ∧ distAt (relax cur s nb).distances cur.pos = c ∧
      (relax cur s nb).visited = s.visited ∧
      ∃ pushed : List Node, (relax cur s nb).pq = s.pq ++ pushed ∧
        ∀ n ∈ pushed, n.pos ∉ s.pq.map Node.pos ∧ s.visited.find n.pos = none := by
  by_cases h : s.visited.find nb.pos = none ∧
      distAt s.distances cur.pos + 1 < distAt s.distances nb.pos
  · obtain ⟨hv, hlt⟩ := h
    rw [relax_update cur nb s hv hlt]
    have hne : cur.pos ≠ nb.pos := by
      intro e
      rw [e] at hd
      exact hd hv
    have hnotin : nb.pos ∉ s.pq.map Node.pos := by
      intro hmem
      obtain ⟨n, hn, hnpos⟩ := List.mem_map.1 hmem
      have h1 := hq.cost n hn
      have h2 := (hq.band n hn).2
      rw [hnpos] at h1
      omega
    refine ⟨?_, ?_, rfl, [Node.mk nb.x nb.y (distAt s.distances cur.pos + 1) 0], rfl, ?_⟩
    · refine ⟨?_, ?_, ?_, ?_⟩
      · simp only [List.map_append, List.map_cons, List.map_nil]
        rw [List.nodup_append]
        refine ⟨hq.nodup, List.nodup_singleton _, ?_⟩
        intro a ha hb
        rw [List.mem_singleton] at hb
        rw [hb] at ha
        exact hnotin ha
      · intro n hn
        rcases List.mem_append.1 hn with hn | hn
        · exact hq.fresh n hn
        · rw [List.mem_singleton] at hn
          rw [hn]
          exact hv
      · intro n hn
        simp only
        rw [distAt_insert]
        rcases List.mem_append.1 hn with hn | hn
        · have : n.pos ≠ nb.pos := by
            intro e
            exact hnotin (e ▸ List.mem_map_of_mem Node.pos hn)
          rw [if_neg this]
          exact hq.cost n hn
        · rw [List.mem_singleton] at hn
          rw [hn]
          exact if_pos rfl
      · intro n hn
        rcases List.mem_append.1 hn with hn | hn
        · exact hq.band n hn
        · rw [List.mem_singleton] at hn
          rw [hn]
          simp only
          omega
    · simp only
      rw [distAt_insert, if_neg hne]
      exact hc
    · intro n hn
      rw [List.mem_singleton] at hn
      rw [hn]
      exact ⟨hnotin, hv⟩
  · rw [relax_skip_of_not cur nb s h]
    exact ⟨hq, hc, rfl, [], by simp, by simp⟩

/-- The neighbour loop keeps the queue invariant; what it pushes are
coordinates that were neither finalised nor waiting. -/
theorem relax_fold_queue (cur : Node) (c : Int) (nbs : List Node) :
    ∀ s : DijkstraState, DijQueueInv c s → distAt s.distances cur.pos = c →
      s.visited.find cur.pos ≠ none →
      DijQueueInv c (nbs.foldl (relax cur) s) ∧
      (nbs.foldl (relax cur) s).visited = s.visited ∧
      ∃ pushed : List Node, (nbs.foldl (relax cur) s).pq = s.pq ++ pushed ∧
        ∀ n ∈ pushed, n.pos ∉ s.pq.map Node.pos ∧ s.visited.find n.pos = none := by
  induction nbs with
  | nil =>
    intro s hq _ _
    exact ⟨hq, rfl, [], by simp, by simp⟩
  | cons a t ih =>
    intro s hq hc hd
    obtain ⟨hq1, hc1, hv1, p1, hp1, hn1⟩ := relax_queue cur a c s hq hc hd
    rw [List.foldl_cons]
    obtain ⟨hq2, hv2, p2, hp2, hn2⟩ := ih (relax cur s a) hq1 hc1 (by rw [hv1]; exact hd)
    refine ⟨hq2, by rw [hv2, hv1], p1 ++ p2, by rw [hp2, hp1, List.append_assoc], ?_⟩
    intro n hn
    rcases List.mem_append.1 hn with hn | hn
    · exact hn1 n hn
    · obtain ⟨h1, h2⟩ := hn2 n hn
      rw [hv1] at h2
      refine ⟨fun hmem => h1 ?_, h2⟩
      rw [hp1, List.map_append]
      exact List.mem_append_left _ hmem

/-- One iteration of `findPathDijkstra` under the queue invariant: the popped
entry is not finalised, and a continuing iteration keeps the invariant and
pushes only coordinates never pushed before. -/
theorem dijkstra_iter_queue (tie : Nat → Nat) (endX endY : Int) (maze : MazeGenerator)
    (L : Int) (s : DijkstraState) (hq : DijQueueInv L s) :
    dijkstraSkips tie s = false ∧
    (∀ r, dijkstraStep 0 tie endX endY maze s = Sum.inl r →
      dijkstraPushed tie endX endY maze s = []) ∧
    (∀ s', dijkstraStep 0 tie endX endY maze s = Sum.inr s' →
      (∃ L', DijQueueInv L' s') ∧
      ((dijkstraPushed tie endX endY maze s).map Node.pos).Nodup ∧
      (∀ n ∈ dijkstraPushed tie endX endY maze s, ¬ DijSeen s n.pos ∧ DijSeen s' n.pos) ∧
      (∀ c, DijSeen s c → DijSeen s' c)) := by
  cases hpop : popMin (tie s.pops) s.pq with
  | none =>
    refine ⟨by simp [dijkstraSkips, hpop], fun r hr => ?_, fun s' hs' => ?_⟩
    · unfold dijkstraPushed
      rw [hr]
    · simp [dijkstraStep, hpop] at hs'
  | some pr =>
    obtain ⟨current, rest⟩ := pr
    obtain ⟨hmem, hmin, -, hsub, hlen⟩ := popMin_some hpop
    have hperm := popMin_perm hpop
    have hfresh : s.visited.find current.pos = none := hq.fresh current hmem
    have hfresh' : s.visited.find (createKey current.x current.y) = none := hfresh
    have hnd : ((current :: rest).map Node.pos).Nodup :=
      ((hperm.map Node.pos).nodup_iff).1 hq.nodup
    rw [List.map_cons, List.nodup_cons] at hnd
    refine ⟨by simp [dijkstraSkips, hpop, hfresh'], fun r hr => ?_, fun s' hs' => ?_⟩
    · unfold dijkstraPushed
      rw [hr]
    · have hp : dijkstraPushed tie endX endY maze s = s'.pq.drop (s.pq.length - 1) := by
        unfold dijkstraPushed
        rw [hs']
      unfold dijkstraStep at hs'
      rw [hpop] at hs'
      simp only [ne_eq, hfresh', not_true_eq_false, if_false] at hs'
      by_cases hg : current.x = endX ∧ current.y = endY
      · rw [if_pos hg] at hs'
        simp at hs'
      · rw [if_neg hg] at hs'
        simp only [Sum.inr.injEq] at hs'
        obtain ⟨s1, hs1⟩ : ∃ s1 : DijkstraState, s1 =
            { s with pq := rest, pops := s.pops + 1,
                     visited := s.visited.insert (createKey current.x current.y) true } :=
          ⟨_, rfl⟩
        rw [← hs1] at hs'
        have hq1 : DijQueueInv current.cost s1 := by
          rw [hs1]
          refine ⟨hnd.2, ?_, ?_, ?_⟩
          · intro n hn
            simp only
            rw [KeyMap.find_insert_ne]
            · exact hq.fresh n (hsub n hn)
            · intro e
              exact hnd.1 (List.mem_map.2 ⟨n, hn, e⟩)
          · intro n hn
            exact hq.cost n (hsub n hn)
          · intro n hn
            have h1 := hq.band n (hsub n hn)
            have h2 := hq.band current hmem
            have h3 := hmin n (hsub n hn)
            omega
        have hc1 : distAt s1.distances current.pos = current.cost := by
          rw [hs1]
          exact hq.cost current hmem
        have hd1 : s1.visited.find current.pos ≠ none := by
          rw [hs1]
          simp only
          rw [show current.pos = createKey current.x current.y from rfl,
            KeyMap.find_insert_self]
          simp
        obtain ⟨hq', hv', pushed, hpq, hnew⟩ :=
          relax_fold_queue current current.cost (getNeighbors current.x current.y maze)
            s1 hq1 hc1 hd1
        rw [hs'] at hq' hv' hpq
        have hs1pq : s1.pq = rest := by rw [hs1]
        have hs1v : s1.visited = s.visited.insert (createKey current.x current.y) true := by
          rw [hs1]
        rw [hs1pq] at hpq hnew
        rw [hs1v] at hv' hnew
        have hpe : dijkstraPushed tie endX endY maze s = pushed := by
          rw [hp, hpq, ← hlen]
          simp
        rw [hpe]
        have hnd' := hq'.nodup
        rw [hpq, List.map_append, List.nodup_append] at hnd'
        refine ⟨⟨_, hq'⟩, hnd'.2.1, ?_, ?_⟩
        · intro n hn
          obtain ⟨h1, h2⟩ := hnew n hn
          have hncur : n.pos ≠ createKey current.x current.y := by
            intro e
            rw [e, KeyMap.find_insert_self] at h2
            simp at h2
          rw [KeyMap.find_insert_ne _ _ _ _ hncur] at h2
          constructor
          · rintro (h | h)
            · exact h h2
            · have := (hperm.map Node.pos).subset h
              rw [List.map_cons, List.mem_cons] at this
              rcases this with h3 | h3
              · exact hncur h3
              · exact h1 h3
          · right
            rw [hpq, List.map_append]
            exact List.mem_append_right _ (List.mem_map_of_mem Node.pos hn)
        · rintro c (h | h)
          · left
            rw [hv', KeyMap.find_insert]
            split
            · simp
            · exact h
          · have := (hperm.map Node.pos).subset h
            rw [List.map_cons, List.mem_cons] at this
            rcases this with h3 | h3
            · left
              rw [hv', h3, show current.pos = createKey current.x current.y from rfl,
                KeyMap.find_insert_self]
              simp
            · right
              rw [hpq, List.map_append]
              exact List.mem_append_left _ h3

/-- Along the loop of `findPathDijkstra` from a state satisfying the queue
invariant: the coordinates pushed from there on are pairwise different and
never pushed before, and no iteration takes the skip branch. -/
theorem dijkstra_trace_queue (tie : Nat → Nat) (endX endY : Int) (maze : MazeGenerator) :
    ∀ (fuel : Nat) (s : DijkstraState) (L : Int), DijQueueInv L s →
      (dijkstraPushedFrom tie endX endY maze fuel s).Nodup ∧
      (∀ c ∈ dijkstraPushedFrom tie endX endY maze fuel s, ¬ DijSeen s c) ∧
      (∀ t ∈ loopTrace (dijkstraStep 0 tie endX endY maze) fuel s,
        dijkstraSkips tie t = false) := by
  intro fuel
  induction fuel with
  | zero =>
    intro s L _
    simp [dijkstraPushedFrom, loopTrace]
  | succ k ih =>
    intro s L hq
    obtain ⟨hskip, hleft, hcont⟩ := dijkstra_iter_queue tie endX endY maze L s hq
    cases hs : dijkstraStep 0 tie endX endY maze s with
    | inl r =>
      simp [dijkstraPushedFrom, loopTrace, hs, hleft r hs, hskip]
    | inr s' =>
      obtain ⟨⟨L', hq'⟩, hnd, hnew, hmono⟩ := hcont s' hs
      obtain ⟨ihnd, ihnew, ihskip⟩ := ih s' L' hq'
      have hD : dijkstraPushedFrom tie endX endY maze (k + 1) s =
          (dijkstraPushed tie endX endY maze s).map Node.pos ++
            dijkstraPushedFrom tie endX endY maze k s' := by
        simp only [dijkstraPushedFrom, loopTrace, hs, List.map_cons, List.flatten_cons,
          List.map_append]
        rfl
      rw [hD]
      refine ⟨?_, ?_, ?_⟩
      · rw [List.nodup_append]
        refine ⟨hnd, ihnd, ?_⟩
        intro c hc1 hc2
        obtain ⟨n, hn, rfl⟩ := List.mem_map.1 hc1
        exact ihnew _ hc2 (hnew n hn).2
      · intro c hc
        rcases List.mem_append.1 hc with hc | hc
        · obtain ⟨n, hn, rfl⟩ := List.mem_map.1 hc
          exact (hnew n hn).1
        · intro hseen
          exact ihnew c hc (hmono c hseen)
      · intro t ht
        simp only [loopTrace, hs, List.mem_cons] at ht
        rcases ht with rfl | ht
        · exact hskip
        · exact ihskip t ht

/-- The state in which the loop is entered satisfies the queue invariant. -/
theorem dijQueue_init (maze : MazeGenerator) (sx sy : Int) :
    DijQueueInv 0 (dijkstraInit sx sy maze) := by
  refine ⟨by simp [dijkstraInit], ?_, ?_, ?_⟩
  · intro n _
    simp [dijkstraInit, KeyMap.find_empty]
  · intro n hn
    simp only [dijkstraInit, List.mem_singleton] at hn
    rw [hn, dijkstraInit_dist]
    exact if_pos rfl
  · intro n hn
    simp only [dijkstraInit, List.mem_singleton] at hn
    rw [hn]
    simp

/-- C22: in `findPathDijkstra`, on every grid, for every start and end and every
order of popping entries of equal cost, the coordinates pushed onto the priority
queue (the start included) are pairwise different however long it runs, and no
iteration pops an entry whose coordinate is already finalised: the skip branch
is never taken. -/
theorem dijkstra_enqueues_once (maze : MazeGenerator) (startX startY endX endY : Int)
    (tie : Nat → Nat) (fuel : Nat) :
    (dijkstraEnqueued fuel tie startX startY endX endY maze).Nodup ∧
    (∀ s ∈ loopTrace (dijkstraStep 0 tie endX endY maze) fuel
        (dijkstraInit startX startY maze),
      dijkstraSkips tie s = false) := by
  obtain ⟨hnd, hnew, hskip⟩ := dijkstra_trace_queue tie endX endY maze fuel
    (dijkstraInit startX startY maze) 0 (dijQueue_init maze startX startY)
  refine ⟨?_, hskip⟩
  unfold dijkstraEnqueued
  rw [List.nodup_cons]
  refine ⟨fun hmem => hnew _ hmem (Or.inr ?_), hnd⟩
  simp [dijkstraInit, Node.pos]

end MazeRunner

namespace MazeRunner

open AIPathfinder

/-! ## Order of equal-cost entries in the priority queue (C23) -/

/-- C23, as stated, fails: the queue holds four entries of cost 1, pushed in the
order (1,1), (2,1), (3,1), (4,1). A pop yields (1,1); the next pop may yield
(3,1) while (2,1), pushed before it at the same cost, still waits. Nothing in
the source orders entries of equal cost; 1, 3, 2, 4 is the order in which the
`std::priority_queue` of libstdc++ yields four such entries. -/
theorem popMin_ties_not_fifo :
    popMin 0 tiedEntries =
      some (Node.mk 1 1 1 0, [Node.mk 2 1 1 0, Node.mk 3 1 1 0, Node.mk 4 1 1 0]) ∧
    popMin 1 [Node.mk 2 1 1 0, Node.mk 3 1 1 0, Node.mk 4 1 1 0] =
      some (Node.mk 3 1 1 0, [Node.mk 2 1 1 0, Node.mk 4 1 1 0]) := by
  decide

/-- C23, amended: whichever way the priority queue of `findPathDijkstra` settles
entries of equal cost, a pop of the non-empty queue yields an entry of least
cost and keeps every other entry; and where the least cost belongs to a single
entry, that entry is the one popped. -/
theorem popMin_least (choice : Nat) (pq : List Node) (hne : pq ≠ []) :
    ∃ (n : Node) (rest : List Node), popMin choice pq = some (n, rest) ∧ n ∈ pq ∧
      (∀ e ∈ pq, n.cost ≤ e.cost) ∧ pq.Perm (n :: rest) ∧
      ((∀ e ∈ pq, e.cost ≤ n.cost → e = n) →
        ∀ (choice' : Nat) (n' : Node) (rest' : List Node),
          popMin choice' pq = some (n', rest') → n' = n) := by
  cases hpop : popMin choice pq with
  | none => exact absurd (popMin_none hpop) hne
  | some pr =>
    obtain ⟨n, rest⟩ := pr
    obtain ⟨hmem, hmin, -, -, -⟩ := popMin_some hpop
    refine ⟨n, rest, rfl, hmem, hmin, popMin_perm hpop, ?_⟩
    intro huniq choice' n' rest' hpop'
    obtain ⟨hmem', hmin', -, -, -⟩ := popMin_some hpop'
    exact huniq n' hmem' (hmin' n hmem)

/-- Witness for the amended C23: a pop of the four entries of cost 1. -/
theorem popMin_least_witness :
    ∃ (n : Node) (rest : List Node), popMin 2 tiedEntries = some (n, rest) ∧
      n ∈ tiedEntries ∧ (∀ e ∈ tiedEntries, n.cost ≤ e.cost) ∧
      tiedEntries.Perm (n :: rest) ∧
      ((∀ e ∈ tiedEntries, e.cost ≤ n.cost → e = n) →
        ∀ (choice' : Nat) (n' : Node) (rest' : List Node),
          popMin choice' tiedEntries = some (n', rest') → n' = n) :=
  popMin_least 2 tiedEntries (by decide)

end MazeRunner

namespace MazeRunner

open MazeGenerator

/-! ## The exit test and the 3×3 grid (C31, C32) -/

/-- C31: on every maze left by `generateMaze` on a grid of odd dimensions at
least 5, `hasReachedExit` is true exactly for the player position
`(w − 2, h − 2)`, which is `getExitPosition`, whether the position is in range
or not; and at every position in range the two tests of `hasReachedExit`, the
cell holding `'E'` and the coordinates being the exit corner, agree. -/
theorem hasReachedExit_iff (m : MazeGenerator) (hwf : WellFormed m)
    (hw : m.width % 2 = 1) (hh : m.height % 2 = 1) (h5w : 5 ≤ m.width) (h5h : 5 ≤ m.height)
    (fuel : Nat) (rand : Nat → Nat) (hfuel : 2 * nodeCount m.width m.height ≤ fuel) :
    ∃ m', generateMaze fuel rand m = some m' ∧
      m'.getExitPosition = (m.width - 2, m.height - 2) ∧
      (∀ p : Player, p.hasReachedExit m' = true ↔ (p.getX, p.getY) = m'.getExitPosition) ∧
      (∀ x y, InRange m' x y →
        (m'.cellAt x y = 'E' ↔ (x = m'.getWidth - 2 ∧ y = m'.getHeight - 2))) := by
  obtain ⟨s, m', -, hgen, hI, -, -, hw', hh', hcell⟩ :=
    generateMaze_spec m hwf hw hh (by omega) (by omega) fuel rand hfuel
  have hE : ∀ x y, InRange m' x y →
      (m'.cellAt x y = 'E' ↔ (x = m.width - 2 ∧ y = m.height - 2)) := by
    intro x y hr
    have hrm : InRange m x y := by
      unfold InRange at hr ⊢
      rw [← hw', ← hh']
      exact hr
    have hrs : InRange s.grid x y := by
      unfold InRange
      rw [hI.width_eq, hI.height_eq]
      exact hrm
    rw [hcell x y hrm]
    by_cases h1 : x = 1 ∧ y = 1
    · rw [if_pos h1]
      constructor
      · intro h
        exact absurd h (by decide)
      · intro h
        omega
    · rw [if_neg h1]
      by_cases h2 : x = m.width - 2 ∧ y = m.height - 2
      · rw [if_pos h2]
        exact ⟨fun _ => h2, fun _ => rfl⟩
      · rw [if_neg h2]
        constructor
        · intro h
          rcases hI.marks x y hrs with h3 | h3
          · rw [h3] at h
            exact absurd h (by decide)
          · rw [h3] at h
            exact absurd h (by decide)
        · intro h
          exact absurd h h2
  have hexit : m'.getExitPosition = (m.width - 2, m.height - 2) := by
    unfold getExitPosition
    rw [hw', hh']
  refine ⟨m', hgen, hexit, ?_, ?_⟩
  · intro p
    rw [hexit]
    unfold Player.hasReachedExit Player.getX Player.getY
    simp only [getWidth, getHeight, Prod.mk.injEq]
    by_cases hr : p.y ≥ 0 ∧ p.y < m'.height ∧ p.x ≥ 0 ∧ p.x < m'.width
    · rw [if_pos hr]
      have hr' : InRange m' p.x p.y := ⟨hr.2.2.1, hr.2.2.2, hr.1, hr.2.1⟩
      by_cases hc : m'.cellAt p.x p.y = 'E'
      · rw [if_pos hc]
        exact ⟨fun _ => (hE p.x p.y hr').1 hc, fun _ => rfl⟩
      · rw [if_neg hc]
        simp only [Bool.and_eq_true, decide_eq_true_eq, hw', hh']
    · rw [if_neg hr]
      constructor
      · intro h
        exact absurd h (by decide)
      · intro h
        exfalso
        apply hr
        rw [hw', hh', h.1, h.2]
        omega
  · intro x y hr
    rw [show m'.getWidth = m.width from hw', show m'.getHeight = m.height from hh']
    exact hE x y hr

/-- Witness for C31 on the 5×5 grid of the constructor with the draws
`0, 1, 2, …`. -/
theorem hasReachedExit_iff_witness :
    ∃ m', generateMaze 8 (fun n => n) (MazeGenerator.new 5 5) = some m' ∧
      m'.getExitPosition =
        ((MazeGenerator.new 5 5).width - 2, (MazeGenerator.new 5 5).height - 2) ∧
      (∀ p : Player, p.hasReachedExit m' = true ↔ (p.getX, p.getY) = m'.getExitPosition) ∧
      (∀ x y, InRange m' x y →
        (m'.cellAt x y = 'E' ↔ (x = m'.getWidth - 2 ∧ y = m'.getHeight - 2))) :=
  hasReachedExit_iff (MazeGenerator.new 5 5) (new_wf 5 5) (by decide) (by decide)
    (by decide) (by decide) 8 (fun n => n) (by decide)

/-- C32: on a 3×3 grid `generateMaze` returns (two iterations suffice) a maze
with exactly one non-wall cell: (1,1) holds `'S'`, the other eight cells are
Wall and no cell holds `'E'`; the exit position is the start cell, where
`setExitPosition` finds `'S'` and writes nothing; `getStartPosition` and
`getExitPosition` both return (1,1). -/
theorem generateMaze_three_by_three (m : MazeGenerator) (hwf : WellFormed m)
    (hw3 : m.width = 3) (hh3 : m.height = 3) (fuel : Nat) (rand : Nat → Nat)
    (hfuel : 2 ≤ fuel) :
    ∃ m', generateMaze fuel rand m = some m' ∧ m'.width = 3 ∧ m'.height = 3 ∧
      (∀ x y, InRange m' x y → m'.cellAt x y = if x = 1 ∧ y = 1 then 'S' else '#') ∧
      (∀ x y, InRange m' x y → m'.cellAt x y ≠ 'E') ∧
      openCount m' = 1 ∧
      m'.setExitPosition (m'.width - 2) (m'.height - 2) = m' ∧
      m'.getStartPosition = (1, 1) ∧ m'.getExitPosition = (1, 1) := by
  have hnc : nodeCount m.width m.height = 1 := by
    rw [hw3, hh3]
    decide
  have hw : m.width % 2 = 1 := by rw [hw3]; decide
  have hh : m.height % 2 = 1 := by rw [hh3]; decide
  obtain ⟨s, m', -, hgen, hI, hstack, hw', hh', hcell, -, hopen, -⟩ :=
    generateMaze_cells m hwf hw hh (by omega) (by omega) fuel rand (by omega)
  have hV := visitedCount_eq_nodes _ _ s hI hstack
  have ho := hI.open_eq
  have hcells : ∀ x y, InRange m' x y →
      m'.cellAt x y = if x = 1 ∧ y = 1 then 'S' else '#' := by
    intro x y hr
    have hrm : InRange m x y := by
      unfold InRange at hr ⊢
      rw [← hw', ← hh']
      exact hr
    have hrs : InRange s.grid x y := by
      unfold InRange
      rw [hI.width_eq, hI.height_eq]
      exact hrm
    rw [hcell x y hrm]
    by_cases h1 : x = 1 ∧ y = 1
    · rw [if_pos h1, if_pos h1]
    · rw [if_neg h1, if_neg h1, if_neg (by rw [hw3, hh3]; exact h1)]
      refine carved_lattice_wall m.width m.height hw hh s hI x y hrs (Or.inr ?_)
      unfold InRange at hrm
      rw [hw3, hh3] at hrm ⊢
      omega
  have h11 : InRange m' 1 1 := by
    unfold InRange
    rw [hw', hh', hw3, hh3]
    decide
  refine ⟨m', hgen, by rw [hw', hw3], by rw [hh', hh3], hcells, ?_, by omega, ?_, rfl, ?_⟩
  · intro x y hr
    rw [hcells x y hr]
    split <;> decide
  · unfold setExitPosition
    rw [if_neg]
    rw [hw', hh', hw3, hh3]
    have : m'.cellAt (3 - 2) (3 - 2) = 'S' := by
      have := hcells 1 1 h11
      rw [if_pos ⟨rfl, rfl⟩] at this
      exact this
    rw [this]
    simp
  · unfold getExitPosition
    rw [hw', hh', hw3, hh3]
    rfl

/-- Witness for C32 on the 3×3 grid of the constructor with the draws
`0, 1, 2, …`. -/
theorem generateMaze_three_by_three_witness :
    ∃ m', generateMaze 2 (fun n => n) (MazeGenerator.new 3 3) = some m' ∧
      m'.width = 3 ∧ m'.height = 3 ∧
      (∀ x y, InRange m' x y → m'.cellAt x y = if x = 1 ∧ y = 1 then 'S' else '#') ∧
      (∀ x y, InRange m' x y → m'.cellAt x y ≠ 'E') ∧
      openCount m' = 1 ∧
      m'.setExitPosition (m'.width - 2) (m'.height - 2) = m' ∧
      m'.getStartPosition = (1, 1) ∧ m'.getExitPosition = (1, 1) :=
  generateMaze_three_by_three (MazeGenerator.new 3 3) (new_wf 3 3) rfl rfl 2 (fun n => n)
    (by decide)

end MazeRunner
